import Mathlib

/-!
# Hash table with chaining (`src/lib/libast/cdt/dthash.c`)

A shallow embedding of the `Dtset` / `Dtbag` method of the cdt library.

* Pointers are natural numbers, `0` is `NULL`.
* Link cells (`Dtlink_t`, seen through `Dthold_t`) live in a heap `Nat → Dtlink`;
  every pointer write of the C code is a heap update here.
* The slot array `hash->htbl` is a list of link pointers; `hash->tblz` is its length
  and the `NULL` array is the empty list.
* Loops over linked cells take a `fuel` bound and answer `none` when it runs out,
  which stands for a loop that does not terminate (a cyclic chain).
* `ssize_t` values are `Int`; they count live objects and stay far below `2^63`.
  The `unsigned int` walk counter wraps modulo `2^32`.
* The operation bitmask `type` is a record with one flag per `DT_*` bit.
-/

namespace Dthash

/-! ## Data model -/

/-- One link cell: `_rght`, `_hash` and the object it holds (`_DTOBJ`). -/
structure Dtlink where
  rght : Nat
  hash : Nat
  obj : Nat
deriving DecidableEq

/-- The heap of link cells. -/
abbrev Heap := Nat → Dtlink

/-- Discipline: key accessor (`_DTKEY`), comparator (`_DTCMP`), hasher (`_DTHSH`)
and the optional event hook, of which only the `DT_HASHSIZE` event matters here:
it receives `n` and answers its return value together with the new `n`. -/
structure Dtdisc where
  keyf : Nat → Nat
  comparf : Nat → Nat → Int
  hashf : Nat → Nat
  eventf : Option (Int → Int × Int)

/-- The operation bitmask, one flag per `DT_*` operation bit. -/
structure Ops where
  insert : Bool := false
  delete : Bool := false
  search : Bool := false
  next : Bool := false
  prev : Bool := false
  first : Bool := false
  last : Bool := false
  mtch : Bool := false
  attach : Bool := false
  detach : Bool := false
  append : Bool := false
  atleast : Bool := false
  atmost : Bool := false
  remove : Bool := false
  install : Bool := false
  step : Bool := false
  start : Bool := false
  stop : Bool := false
  relink : Bool := false
  flatten : Bool := false
  clear : Bool := false
  extract : Bool := false
  restore : Bool := false
  stat : Bool := false
deriving DecidableEq

/-- The table: `Dt_t` together with its `Dthash_t` data.
`fixed` and `flat` are the `H_FIXED` and `H_FLATTEN` bits of `hash->type`,
`bag` is `dt->meth->type & DT_BAG`.  `memoryf k` is the pointer the `k`-th
allocation request answers (`0` when it fails) and `nalloc` counts the requests
made so far; `fngr` holds the cursor cells handed out by `DT_START`; `freed`
logs the links given to `_dtfree`. -/
structure Dt where
  disc : Dtdisc
  bag : Bool
  memoryf : Nat → Nat
  nalloc : Nat
  size : Int
  fixed : Bool
  flat : Bool
  walk : Nat
  here : Nat
  htbl : List Nat
  heap : Heap
  fngr : Nat → Nat
  freed : List Nat

/-- The field `hash->tblz`: the number of slots of the table. -/
def Dt.tblz (dt : Dt) : Nat := dt.htbl.length

/-- Heap write `l->_rght = r`. -/
def setRght (hp : Heap) (l r : Nat) : Heap :=
  fun a => if a = l then { hp a with rght := r } else hp a

/-- Heap write `l->_hash = h`. -/
def setHash (hp : Heap) (l h : Nat) : Heap :=
  fun a => if a = l then { hp a with hash := h } else hp a

/-- Heap write of the object held by `l`. -/
def setObj (hp : Heap) (l o : Nat) : Heap :=
  fun a => if a = l then { hp a with obj := o } else hp a

/-- Cursor write `*f = l`. -/
def setFngr (fg : Nat → Nat) (f l : Nat) : Nat → Nat :=
  fun a => if a = f then l else fg a

/-- The object of a link, `_DTOBJ(disc, l)`. -/
def _DTOBJ (dt : Dt) (l : Nat) : Nat := (dt.heap l).obj

/-- The key of an object, `_DTKEY(disc, o)`. -/
def _DTKEY (dt : Dt) (o : Nat) : Nat := dt.disc.keyf o

/-- The hash of a key, `_DTHSH(dt, key, disc)`. -/
def _DTHSH (dt : Dt) (k : Nat) : Nat := dt.disc.hashf k

/-- The comparison of two keys, `_DTCMP(dt, k1, k2, disc)`. -/
def _DTCMP (dt : Dt) (k1 k2 : Nat) : Int := dt.disc.comparf k1 k2

/-- Release of a link, `_dtfree(dt, l, type)`: the link is logged as freed. -/
def _dtfree (dt : Dt) (l : Nat) : Dt := { dt with freed := l :: dt.freed }

/-- Modelled from the spec: `_dtmake` (the EntryFactory `makeEntry(object, opType)`)
is not part of the sources at hand.  It wraps the object in a link cell; `mk` is the
cell it comes up with, `0` when the allocation fails. -/
def _dtmake (dt : Dt) (obj mk : Nat) : Dt × Nat :=
  if mk = 0 then (dt, 0) else ({ dt with heap := setObj dt.heap mk obj }, mk)

/-! ## `dthash_htable`: make or resize the slot array -/

/-- Line 79: `for (k = 1 << DT_HTABLE; k < n;) k *= 2;`, started at `k`. -/
def hsize : Nat → Nat → Int → Nat
  | 0, k, _ => k
  | f + 1, k, n => if (k : Int) < n then hsize f (2 * k) n else k

/-- Lines 91-95: move the chain starting at `l` into the new array of `n` slots. -/
def moveChain (n : Nat) : Nat → Heap → List Nat → Nat → Option (Heap × List Nat)
  | 0, _, _, _ => none
  | f + 1, hp, htbl, l =>
    if l = 0 then some (hp, htbl)
    else
      let next := (hp l).rght
      let k := (hp l).hash &&& (n - 1)
      moveChain n f (setRght hp l (htbl.getD k 0)) (htbl.set k l) next

/-- Lines 90-96: move the chains of all old slots into the new array. -/
def moveTable (fuel n : Nat) : List Nat → Heap → List Nat → Option (Heap × List Nat)
  | [], hp, htbl => some (hp, htbl)
  | t :: ts, hp, htbl =>
    match moveChain n fuel hp htbl t with
    | none => none
    | some (hp1, htbl1) => moveTable fuel n ts hp1 htbl1

/-- Lines 64-75: the `DT_HASHSIZE` event.  Answers the new `H_FIXED` bit, the new
`n` and whether the function returns `0` at line 72. -/
def hashsizeEvent (dt : Dt) (n : Int) : Bool × Int × Bool :=
  match dt.disc.eventf with
  | none => (dt.fixed, n, false)
  | some ev =>
    if (ev n).1 > 0 then
      if (ev n).2 < 0 then (true, -(ev n).2, decide ((dt.tblz : Int) ≥ -(ev n).2))
      else (dt.fixed, (ev n).2, false)
    else (dt.fixed, (ev n).2, false)

/-- The function `dthash_htable` (lines 56-104); `H` is the constant `DT_HTABLE`.
Answers the table and the return code. -/
def dthash_htable (H fuel : Nat) (dt : Dt) : Option (Dt × Int) :=
  if 0 < dt.tblz ∧ dt.fixed = true then some (dt, 0)
  else
    let ev := hashsizeEvent dt dt.tblz
    let dt1 : Dt := { dt with fixed := ev.1 }
    if ev.2.2 then some (dt1, 0)
    else
      let n : Int := if ev.2.1 < dt1.size then dt1.size else ev.2.1
      let k := hsize n.toNat (2 ^ H) n
      if k ≤ dt1.tblz then some (dt1, 0)
      else
        let p := dt1.memoryf dt1.nalloc
        let dt2 : Dt := { dt1 with nalloc := dt1.nalloc + 1 }
        if p = 0 then some (dt2, -1)
        else
          match moveTable fuel k dt2.htbl dt2.heap (List.replicate k 0) with
          | none => none
          | some (hp, htbl) => some ({ dt2 with heap := hp, htbl := htbl }, 0)

/-! ## Clearing, first and next -/

/-- Lines 114-117: free every link of the chain starting at `l`. -/
def clearChain : Nat → Dt → Nat → Option Dt
  | 0, _, _ => none
  | f + 1, dt, l =>
    if l = 0 then some dt
    else clearChain f (_dtfree dt l) (dt.heap l).rght

/-- Lines 113-119: free the chains of the given slots. -/
def clearTable (fuel : Nat) : List Nat → Dt → Option Dt
  | [], dt => some dt
  | t :: ts, dt =>
    match clearChain fuel dt t with
    | none => none
    | some dt1 => clearTable fuel ts dt1

/-- The function `dthash_hclear` (lines 106-122). -/
def dthash_hclear (fuel : Nat) (dt : Dt) : Option (Dt × Nat) :=
  let dt1 : Dt := { dt with here := 0, size := 0 }
  match clearTable fuel dt1.htbl dt1 with
  | none => none
  | some dt2 => some ({ dt2 with htbl := List.replicate dt2.tblz 0 }, 0)

/-- The first non-`NULL` slot among the given ones, `NULL` when there is none
(the loops of lines 129-130 and 143-144). -/
def firstSlot : List Nat → Nat
  | [] => 0
  | t :: ts => if t ≠ 0 then t else firstSlot ts

/-- The function `dthash_hfirst` (lines 124-133). -/
def dthash_hfirst (dt : Dt) : Dt × Nat :=
  let lnk := firstSlot dt.htbl
  let dt1 : Dt := { dt with here := lnk }
  (dt1, if lnk ≠ 0 then _DTOBJ dt1 lnk else 0)

/-- The function `dthash_hnext` (lines 135-149). -/
def dthash_hnext (dt : Dt) (lnk : Nat) : Dt × Nat :=
  let next :=
    if (dt.heap lnk).rght = 0 then
      firstSlot (dt.htbl.drop (((dt.heap lnk).hash &&& (dt.tblz - 1)) + 1))
    else (dt.heap lnk).rght
  let dt1 : Dt := { dt with here := next }
  (dt1, if next ≠ 0 then _DTOBJ dt1 next else 0)

/-! ## Flatten, extract and restore -/

/-- Lines 158-165: thread the chain of one slot onto the running list.  The state is
the heap, the content of the slot, `head` and `tail`; `lnk` is the loop variable. -/
def flatChain (flat : Bool) : Nat → Heap → Nat → Nat → Nat → Nat →
    Option (Heap × Nat × Nat × Nat)
  | 0, _, _, _, _, _ => none
  | f + 1, hp, slot, head, tail, lnk =>
    if lnk = 0 then some (hp, slot, head, tail)
    else
      let hp1 := if tail ≠ 0 then setRght hp tail lnk else hp
      let head1 := if tail ≠ 0 then head else lnk
      flatChain flat f hp1 (if flat then lnk else 0) head1 lnk (hp1 lnk).rght

/-- Lines 157-166: thread the chains of all slots; answers the heap, the new slots,
`head` and `tail`. -/
def flatTable (flat : Bool) (fuel : Nat) : List Nat → Heap → Nat → Nat →
    Option (Heap × List Nat × Nat × Nat)
  | [], hp, head, tail => some (hp, [], head, tail)
  | t :: ts, hp, head, tail =>
    match flatChain flat fuel hp t head tail t with
    | none => none
    | some (hp1, slot, head1, tail1) =>
      match flatTable flat fuel ts hp1 head1 tail1 with
      | none => none
      | some (hp2, slots, head2, tail2) => some (hp2, slot :: slots, head2, tail2)

/-- Lines 183-185: walk from `lnk` to the link `t`; answers `NULL` when the list
ends first. -/
def findTail : Nat → Heap → Nat → Nat → Option Nat
  | 0, _, _, _ => none
  | f + 1, hp, t, lnk =>
    if lnk ≠ 0 ∧ lnk ≠ t then findTail f hp t (hp lnk).rght else some lnk

/-- Lines 179-191: give every slot its piece of the list back.  The flag answered
is false when line 186 returns early; the slots not yet visited are then left as
they are. -/
def restoreTable (fuel : Nat) : List Nat → Heap → Nat → Option (Heap × List Nat × Bool)
  | [], hp, _ => some (hp, [], true)
  | t :: ts, hp, head =>
    if t = 0 then
      match restoreTable fuel ts hp head with
      | none => none
      | some (hp1, slots, ok) => some (hp1, 0 :: slots, ok)
    else
      match findTail fuel hp t head with
      | none => none
      | some lnk =>
        if lnk = 0 then some (hp, t :: ts, false)
        else
          match restoreTable fuel ts (setRght hp lnk 0) (hp lnk).rght with
          | none => none
          | some (hp1, slots, ok) => some (hp1, head :: slots, ok)

/-- The operation code `DT_FLATTEN`. -/
def DT_FLATTEN : Ops := { flatten := true }

/-- The operation code `DT_EXTRACT`. -/
def DT_EXTRACT : Ops := { extract := true }

/-- The operation code `DT_RESTORE`. -/
def DT_RESTORE : Ops := { restore := true }

/-- The operation code `0` that `dthashchain` hands to `dthash_hflatten`. -/
def DT_NONE : Ops := {}

/-- The function `dthash_hflatten` (lines 151-196). -/
def dthash_hflatten (fuel : Nat) (dt : Dt) (type : Ops) : Option (Dt × Nat) :=
  if type = DT_FLATTEN ∨ type = DT_EXTRACT then
    match flatTable (decide (type = DT_FLATTEN)) fuel dt.htbl dt.heap 0 0 with
    | none => none
    | some (hp, slots, head, _) =>
      let dt1 : Dt := { dt with heap := hp, htbl := slots }
      if type = DT_FLATTEN then some ({ dt1 with here := head, flat := true }, head)
      else some ({ dt1 with size := 0 }, head)
  else
    match restoreTable fuel dt.htbl dt.heap dt.here with
    | none => none
    | some (hp, slots, ok) =>
      let dt1 : Dt := { dt with heap := hp, htbl := slots }
      if ok then some ({ dt1 with here := 0, flat := false }, 0)
      else some (dt1, 0)

/-- Lines 207-211: hand every link of the list to `searchf` under `DT_RELINK`. -/
def relinkList (searchf : Dt → Nat → Ops → Option (Dt × Nat)) :
    Nat → Dt → Nat → Option Dt
  | 0, _, _ => none
  | f + 1, dt, lnk =>
    if lnk = 0 then some dt
    else
      let next := (dt.heap lnk).rght
      let obj := _DTOBJ dt lnk
      match searchf dt lnk { relink := true } with
      | none => none
      | some (dt1, r) =>
        relinkList searchf f (if r = obj then { dt1 with size := dt1.size + 1 } else dt1) next

/-- The function `dthash_hlist` (lines 198-213); `searchf` is `dt->meth->searchf`. -/
def dthash_hlist (searchf : Dt → Nat → Ops → Option (Dt × Nat)) (fuel : Nat)
    (dt : Dt) (list : Nat) (type : Ops) : Option (Dt × Nat) :=
  if type.flatten then dthash_hflatten fuel dt DT_FLATTEN
  else if type.extract then dthash_hflatten fuel dt DT_EXTRACT
  else
    match relinkList searchf fuel { dt with size := 0 } list with
    | none => none
    | some dt1 => some (dt1, list)

/-- The function `dthash_hstat` (lines 215-239): the value returned is the number of
objects; the statistics record it fills is not part of the table. -/
def dthash_hstat (dt : Dt) : Dt × Nat := (dt, dt.size.toNat)

/-! ## `dthashchain`: the dispatcher -/

/-- Lines 331-351: scan the chain for the key.  `p` and `l` are the loop variables,
`pp` and `ll` the link before the match and the match; the answer is `(pp, ll)`
as they stand after line 351. -/
def scanChain (dt : Dt) (type : Ops) (key obj hsh : Nat) :
    Nat → Nat → Nat → Nat → Nat → Option (Nat × Nat)
  | 0, _, _, _, _ => none
  | f + 1, p, l, pp, ll =>
    if l = 0 then some (pp, ll)
    else if hsh = (dt.heap l).hash then
      if _DTCMP dt key (_DTKEY dt (_DTOBJ dt l)) ≠ 0 then
        scanChain dt type key obj hsh f l (dt.heap l).rght pp ll
      else if (type.remove || type.next || type.prev || type.step) ∧ _DTOBJ dt l ≠ obj then
        if type.next || type.prev || type.step then
          scanChain dt type key obj hsh f l (dt.heap l).rght p l
        else scanChain dt type key obj hsh f l (dt.heap l).rght pp ll
      else some (p, l)
    else scanChain dt type key obj hsh f l (dt.heap l).rght pp ll

/-- Lines 371-374 and 386-389: take `ll` out of the chain of slot `tbl`. -/
def unlink (dt : Dt) (tbl pp ll : Nat) : Dt :=
  if pp ≠ 0 then { dt with heap := setRght dt.heap pp (dt.heap ll).rght }
  else { dt with htbl := dt.htbl.set tbl (dt.heap ll).rght }

/-- Lines 421-438, the label `do_insert`: grow the table when allowed and needed,
make the link when there is none yet, and put it at the head of its chain. -/
def do_insert (H fuel mk : Nat) (dt : Dt) (obj hsh lnk : Nat) : Option (Dt × Nat) :=
  match (if dt.walk = 0 ∧ (dt.tblz : Int) < dt.size
         then (dthash_htable H fuel dt).map Prod.fst else some dt) with
  | none => none
  | some dt1 =>
    let tbl := hsh &&& (dt1.tblz - 1)
    let made := if lnk = 0 then _dtmake dt1 obj mk else (dt1, lnk)
    if made.2 = 0 then some (made.1, 0)
    else
      let dt2 : Dt := if lnk = 0 then { made.1 with size := made.1.size + 1 } else made.1
      let hp := setRght (setHash dt2.heap made.2 hsh) made.2 (dt2.htbl.getD tbl 0)
      some ({ dt2 with heap := hp, htbl := dt2.htbl.set tbl made.2, here := made.2 },
            (hp made.2).obj)

/-- Lines 310 and 365: `*fngr = dthash_hnext(dt, lnk) ? hash->here : NULL`. -/
def stepFngr (dt : Dt) (fngr lnk : Nat) : Dt :=
  let r := dthash_hnext dt lnk
  { r.1 with fngr := setFngr r.1.fngr fngr (if r.2 ≠ 0 then r.1.here else 0) }

/-- Lines 353-439: resolve the operation once the scan has set `pp` and `ll`.
`lnk`, `obj` and `hsh` are the variables of that name as lines 315-327 leave them. -/
def dthash_resolve (H fuel mk : Nat) (dt : Dt) (type : Ops) (fngr lnk obj hsh pp ll : Nat) :
    Option (Dt × Nat) :=
  let tbl := hsh &&& (dt.tblz - 1)
  if ll ≠ 0 then
    if type.search || type.mtch || type.atleast || type.atmost then
      some ({ dt with here := ll }, _DTOBJ dt ll)
    else if type.start then
      some ({ dt with here := ll, fngr := setFngr dt.fngr fngr ll,
                      walk := (dt.walk + 1) % 2 ^ 32 }, fngr)
    else if type.step then some (stepFngr dt fngr ll, obj)
    else if type.next || type.prev then some (dthash_hnext dt ll)
    else if type.delete || type.detach || type.remove then
      some (_dtfree (unlink { dt with size := dt.size - 1 } tbl pp ll) ll, _DTOBJ dt ll)
    else if type.install then
      if dt.bag then do_insert H fuel mk dt obj hsh lnk
      else if (_dtmake dt obj mk).2 = 0 then some ((_dtmake dt obj mk).1, 0)
      else
        do_insert H fuel mk (_dtfree (unlink (_dtmake dt obj mk).1 tbl pp ll) ll)
          obj hsh (_dtmake dt obj mk).2
    else
      if dt.bag then do_insert H fuel mk dt obj hsh lnk
      else if type.insert || type.append || type.attach then some (dt, _DTOBJ dt ll)
      else if lnk ≠ 0 ∧ type.relink then some (_dtfree dt lnk, _DTOBJ dt ll)
      else some (dt, _DTOBJ dt ll)
  else
    if ¬ (type.insert || type.install || type.append || type.attach || type.relink) then
      if type.start then some (dt, 0)
      else if type.step then some ({ dt with fngr := setFngr dt.fngr fngr 0 }, 0)
      else some (dt, 0)
    else do_insert H fuel mk dt obj hsh lnk

/-- Lines 315-439: locate the object by its key and resolve the operation. -/
def dthash_slow (H fuel mk : Nat) (dt : Dt) (obj0 : Nat) (type : Ops) (fngr : Nat) :
    Option (Dt × Nat) :=
  let lnk := if type.relink then obj0 else 0
  let obj := if type.relink then _DTOBJ dt obj0 else if type.mtch then 0 else obj0
  let key := if type.relink then _DTKEY dt (_DTOBJ dt obj0)
             else if type.mtch then obj0 else _DTKEY dt obj0
  let hsh := _DTHSH dt key
  match scanChain dt type key obj hsh fuel 0 (dt.htbl.getD (hsh &&& (dt.tblz - 1)) 0) 0 0 with
  | none => none
  | some (pp, ll) => dthash_resolve H fuel mk dt type fngr lnk obj hsh pp ll

/-- Lines 297-439: the fingered object first, then the search by key. -/
def dthash_lookup (H fuel mk : Nat) (dt0 : Dt) (obj : Nat) (type : Ops) (fngr : Nat) :
    Option (Dt × Nat) :=
  let lnk := dt0.here
  let dt : Dt := { dt0 with here := 0 }
  if lnk ≠ 0 ∧ obj = _DTOBJ dt lnk then
    if type.search then some (dt, obj)
    else if type.next || type.prev then some (dthash_hnext dt lnk)
    else if type.start then some ({ dt with fngr := setFngr dt.fngr fngr lnk }, fngr)
    else if type.step then some (stepFngr dt fngr lnk, obj)
    else dthash_slow H fuel mk dt obj type fngr
  else dthash_slow H fuel mk dt obj type fngr

/-- Line 260: the operations resolved before any lookup. -/
def Ops.early (type : Ops) : Bool :=
  type.start || type.step || type.stop || type.first || type.last || type.clear ||
  type.extract || type.restore || type.flatten || type.stat

/-- Lines 260-439 of `dthashchain`, what follows the set-up of the table: the
operations of line 260, then the lookup.  `searchf` is `dt->meth->searchf`, the
function `dthashchain` itself. -/
def dthashchain_body (searchf : Dt → Nat → Ops → Option (Dt × Nat)) (H fuel mk : Nat)
    (dt2 : Dt) (obj : Nat) (type : Ops) : Option (Dt × Nat) :=
  if type.early then
    if type.start then
      let fngr := dt2.memoryf dt2.nalloc
      let dt3 : Dt := { dt2 with nalloc := dt2.nalloc + 1 }
      if fngr = 0 then some (dt3, 0)
      else if obj = 0 then
        if (dthash_hfirst dt3).2 = 0 then some ((dthash_hfirst dt3).1, 0)
        else
          some ({ (dthash_hfirst dt3).1 with
                    walk := ((dthash_hfirst dt3).1.walk + 1) % 2 ^ 32,
                    fngr := setFngr dt3.fngr fngr (dthash_hfirst dt3).1.here },
                fngr)
      else dthash_lookup H fuel mk dt3 obj type fngr
    else if type.step then
      if obj = 0 ∨ dt2.fngr obj = 0 then some (dt2, 0)
      else
        dthash_lookup H fuel mk { dt2 with fngr := setFngr dt2.fngr obj 0 }
          (_DTOBJ dt2 (dt2.fngr obj)) type obj
    else if type.stop then
      some ({ dt2 with walk := (dt2.walk + 2 ^ 32 - 1) % 2 ^ 32 }, 0)
    else if type.first || type.last then some (dthash_hfirst dt2)
    else if type.clear then dthash_hclear fuel dt2
    else if type.stat then some (dthash_hstat dt2)
    else dthash_hlist searchf fuel dt2 obj type
  else dthash_lookup H fuel mk dt2 obj type 0

/-- The function `dthashchain` (lines 241-446): the check of the operation code,
the set-up of the table (lines 254-258) and then `dthashchain_body`.  `H` is
`DT_HTABLE` and `mk` the link `_dtmake` comes up with when this call asks for one.
The answer is the table and the pointer returned. -/
def dthashchain (H mk : Nat) : Nat → Dt → Nat → Ops → Option (Dt × Nat)
  | 0 => fun _ _ _ => none
  | fuel + 1 => fun dt obj type =>
    if type = DT_NONE then some (dt, 0)
    else
      match (if dt.htbl = [] then dthash_htable H (fuel + 1) dt else some (dt, 0)) with
      | none => none
      | some (dt1, rc) =>
        if rc < 0 then some (dt1, 0)
        else
          match (if dt1.flat then (dthash_hflatten (fuel + 1) dt1 DT_NONE).map Prod.fst
                 else some dt1) with
          | none => none
          | some dt2 => dthashchain_body (dthashchain H mk fuel) H (fuel + 1) mk dt2 obj type

/-! ## Operation codes -/

/-- The operation code `DT_INSERT`. -/
def DT_INSERT : Ops := { insert := true }

/-- The operation code `DT_APPEND`. -/
def DT_APPEND : Ops := { append := true }

/-- The operation code `DT_ATTACH`. -/
def DT_ATTACH : Ops := { attach := true }

/-- The operation code `DT_INSTALL`. -/
def DT_INSTALL : Ops := { install := true }

/-- The operation code `DT_DELETE`. -/
def DT_DELETE : Ops := { delete := true }

/-- The operation code `DT_DETACH`. -/
def DT_DETACH : Ops := { detach := true }

/-- The operation code `DT_REMOVE`. -/
def DT_REMOVE : Ops := { remove := true }

/-- The operation code `DT_SEARCH`. -/
def DT_SEARCH : Ops := { search := true }

/-- The operation code `DT_MATCH`. -/
def DT_MATCH : Ops := { mtch := true }

/-- The operation code `DT_START`. -/
def DT_START : Ops := { start := true }

/-- The operation code `DT_STEP`. -/
def DT_STEP : Ops := { step := true }

/-- The operation code `DT_STOP`. -/
def DT_STOP : Ops := { stop := true }

/-! ## Well-formed chains and tables -/

/-- `Seg hp p L q`: following `_rght` from `p` runs through the links `L`, none of
them `NULL`, and arrives at `q`. -/
def Seg (hp : Heap) : Nat → List Nat → Nat → Prop
  | p, [], q => p = q
  | p, a :: L, q => p = a ∧ a ≠ 0 ∧ Seg hp (hp a).rght L q

/-- `Chain hp p L`: the chain that starts at `p` is made of the links `L` and ends
with `NULL`. -/
def Chain (hp : Heap) (p : Nat) (L : List Nat) : Prop := Seg hp p L 0

/-- `Table hp ts Ls`: slot by slot, the chain of slot `ts[i]` is `Ls[i]`. -/
def Table (hp : Heap) : List Nat → List (List Nat) → Prop
  | [], [] => True
  | t :: ts, L :: Ls => Chain hp t L ∧ Table hp ts Ls
  | [], _ :: _ => False
  | _ :: _, [] => False

/-- `Placed hp n i Ls`: every link of `Ls[j]` has `_hash & (n - 1) = i + j`. -/
def Placed (hp : Heap) (n : Nat) : Nat → List (List Nat) → Prop
  | _, [] => True
  | i, L :: Ls => (∀ a ∈ L, (hp a).hash &&& (n - 1) = i) ∧ Placed hp n (i + 1) Ls

instance Seg.decide (hp : Heap) : ∀ (p : Nat) (L : List Nat) (q : Nat), Decidable (Seg hp p L q)
  | p, [], q => inferInstanceAs (Decidable (p = q))
  | p, a :: L, q =>
    have := Seg.decide hp (hp a).rght L q
    inferInstanceAs (Decidable (p = a ∧ a ≠ 0 ∧ Seg hp (hp a).rght L q))

instance Chain.decide (hp : Heap) (p : Nat) (L : List Nat) : Decidable (Chain hp p L) :=
  Seg.decide hp p L 0

instance Table.decide (hp : Heap) : ∀ (ts : List Nat) (Ls : List (List Nat)),
    Decidable (Table hp ts Ls)
  | [], [] => inferInstanceAs (Decidable True)
  | t :: ts, L :: Ls =>
    have := Table.decide hp ts Ls
    inferInstanceAs (Decidable (Chain hp t L ∧ Table hp ts Ls))
  | [], _ :: _ => inferInstanceAs (Decidable False)
  | _ :: _, [] => inferInstanceAs (Decidable False)

instance Placed.decide (hp : Heap) (n : Nat) : ∀ (i : Nat) (Ls : List (List Nat)),
    Decidable (Placed hp n i Ls)
  | _, [] => inferInstanceAs (Decidable True)
  | i, L :: Ls =>
    have := Placed.decide hp n (i + 1) Ls
    inferInstanceAs (Decidable ((∀ a ∈ L, (hp a).hash &&& (n - 1) = i) ∧ Placed hp n (i + 1) Ls))

/-- `LeastPow2 H c m`: `m` is the smallest power of two that is at least `2 ^ H` and
at least `c`. -/
def LeastPow2 (H : Nat) (c : Int) (m : Nat) : Prop :=
  ∃ j, m = 2 ^ j ∧ H ≤ j ∧ c ≤ (m : Int) ∧ ∀ i, H ≤ i → c ≤ ((2 ^ i : Nat) : Int) → j ≤ i

/-- Chains after link `a` has been put at the head of the chain of slot `k`. -/
def pushAt (Ns : List (List Nat)) (k a : Nat) : List (List Nat) :=
  Ns.set k (a :: Ns.getD k [])

/-- Chains after the links `L` have been moved, one after the other, to the head of
the chain of their slot in an array of `n` slots; `hs` reads the memoized hash. -/
def pushAll (hs : Nat → Nat) (n : Nat) (Ns : List (List Nat)) (L : List Nat) :
    List (List Nat) :=
  L.foldl (fun Ms a => pushAt Ms (hs a &&& (n - 1)) a) Ns

/-- The test at which the scan of lines 331-346 stops at link `l`. -/
def Stop (dt : Dt) (type : Ops) (key obj hsh l : Nat) : Prop :=
  hsh = (dt.heap l).hash ∧ _DTCMP dt key (_DTKEY dt (_DTOBJ dt l)) = 0 ∧
    ¬ ((type.remove || type.next || type.prev || type.step) ∧ _DTOBJ dt l ≠ obj)

instance Stop.decide (dt : Dt) (type : Ops) (key obj hsh l : Nat) :
    Decidable (Stop dt type key obj hsh l) := by
  unfold Stop; infer_instance

/-- `HashOk dt Ls`: the memoized hash of every link is the hash of the key of its
object. -/
def HashOk (dt : Dt) (Ls : List (List Nat)) : Prop :=
  ∀ a ∈ Ls.flatten, (dt.heap a).hash = _DTHSH dt (_DTKEY dt (_DTOBJ dt a))

/-- `WellFormed dt Ls`: the table is not flattened, the chains of its slots are the
lists `Ls` of pairwise distinct links, every link sits in the slot
`_hash & (tblz - 1)` and its memoized hash is the hash of its key. -/
def WellFormed (dt : Dt) (Ls : List (List Nat)) : Prop :=
  Table dt.heap dt.htbl Ls ∧ Ls.flatten.Nodup ∧ Placed dt.heap dt.tblz 0 Ls ∧
    HashOk dt Ls ∧ dt.flat = false

instance HashOk.decide (dt : Dt) (Ls : List (List Nat)) : Decidable (HashOk dt Ls) := by
  unfold HashOk; infer_instance

instance WellFormed.decide (dt : Dt) (Ls : List (List Nat)) : Decidable (WellFormed dt Ls) := by
  unfold WellFormed; infer_instance

/-- `Kept dt dt1`: the fields of the table that a resize leaves alone. -/
def Kept (dt dt1 : Dt) : Prop :=
  dt1.disc = dt.disc ∧ dt1.bag = dt.bag ∧ dt1.memoryf = dt.memoryf ∧ dt1.size = dt.size ∧
  dt1.flat = dt.flat ∧ dt1.walk = dt.walk ∧ dt1.here = dt.here ∧ dt1.fngr = dt.fngr ∧
  dt1.freed = dt.freed

/-! ## Example tables -/

/-- A heap given by the list of its cells; cell `0` is the one at `NULL`. -/
def heapOf (cells : List Dtlink) : Heap := fun a => cells.getD a ⟨0, 0, 0⟩

/-- An example discipline: the key of object `o` is `o / 10`, keys are compared as
numbers and a key is its own hash. -/
def exDisc : Dtdisc :=
  { keyf := fun o => o / 10, comparf := fun a b => (a : Int) - b, hashf := fun k => k,
    eventf := none }

/-- A table that has not been used yet: no slot array, no object. -/
def exNew (bag : Bool) : Dt :=
  { disc := exDisc, bag := bag, memoryf := fun k => 1000 + k, nalloc := 0, size := 0,
    fixed := false, flat := false, walk := 0, here := 0, htbl := [],
    heap := heapOf [], fngr := fun _ => 0, freed := [] }

/-- A table of four slots, as five insertions under `DT_HTABLE = 1` leave it: the
objects `10, 20, 30, 11, 41` sit in the links `1 .. 5`, and the chains of the slots
are `[5]`, `[4, 1]`, `[2]` and `[3]`.  The objects `10` and `11` share the key `1`. -/
def exBag : Dt :=
  { exNew true with
    size := 5, nalloc := 2, here := 5, htbl := [5, 4, 2, 3],
    heap := heapOf [⟨0, 0, 0⟩, ⟨0, 1, 10⟩, ⟨0, 2, 20⟩, ⟨0, 3, 30⟩, ⟨1, 1, 11⟩, ⟨0, 4, 41⟩] }

/-- The chains of `exBag`. -/
def exBagChains : List (List Nat) := [[5], [4, 1], [2], [3]]

/-- The table `exBag` once its count has reached `9`. -/
def exBag9 : Dt := { exBag with size := 9 }

/-- The table `exBag9` after `dthash_htable` has made it grow. -/
def exBag9Grown : Dt := ((dthash_htable 1 6 exBag9).getD (exBag9, 0)).1

/-- A new table whose first allocation request fails and whose later ones succeed. -/
def exAllocFail : Dt := { exNew false with memoryf := fun k => if k = 0 then 0 else 1000 + k }

/-- A new table with an event hook that always asks for one slot more than there is. -/
def exHook : Dt :=
  { exNew false with disc := { exDisc with eventf := some (fun n => (1, n + 1)) } }

/-- The slot count, the number of allocation requests made so far and the return
code of a call of `dthash_htable`. -/
def htableView (r : Option (Dt × Int)) : Option (Nat × Nat × Int) :=
  r.map (fun x => (x.1.tblz, x.1.nalloc, x.2))

/-- The second of two calls of `dthash_htable` in a row. -/
def htableTwice (H fuel : Nat) (dt : Dt) : Option (Dt × Int) :=
  (dthash_htable H fuel dt).bind (fun r => dthash_htable H fuel r.1)

/-- A table in set mode under `DT_HTABLE = 6`: 64 slots, and the objects `10`, `20`
and `30`, of keys `1`, `2` and `3`, in the links `1`, `2` and `3` of the slots `1`,
`2` and `3`. -/
def exSet64 : Dt :=
  { exNew false with
    size := 3, nalloc := 1, here := 3, htbl := 0 :: 1 :: 2 :: 3 :: List.replicate 60 0,
    heap := heapOf [⟨0, 0, 0⟩, ⟨0, 1, 10⟩, ⟨0, 2, 20⟩, ⟨0, 3, 30⟩] }

/-- The chains of `exSet64`. -/
def exSet64Chains : List (List Nat) := [] :: [1] :: [2] :: [3] :: List.replicate 60 []

/-- The table `exSet64` under a comparator that only looks at the parity of a key,
while the hash of a key is still the key itself. -/
def exSet64Parity : Dt :=
  { exSet64 with
    disc := { exDisc with comparf := fun a b => ((a % 2 : Nat) : Int) - ((b % 2 : Nat) : Int) } }

/-- A table in set mode under `DT_HTABLE = 6` with 64 slots and the `n` links `1` to
`n` (for `n` up to `128`): link `a` holds the object `10 * a`, of key and hash `a`,
and so sits in slot `a % 64`, in front of link `a - 64` when that one exists. -/
def exLoad (n : Nat) : Dt :=
  { exNew false with
    size := n, nalloc := 1, here := 0,
    htbl := (List.range 64).map (fun s =>
      if s + 128 ≤ n then s + 128 else if s + 64 ≤ n then s + 64 else if s ≤ n then s else 0),
    heap := fun a => ⟨if 64 < a then a - 64 else 0, a, 10 * a⟩ }

/-- The chains of `exLoad n`. -/
def exLoadChains (n : Nat) : List (List Nat) :=
  (List.range 64).map (fun s => [s + 128, s + 64, s].filter (fun a => 0 < a ∧ a ≤ n))

/-! ## Walking the table -/

/-- Modelled from the spec: the steps of a walk.  `DT_STEP` is called on the cursor
`fngr`, with no other operation in between, until a step returns `NULL`; the answer
is the table and the objects returned, in the order of their return.  `n` bounds the
number of steps. -/
def walkSteps (H mk fuel fngr : Nat) : Nat → Dt → Option (Dt × List Nat)
  | 0, _ => none
  | n + 1, dt =>
    match dthashchain H mk fuel dt fngr DT_STEP with
    | none => none
    | some (dt1, o) =>
      if o = 0 then some (dt1, [])
      else (walkSteps H mk fuel fngr n dt1).map (fun r => (r.1, o :: r.2))

/-- Modelled from the spec: a whole walk.  `DT_START` with no start object, then the
steps of `walkSteps` on the cursor it returns; no step when it returns `NULL`. -/
def dtwalk (H mk fuel n : Nat) (dt : Dt) : Option (Dt × List Nat) :=
  match dthashchain H mk fuel dt 0 DT_START with
  | none => none
  | some (dt1, fngr) => if fngr = 0 then some (dt1, []) else walkSteps H mk fuel fngr n dt1

/-- The table `exLoad 65`, 65 objects in 64 slots, under a discipline whose event hook
asks for a fixed size of 128 slots once there are 64, and with an allocator that has
served the first request and fails from then on. -/
def exFixFail : Dt :=
  { exLoad 65 with
    disc := { exDisc with eventf := some (fun n => if 64 ≤ n then (1, -128) else (0, n)) }
    memoryf := fun k => if k = 0 then 1000 else 0 }

/-- The operation code `DT_RELINK`. -/
def DT_RELINK : Ops := { relink := true }

/-! ## Keys without duplicate -/

/-- `UniqueKeys dt Ls`: no two links of the table hold objects whose keys compare
equal. -/
def UniqueKeys (dt : Dt) (Ls : List (List Nat)) : Prop :=
  ∀ a ∈ Ls.flatten, ∀ b ∈ Ls.flatten, a ≠ b →
    _DTCMP dt (_DTKEY dt (_DTOBJ dt a)) (_DTKEY dt (_DTOBJ dt b)) ≠ 0

instance UniqueKeys.decide (dt : Dt) (Ls : List (List Nat)) : Decidable (UniqueKeys dt Ls) := by
  unfold UniqueKeys; infer_instance

/-- The operation code `DT_CLEAR`. -/
def DT_CLEAR : Ops := { clear := true }

/-- The table `exBag`, five objects in four slots, while one walk is going on. -/
def exBagWalk : Dt := { exBag with walk := 1 }

/-- The table `exSet64` together with a link `4` that is in no chain and holds the
object `12`, whose key `1` is the key of the object `10` of link `1`. -/
def exSet64Relink : Dt :=
  { exSet64 with
    heap := heapOf [⟨0, 0, 0⟩, ⟨0, 1, 10⟩, ⟨0, 2, 20⟩, ⟨0, 3, 30⟩, ⟨0, 1, 12⟩] }

/-- The table `exSet64` together with two links that are in no chain and make up a
list: link `4`, which holds the object `40`, followed by link `5`, which holds the
object `50`. -/
def exSet64List : Dt :=
  { exSet64 with
    heap := heapOf [⟨0, 0, 0⟩, ⟨0, 1, 10⟩, ⟨0, 2, 20⟩, ⟨0, 3, 30⟩, ⟨5, 4, 40⟩, ⟨0, 5, 50⟩] }

/-! ## Lemmas -/

/-! ### Heap writes -/

theorem setRght_rght (hp : Heap) (l r x : Nat) :
    (setRght hp l r x).rght = if x = l then r else (hp x).rght := by
  unfold setRght; split <;> rfl

theorem setRght_hash (hp : Heap) (l r x : Nat) : (setRght hp l r x).hash = (hp x).hash := by
  unfold setRght; split <;> rfl

theorem setRght_obj (hp : Heap) (l r x : Nat) : (setRght hp l r x).obj = (hp x).obj := by
  unfold setRght; split <;> rfl

theorem setRght_ne (hp : Heap) (l r x : Nat) (h : x ≠ l) : setRght hp l r x = hp x := by
  unfold setRght; simp [h]

theorem setRght_self (hp : Heap) (l r : Nat) (h : (hp l).rght = r) : setRght hp l r = hp := by
  funext x
  unfold setRght
  by_cases hx : x = l
  · subst hx; subst h; simp
  · simp [hx]

theorem heap_ext (hp hp1 : Heap)
    (h : ∀ x, (hp1 x).rght = (hp x).rght ∧ (hp1 x).hash = (hp x).hash ∧ (hp1 x).obj = (hp x).obj) :
    hp1 = hp := by
  funext x
  obtain ⟨h1, h2, h3⟩ := h x
  cases hx : hp x
  cases hy : hp1 x
  simp_all

/-! ### Segments -/

theorem seg_zero_not_mem {hp : Heap} : ∀ {L : List Nat} {p q : Nat}, Seg hp p L q → 0 ∉ L
  | [], _, _, _ => by simp
  | a :: L, p, q, h => by
    obtain ⟨_, h2, h3⟩ := h
    simp only [List.mem_cons, not_or]
    exact ⟨fun h => h2 h.symm, seg_zero_not_mem h3⟩

theorem seg_frame {hp hp1 : Heap} : ∀ {L : List Nat} {p q : Nat},
    (∀ x ∈ L, (hp1 x).rght = (hp x).rght) → Seg hp p L q → Seg hp1 p L q
  | [], _, _, _, h => h
  | a :: L, p, q, hf, h => by
    obtain ⟨h1, h2, h3⟩ := h
    refine ⟨h1, h2, ?_⟩
    rw [hf a (List.mem_cons_self a L)]
    exact seg_frame (fun x hx => hf x (List.mem_cons_of_mem a hx)) h3

theorem seg_append {hp : Heap} : ∀ {L1 L2 : List Nat} {p q : Nat},
    Seg hp p (L1 ++ L2) q ↔ ∃ m, Seg hp p L1 m ∧ Seg hp m L2 q
  | [], L2, p, q => by
    constructor
    · intro h; exact ⟨p, rfl, h⟩
    · rintro ⟨m, h1, h2⟩
      have : p = m := h1
      subst this; exact h2
  | a :: L1, L2, p, q => by
    constructor
    · rintro ⟨h1, h2, h3⟩
      obtain ⟨m, h4, h5⟩ := seg_append.mp h3
      exact ⟨m, ⟨h1, h2, h4⟩, h5⟩
    · rintro ⟨m, ⟨h1, h2, h4⟩, h5⟩
      exact ⟨h1, h2, seg_append.mpr ⟨m, h4, h5⟩⟩

theorem seg_head_eq {hp : Heap} {L : List Nat} {p q : Nat} (h : Seg hp p L q) :
    p = L.headD q := by
  cases L with
  | nil => exact h
  | cons a L => exact h.1

/-- In a segment without repetition the `_rght` of a member is the next member. -/
theorem seg_rght_eq {hp : Heap} {L1 L2 : List Nat} {x p q : Nat}
    (h : Seg hp p (L1 ++ x :: L2) q) : (hp x).rght = L2.headD q := by
  obtain ⟨m, _, h2⟩ := seg_append.mp h
  exact seg_head_eq h2.2.2

/-- Rewriting the `_rght` of the last link of a segment redirects the segment. -/
theorem seg_relast {hp hp1 : Heap} : ∀ {L : List Nat} {p q q1 z : Nat},
    Seg hp p (L ++ [z]) q → z ∉ L →
    (∀ x ∈ L, (hp1 x).rght = (hp x).rght) → (hp1 z).rght = q1 → Seg hp1 p (L ++ [z]) q1
  | [], p, q, q1, z, h, _, _, hz => by
    obtain ⟨h1, h2, _⟩ := h
    exact ⟨h1, h2, hz⟩
  | a :: L, p, q, q1, z, h, hn, hf, hz => by
    obtain ⟨h1, h2, h3⟩ := h
    refine ⟨h1, h2, ?_⟩
    rw [hf a (List.mem_cons_self a L)]
    exact seg_relast h3 (fun hm => hn (List.mem_cons_of_mem a hm))
      (fun x hx => hf x (List.mem_cons_of_mem a hx)) hz

theorem seg_unique {hp : Heap} : ∀ {L1 L2 : List Nat} {p : Nat},
    Seg hp p L1 0 → Seg hp p L2 0 → L1 = L2
  | [], [], _, _, _ => rfl
  | [], b :: L2, p, h1, h2 => by
    have : p = 0 := h1
    exact absurd (h2.1.symm.trans this) h2.2.1
  | a :: L1, [], p, h1, h2 => by
    have : p = 0 := h2
    exact absurd (h1.1.symm.trans this) h1.2.1
  | a :: L1, b :: L2, p, h1, h2 => by
    have hab : a = b := h1.1.symm.trans h2.1
    subst hab
    rw [seg_unique h1.2.2 h2.2.2]

/-! ### Tables -/

theorem table_length_eq {hp : Heap} : ∀ {ts : List Nat} {Ls : List (List Nat)},
    Table hp ts Ls → ts.length = Ls.length
  | [], [], _ => rfl
  | t :: ts, L :: Ls, h => by simp [table_length_eq h.2]
  | [], _ :: _, h => h.elim
  | _ :: _, [], h => h.elim

theorem table_frame {hp hp1 : Heap} : ∀ {ts : List Nat} {Ls : List (List Nat)},
    (∀ x ∈ Ls.flatten, (hp1 x).rght = (hp x).rght) → Table hp ts Ls → Table hp1 ts Ls
  | [], [], _, _ => trivial
  | t :: ts, L :: Ls, hf, h => by
    refine ⟨seg_frame (fun x hx => hf x ?_) h.1, table_frame (fun x hx => hf x ?_) h.2⟩
    · simp [hx]
    · simp only [List.flatten_cons, List.mem_append]; exact Or.inr hx
  | [], _ :: _, _, h => h.elim
  | _ :: _, [], _, h => h.elim

theorem table_slots_eq {hp : Heap} : ∀ {ts : List Nat} {Ls : List (List Nat)},
    Table hp ts Ls → ts = Ls.map (fun L => L.headD 0)
  | [], [], _ => rfl
  | t :: ts, L :: Ls, h => by
    simp only [List.map_cons]
    rw [← table_slots_eq h.2, ← seg_head_eq h.1]
  | [], _ :: _, h => h.elim
  | _ :: _, [], h => h.elim

theorem table_zero_not_mem {hp : Heap} : ∀ {ts : List Nat} {Ls : List (List Nat)},
    Table hp ts Ls → 0 ∉ Ls.flatten
  | [], [], _ => by simp
  | t :: ts, L :: Ls, h => by
    simp only [List.flatten_cons, List.mem_append, not_or]
    exact ⟨seg_zero_not_mem h.1, table_zero_not_mem h.2⟩
  | [], _ :: _, h => h.elim
  | _ :: _, [], h => h.elim

/-- Two heaps that hold the same chains agree on the `_rght` of every member. -/
theorem table_rght_eq {hp hp1 : Heap} : ∀ {ts ts1 : List Nat} {Ls : List (List Nat)},
    Table hp ts Ls → Table hp1 ts1 Ls → Ls.flatten.Nodup →
    ∀ x ∈ Ls.flatten, (hp1 x).rght = (hp x).rght
  | [], [], [], _, _, _ => by simp
  | t :: ts, t1 :: ts1, L :: Ls, h, h1, hn => by
    intro x hx
    simp only [List.flatten_cons, List.mem_append] at hx
    rw [List.flatten_cons, List.nodup_append] at hn
    rcases hx with hx | hx
    · obtain ⟨A, B, hAB⟩ := List.append_of_mem hx
      have e1 := h.1; have e2 := h1.1
      unfold Chain at e1 e2
      rw [hAB] at e1 e2
      rw [seg_rght_eq e1, seg_rght_eq e2]
    · exact table_rght_eq h.2 h1.2 hn.2.1 x hx
  | [], _ :: _, [], _, h, _ => h.elim
  | _ :: _, _, [], h, _, _ => h.elim
  | [], _, _ :: _, h, _, _ => h.elim
  | _ :: _, [], _ :: _, _, h, _ => h.elim

/-! ### The size of the slot array -/

theorem hsize_spec : ∀ (f k : Nat) (n : Int), 0 < k → n ≤ ((k * 2 ^ f : Nat) : Int) →
    ∃ i, hsize f k n = k * 2 ^ i ∧ n ≤ ((k * 2 ^ i : Nat) : Int) ∧
      ∀ j, n ≤ ((k * 2 ^ j : Nat) : Int) → i ≤ j := by
  intro f
  induction f with
  | zero =>
    intro k n _ hn
    exact ⟨0, by simp [hsize], by simpa using hn, fun j _ => Nat.zero_le j⟩
  | succ f ih =>
    intro k n hk hn
    by_cases hlt : (k : Int) < n
    · have h2 : n ≤ ((2 * k * 2 ^ f : Nat) : Int) := by
        have : 2 * k * 2 ^ f = k * 2 ^ (f + 1) := by ring
        rw [this]; exact hn
      obtain ⟨i, h1, h3, h4⟩ := ih (2 * k) n (by omega) h2
      refine ⟨i + 1, ?_, ?_, ?_⟩
      · simp only [hsize, hlt, if_true, h1]; ring
      · have : k * 2 ^ (i + 1) = 2 * k * 2 ^ i := by ring
        rw [this]; exact h3
      · intro j hj
        cases j with
        | zero => simp at hj; omega
        | succ j =>
          have : k * 2 ^ (j + 1) = 2 * k * 2 ^ j := by ring
          rw [this] at hj
          have := h4 j hj
          omega
    · refine ⟨0, by simp [hsize, hlt], by simp; omega, fun j _ => Nat.zero_le j⟩

theorem hsize_pow (H : Nat) (n : Int) :
    ∃ j, H ≤ j ∧ hsize n.toNat (2 ^ H) n = 2 ^ j ∧ n ≤ ((2 ^ j : Nat) : Int) ∧
      ∀ i, H ≤ i → n ≤ ((2 ^ i : Nat) : Int) → j ≤ i := by
  have hfuel : n ≤ ((2 ^ H * 2 ^ n.toNat : Nat) : Int) := by
    have h1 : n ≤ (n.toNat : Int) := Int.self_le_toNat n
    have h2 : n.toNat < 2 ^ n.toNat := Nat.lt_two_pow n.toNat
    have h3 : 2 ^ n.toNat ≤ 2 ^ H * 2 ^ n.toNat := Nat.le_mul_of_pos_left _ (by positivity)
    have : (n.toNat : Int) ≤ ((2 ^ H * 2 ^ n.toNat : Nat) : Int) := by exact_mod_cast (by omega : n.toNat ≤ 2 ^ H * 2 ^ n.toNat)
    omega
  obtain ⟨i, h1, h2, h3⟩ := hsize_spec n.toNat (2 ^ H) n (by positivity) hfuel
  refine ⟨H + i, by omega, ?_, ?_, ?_⟩
  · rw [h1, pow_add]
  · rw [pow_add]; exact h2
  · intro j hj hn
    have : j = H + (j - H) := by omega
    rw [this, pow_add] at hn
    have := h3 (j - H) hn
    omega

theorem moveChain_length (n : Nat) : ∀ (f : Nat) (hp : Heap) (htbl : List Nat) (l : Nat)
    (hp1 : Heap) (htbl1 : List Nat),
    moveChain n f hp htbl l = some (hp1, htbl1) → htbl1.length = htbl.length := by
  intro f
  induction f with
  | zero => intro hp htbl l hp1 htbl1 h; simp [moveChain] at h
  | succ f ih =>
    intro hp htbl l hp1 htbl1 h
    unfold moveChain at h
    by_cases hl : l = 0
    · simp [hl] at h; rw [← h.2]
    · simp only [hl, if_false] at h
      have := ih _ _ _ _ _ h
      simpa using this

theorem moveTable_length (fuel n : Nat) : ∀ (ts : List Nat) (hp : Heap) (htbl : List Nat)
    (hp1 : Heap) (htbl1 : List Nat),
    moveTable fuel n ts hp htbl = some (hp1, htbl1) → htbl1.length = htbl.length := by
  intro ts
  induction ts with
  | nil => intro hp htbl hp1 htbl1 h; simp [moveTable] at h; rw [← h.2]
  | cons t ts ih =>
    intro hp htbl hp1 htbl1 h
    unfold moveTable at h
    cases hm : moveChain n fuel hp htbl t with
    | none => simp [hm] at h
    | some r =>
      obtain ⟨hp2, htbl2⟩ := r
      simp only [hm] at h
      rw [ih _ _ _ _ h, moveChain_length n fuel _ _ _ _ _ hm]

/-- What `dthash_htable` does when there is no event hook, by cases. -/
theorem dthash_htable_cases (H fuel : Nat) (dt : Dt) (hev : dt.disc.eventf = none) :
    let n : Int := if (dt.tblz : Int) < dt.size then dt.size else dt.tblz
    let k := hsize n.toNat (2 ^ H) n
    dthash_htable H fuel dt =
      if 0 < dt.tblz ∧ dt.fixed = true then some (dt, 0)
      else if k ≤ dt.tblz then some (dt, 0)
      else if dt.memoryf dt.nalloc = 0 then some ({ dt with nalloc := dt.nalloc + 1 }, -1)
      else
        match moveTable fuel k dt.htbl dt.heap (List.replicate k 0) with
        | none => none
        | some (hp, htbl) =>
          some ({ dt with nalloc := dt.nalloc + 1, heap := hp, htbl := htbl }, 0) := by
  intro n k
  unfold dthash_htable hashsizeEvent
  simp only [hev]
  by_cases h1 : 0 < dt.tblz ∧ dt.fixed = true
  · simp [h1]
  · simp only [h1, if_false, Bool.false_eq_true]

/-! ### Flatten -/

theorem getLastD_cons (a : Nat) (L : List Nat) (d : Nat) :
    (a :: L).getLastD d = L.getLastD a := by
  cases L <;> rfl

/-- Inside a chain the loop of `flatChain` writes what is already there. -/
theorem flatChain_inner (flat : Bool) : ∀ (L : List Nat) (f : Nat) (hp : Heap)
    (slot head tail l : Nat), Chain hp l L → tail ≠ 0 → (hp tail).rght = l → L.length < f →
    flatChain flat f hp slot head tail l =
      some (hp, (if L = [] then slot else if flat then L.getLastD 0 else 0), head,
            L.getLastD tail) := by
  intro L
  induction L with
  | nil =>
    intro f hp slot head tail l hc _ _ hf
    have hl : l = 0 := hc
    cases f with
    | zero => omega
    | succ f => simp [flatChain, hl]
  | cons a L ih =>
    intro f hp slot head tail l hc ht hr hf
    obtain ⟨h1, h2, h3⟩ := hc
    subst h1
    cases f with
    | zero => omega
    | succ f =>
      have hf2 : L.length < f := by simpa using hf
      unfold flatChain
      simp only [h2, if_false, ht, ne_eq, not_false_eq_true, if_true]
      rw [setRght_self hp tail l hr]
      rw [ih f hp _ head l (hp l).rght h3 h2 rfl hf2]
      cases L with
      | nil => simp
      | cons b L =>
        rw [getLastD_cons l, getLastD_cons l, getLastD_cons b L 0, getLastD_cons b L l]
        simp

/-- The loop of `flatChain` on a non-empty chain. -/
theorem flatChain_spec (flat : Bool) (L : List Nat) (f : Nat) (hp : Heap)
    (slot head tail t : Nat) (hc : Chain hp t L) (hne : L ≠ []) (ht : tail ∉ L)
    (hf : L.length < f) :
    flatChain flat f hp slot head tail t =
      some ((if tail ≠ 0 then setRght hp tail t else hp),
            (if flat then L.getLastD 0 else 0),
            (if tail ≠ 0 then head else t), L.getLastD 0) := by
  cases L with
  | nil => exact absurd rfl hne
  | cons a L =>
    obtain ⟨h1, h2, h3⟩ := hc
    subst h1
    cases f with
    | zero => omega
    | succ f =>
      have hf2 : L.length < f := by simpa using hf
      have hta : t ≠ tail := fun h => ht (by simp [h])
      unfold flatChain
      simp only [h2, if_false]
      have hc1 : Chain (if tail ≠ 0 then setRght hp tail t else hp)
          ((if tail ≠ 0 then setRght hp tail t else hp) t).rght L := by
        have hr : ((if tail ≠ 0 then setRght hp tail t else hp) t).rght = (hp t).rght := by
          split
          · rw [setRght_rght]; simp [hta]
          · rfl
        rw [hr]
        refine seg_frame ?_ h3
        intro x hx
        split
        · rw [setRght_rght]
          have : x ≠ tail := fun h => ht (by simp [← h, hx])
          simp [this]
        · rfl
      rw [flatChain_inner flat L f _ _ _ t _ hc1 h2 rfl hf2]
      cases L with
      | nil => simp
      | cons b L =>
        rw [getLastD_cons t, getLastD_cons b L 0, getLastD_cons b L t]
        simp

theorem flatChain_nil (flat : Bool) (f : Nat) (hp : Heap) (slot head tail : Nat) :
    flatChain flat (f + 1) hp slot head tail 0 = some (hp, slot, head, tail) := by
  simp [flatChain]

theorem getLastD_append_cons : ∀ (L1 : List Nat) (z : Nat) (L2 : List Nat) (d : Nat),
    (L1 ++ z :: L2).getLastD d = L2.getLastD z
  | [], z, L2, d => getLastD_cons z L2 d
  | a :: L1, z, L2, d => by
    rw [List.cons_append, getLastD_cons, getLastD_append_cons L1 z L2 a]

theorem exists_concat : ∀ (L : List Nat), L ≠ [] → ∃ L1 z, L = L1 ++ [z]
  | [], h => absurd rfl h
  | [a], _ => ⟨[], a, rfl⟩
  | a :: b :: L, _ => by
    obtain ⟨L1, z, h⟩ := exists_concat (b :: L) (by simp)
    exact ⟨a :: L1, z, by rw [h]; rfl⟩

/-- The loop of `flatTable`: the chains are threaded into one list, every slot is
left with the last link of its chain (or with `NULL`), and only `_rght` fields of
last links change. -/
theorem flatTable_spec (flat : Bool) (fuel : Nat) (hfuel : 0 < fuel) :
    ∀ (Ls : List (List Nat)) (ts : List Nat) (hp : Heap) (head tail : Nat),
    Table hp ts Ls → Ls.flatten.Nodup → tail ∉ Ls.flatten →
    (tail ≠ 0 → (hp tail).rght = 0) → (∀ L ∈ Ls, L.length < fuel) →
    ∃ hp1, flatTable flat fuel ts hp head tail =
        some (hp1, Ls.map (fun L => if flat then L.getLastD 0 else 0),
              (if tail ≠ 0 then head else Ls.flatten.headD head), Ls.flatten.getLastD tail) ∧
      Seg hp1 (Ls.flatten.headD 0) Ls.flatten 0 ∧
      (tail ≠ 0 → (hp1 tail).rght = Ls.flatten.headD 0) ∧
      (∀ x, x ∉ Ls.flatten → (x ≠ tail ∨ tail = 0) → hp1 x = hp x) ∧
      (∀ x, (hp1 x).hash = (hp x).hash ∧ (hp1 x).obj = (hp x).obj) := by
  intro Ls
  induction Ls with
  | nil =>
    intro ts hp head tail ht _ _ hr _
    cases ts with
    | cons t ts => exact ht.elim
    | nil =>
      refine ⟨hp, ?_, rfl, ?_, fun _ _ _ => rfl, fun _ => ⟨rfl, rfl⟩⟩
      · simp [flatTable]
      · intro h; simpa using hr h
  | cons L Ls ih =>
    intro ts hp head tail ht hn htl hr hfl
    cases ts with
    | nil => exact ht.elim
    | cons t ts =>
      obtain ⟨hc, ht2⟩ := ht
      rw [List.flatten_cons, List.nodup_append] at hn
      obtain ⟨hnL, hnLs, hdis⟩ := hn
      rw [List.flatten_cons, List.mem_append, not_or] at htl
      by_cases hL : L = []
      · -- an empty slot
        subst hL
        have ht0 : t = 0 := hc
        subst ht0
        obtain ⟨f, rfl⟩ : ∃ f, fuel = f + 1 := ⟨fuel - 1, by omega⟩
        obtain ⟨hp1, h1, h2, h3, h4, h5⟩ := ih ts hp head tail ht2 hnLs htl.2 hr
          (fun L hL => hfl L (List.mem_cons_of_mem _ hL))
        refine ⟨hp1, ?_, by simpa using h2, by simpa using h3, by simpa using h4, h5⟩
        simp only [flatTable, flatChain_nil, h1]
        simp
      · -- a chain `L1 ++ [z]`
        obtain ⟨L1, z, hLz⟩ := exists_concat L hL
        have hz0 : L.getLastD 0 = z := by rw [hLz]; exact List.getLastD_concat 0 z L1
        have hzL : z ∈ L := by rw [hLz]; simp
        have hzne : z ≠ 0 := fun h => seg_zero_not_mem hc (h ▸ hzL)
        have hzr : (hp z).rght = 0 := by
          have e := hc
          unfold Chain at e
          rw [hLz] at e
          exact seg_rght_eq e
        have htz : z ≠ tail := fun h => htl.1 (h ▸ hzL)
        have hta : t = L.headD 0 := seg_head_eq hc
        have htL : t ∈ L := by
          cases L with
          | nil => exact absurd rfl hL
          | cons a L => simp at hta; simp [hta]
        have hzLs : z ∉ Ls.flatten := fun h => hdis hzL h
        -- the heap after the chain of this slot
        let hpa : Heap := if tail ≠ 0 then setRght hp tail t else hp
        have hpa_r : ∀ x, x ≠ tail → hpa x = hp x := by
          intro x hx
          show (if tail ≠ 0 then setRght hp tail t else hp) x = hp x
          split
          · exact setRght_ne hp tail t x hx
          · rfl
        have hpa_t : tail ≠ 0 → (hpa tail).rght = t := by
          intro h
          show ((if tail ≠ 0 then setRght hp tail t else hp) tail).rght = t
          simp [h, setRght_rght]
        have hpa_ho : ∀ x, (hpa x).hash = (hp x).hash ∧ (hpa x).obj = (hp x).obj := by
          intro x
          show ((if tail ≠ 0 then setRght hp tail t else hp) x).hash = _ ∧
            ((if tail ≠ 0 then setRght hp tail t else hp) x).obj = _
          split
          · exact ⟨setRght_hash _ _ _ _, setRght_obj _ _ _ _⟩
          · exact ⟨rfl, rfl⟩
        have ht3 : Table hpa ts Ls := by
          refine table_frame ?_ ht2
          intro x hx
          rw [hpa_r x (fun h => htl.2 (h ▸ hx))]
        obtain ⟨hp1, h1, h2, h3, h4, h5⟩ := ih ts hpa (if tail ≠ 0 then head else t) z ht3 hnLs
          hzLs (fun _ => by rw [hpa_r z htz]; exact hzr)
          (fun L hL => hfl L (List.mem_cons_of_mem _ hL))
        have hseg : Seg hp1 t L (Ls.flatten.headD 0) := by
          have e := hc
          unfold Chain at e
          rw [hLz] at e ⊢
          rw [hLz, List.nodup_append] at hnL
          refine seg_relast e (fun h => hnL.2.2 h (by simp)) ?_ (h3 hzne)
          intro x hx
          have hxL : x ∈ L := by rw [hLz]; simp [hx]
          have hxz : x ≠ z := fun h => hnL.2.2 hx (by simp [h])
          rw [h4 x (fun h => hdis hxL h) (Or.inl hxz), hpa_r x (fun h => htl.1 (h ▸ hxL))]
        have hhead : ∀ d, (L ++ Ls.flatten).headD d = t := by
          intro d
          rw [hta]
          cases L with
          | nil => exact absurd rfl hL
          | cons a L => rfl
        refine ⟨hp1, ?_, ?_, ?_, ?_, ?_⟩
        · simp only [flatTable, flatChain_spec flat L fuel hp t head tail t hc hL htl.1
            (hfl L (List.mem_cons_self _ _)), hz0, h1]
          simp only [List.map_cons, List.flatten_cons, hz0, hhead, hzne, ne_eq,
            not_false_eq_true, if_true]
          rw [hLz, List.append_assoc, List.singleton_append, getLastD_append_cons]
        · rw [List.flatten_cons, hhead]
          exact seg_append.mpr ⟨_, hseg, h2⟩
        · intro h
          rw [List.flatten_cons, hhead, h4 tail htl.2 (Or.inl (Ne.symm htz))]
          exact hpa_t h
        · intro x hx hxt
          rw [List.flatten_cons, List.mem_append, not_or] at hx
          have hxz : x ≠ z := fun h => hx.1 (h ▸ hzL)
          rw [h4 x hx.2 (Or.inl hxz)]
          rcases hxt with hxt | hxt
          · exact hpa_r x hxt
          · show (if tail ≠ 0 then setRght hp tail t else hp) x = hp x
            simp [hxt]
        · intro x
          exact ⟨(h5 x).1.trans (hpa_ho x).1, (h5 x).2.trans (hpa_ho x).2⟩

/-! ### Restore -/

/-- The loop of `findTail` stops at the first occurrence of `z`. -/
theorem findTail_spec {hp : Heap} {z q : Nat} : ∀ (L1 : List Nat) (f p : Nat),
    Seg hp p (L1 ++ [z]) q → z ∉ L1 → L1.length < f → findTail f hp z p = some z := by
  intro L1
  induction L1 with
  | nil =>
    intro f p h _ hf
    have hp0 : p = z := h.1
    cases f with
    | zero => omega
    | succ f => simp [findTail, hp0]
  | cons a L1 ih =>
    intro f p h hn hf
    obtain ⟨h1, h2, h3⟩ := h
    subst h1
    cases f with
    | zero => omega
    | succ f =>
      have hpz : p ≠ z := fun h => hn (by simp [h])
      unfold findTail
      simp only [ne_eq, h2, not_false_eq_true, hpz, and_self, if_true]
      exact ih f _ h3 (fun h => hn (List.mem_cons_of_mem _ h)) (by simpa using hf)

/-- The loop of `restoreTable` on the list that `flatTable` has made. -/
theorem restoreTable_spec (fuel : Nat) :
    ∀ (Ls : List (List Nat)) (hp : Heap) (head : Nat),
    Seg hp head Ls.flatten 0 → Ls.flatten.Nodup → (∀ L ∈ Ls, L.length < fuel + 1) →
    ∃ hp1 ts, restoreTable fuel (Ls.map (fun L => L.getLastD 0)) hp head = some (hp1, ts, true) ∧
      Table hp1 ts Ls ∧
      (∀ x, x ∉ Ls.flatten → hp1 x = hp x) ∧
      (∀ x, (hp1 x).hash = (hp x).hash ∧ (hp1 x).obj = (hp x).obj) := by
  intro Ls
  induction Ls with
  | nil =>
    intro hp head _ _ _
    exact ⟨hp, [], by simp [restoreTable], trivial, fun _ _ => rfl, fun _ => ⟨rfl, rfl⟩⟩
  | cons L Ls ih =>
    intro hp head hs hn hfl
    rw [List.flatten_cons] at hs
    rw [List.flatten_cons, List.nodup_append] at hn
    obtain ⟨hnL, hnLs, hdis⟩ := hn
    by_cases hL : L = []
    · subst hL
      obtain ⟨hp1, ts, h1, h2, h3, h4⟩ := ih hp head (by simpa using hs) hnLs
        (fun L hL => hfl L (List.mem_cons_of_mem _ hL))
      refine ⟨hp1, 0 :: ts, ?_, ⟨rfl, h2⟩, by simpa using h3, h4⟩
      simp only [List.map_cons, List.getLastD_nil, restoreTable, if_true, h1]
    · obtain ⟨L1, z, hLz⟩ := exists_concat L hL
      have hzL : z ∈ L := by rw [hLz]; simp
      obtain ⟨m, hs1, hs2⟩ := seg_append.mp hs
      have hzne : z ≠ 0 := fun h => seg_zero_not_mem hs1 (h ▸ hzL)
      have hz0 : L.getLastD 0 = z := by rw [hLz]; exact List.getLastD_concat 0 z L1
      have hzr : (hp z).rght = m := by
        have e := hs1
        rw [hLz] at e
        exact seg_rght_eq e
      have hzL1 : z ∉ L1 := by
        rw [hLz, List.nodup_append] at hnL
        exact fun h => hnL.2.2 h (by simp)
      have hft : findTail fuel hp z head = some z := by
        have e := hs1
        rw [hLz] at e
        refine findTail_spec L1 fuel head e hzL1 ?_
        have := hfl L (List.mem_cons_self _ _)
        rw [hLz] at this
        simp at this
        omega
      have hzLs : z ∉ Ls.flatten := fun h => hdis hzL h
      have hs3 : Seg (setRght hp z 0) m Ls.flatten 0 := by
        refine seg_frame ?_ hs2
        intro x hx
        rw [setRght_ne _ _ _ _ (fun h : x = z => hzLs (h ▸ hx))]
      obtain ⟨hp1, ts, h1, h2, h3, h4⟩ := ih (setRght hp z 0) m hs3 hnLs
        (fun L hL => hfl L (List.mem_cons_of_mem _ hL))
      refine ⟨hp1, head :: ts, ?_, ⟨?_, h2⟩, ?_, ?_⟩
      · simp only [List.map_cons, hz0, restoreTable, hzne, if_false, hft, hzr, h1]
      · have e := hs1
        unfold Chain
        rw [hLz] at e ⊢
        refine seg_relast e hzL1 ?_ ?_
        · intro x hx
          have hxL : x ∈ L := by rw [hLz]; simp [hx]
          rw [h3 x (fun h => hdis hxL h), setRght_ne _ _ _ _ (fun h : x = z => hzL1 (h ▸ hx))]
        · rw [h3 z hzLs, setRght_rght]; simp
      · intro x hx
        rw [List.flatten_cons, List.mem_append, not_or] at hx
        rw [h3 x hx.2, setRght_ne _ _ _ _ (fun h : x = z => hx.1 (h ▸ hzL))]
      · intro x
        exact ⟨(h4 x).1.trans (setRght_hash _ _ _ _), (h4 x).2.trans (setRght_obj _ _ _ _)⟩

/-! ### Moving links into a new slot array -/

theorem pushAt_length (Ns : List (List Nat)) (k a : Nat) : (pushAt Ns k a).length = Ns.length := by
  simp [pushAt]

theorem pushAt_perm : ∀ (Ns : List (List Nat)) (k a : Nat), k < Ns.length →
    (pushAt Ns k a).flatten.Perm (a :: Ns.flatten)
  | [], k, a, h => by simp at h
  | M :: Ms, 0, a, _ => by simp [pushAt]
  | M :: Ms, k + 1, a, h => by
    have ih := pushAt_perm Ms k a (by simpa using h)
    simp only [pushAt, List.set_cons_succ, List.getD_cons_succ, List.flatten_cons] at ih ⊢
    refine (List.Perm.append_left M ih).trans ?_
    exact List.perm_middle

theorem table_pushAt {hp : Heap} {a : Nat} (ha : a ≠ 0) :
    ∀ {ts : List Nat} {Ns : List (List Nat)} {k : Nat}, Table hp ts Ns → a ∉ Ns.flatten →
    Table (setRght hp a (ts.getD k 0)) (ts.set k a) (pushAt Ns k a)
  | [], [], k, _, _ => by simp [pushAt, Table]
  | t :: ts, M :: Ms, 0, h, hn => by
    rw [List.flatten_cons, List.mem_append, not_or] at hn
    have hfr : ∀ x ∈ (M :: Ms).flatten, (setRght hp a t x).rght = (hp x).rght := by
      intro x hx
      rw [setRght_rght]
      have : x ≠ a := by
        rintro rfl
        rw [List.flatten_cons, List.mem_append] at hx
        exact hx.elim hn.1 hn.2
      simp [this]
    have h2 := table_frame hfr h
    refine ⟨⟨rfl, ha, ?_⟩, h2.2⟩
    have : (setRght hp a t a).rght = t := by rw [setRght_rght]; simp
    simp only [List.getD_cons_zero]
    rw [this]
    exact h2.1
  | t :: ts, M :: Ms, k + 1, h, hn => by
    rw [List.flatten_cons, List.mem_append, not_or] at hn
    have ih := table_pushAt ha (k := k) h.2 hn.2
    refine ⟨?_, ih⟩
    refine seg_frame ?_ h.1
    intro x hx
    rw [setRght_rght]
    have : x ≠ a := by rintro rfl; exact hn.1 hx
    simp [this]
  | [], _ :: _, _, h, _ => h.elim
  | _ :: _, [], _, h, _ => h.elim

theorem pushAll_length (hs : Nat → Nat) (n : Nat) : ∀ (L : List Nat) (Ns : List (List Nat)),
    (pushAll hs n Ns L).length = Ns.length
  | [], _ => rfl
  | a :: L, Ns => by
    show (pushAll hs n (pushAt Ns _ a) L).length = _
    rw [pushAll_length hs n L, pushAt_length]

theorem pushAll_perm (hs : Nat → Nat) (n : Nat) (hn : 0 < n) :
    ∀ (L : List Nat) (Ns : List (List Nat)), Ns.length = n →
    (pushAll hs n Ns L).flatten.Perm (L ++ Ns.flatten)
  | [], _, _ => List.Perm.refl _
  | a :: L, Ns, hl => by
    show (pushAll hs n (pushAt Ns _ a) L).flatten.Perm _
    have hk : hs a &&& (n - 1) < Ns.length := by
      have := @Nat.and_le_right (hs a) (n - 1)
      omega
    refine (pushAll_perm hs n hn L _ (by rw [pushAt_length, hl])).trans ?_
    refine (List.Perm.append_left L (pushAt_perm Ns _ a hk)).trans ?_
    exact List.perm_middle

theorem pushAll_append (hs : Nat → Nat) (n : Nat) (Ns : List (List Nat)) (L1 L2 : List Nat) :
    pushAll hs n Ns (L1 ++ L2) = pushAll hs n (pushAll hs n Ns L1) L2 := by
  simp [pushAll, List.foldl_append]

/-- The loop of `moveChain`: every link of the chain goes to the head of the chain of
its slot in the new array. -/
theorem moveChain_spec (n : Nat) (hs : Nat → Nat) :
    ∀ (L : List Nat) (f : Nat) (hp : Heap) (new : List Nat) (Ns : List (List Nat)) (l : Nat),
    Chain hp l L → Table hp new Ns → (L ++ Ns.flatten).Nodup →
    (∀ x, (hp x).hash = hs x) → L.length < f →
    ∃ hp1 new1, moveChain n f hp new l = some (hp1, new1) ∧
      Table hp1 new1 (pushAll hs n Ns L) ∧
      (∀ x, x ∉ L → hp1 x = hp x) ∧
      (∀ x, (hp1 x).hash = (hp x).hash ∧ (hp1 x).obj = (hp x).obj) := by
  intro L
  induction L with
  | nil =>
    intro f hp new Ns l hc ht _ _ hf
    have hl : l = 0 := hc
    cases f with
    | zero => omega
    | succ f =>
      exact ⟨hp, new, by simp [moveChain, hl], ht, fun _ _ => rfl, fun _ => ⟨rfl, rfl⟩⟩
  | cons a L ih =>
    intro f hp new Ns l hc ht hn hh hf
    obtain ⟨h1, h2, h3⟩ := hc
    subst h1
    cases f with
    | zero => omega
    | succ f =>
      rw [List.cons_append, List.nodup_cons, List.mem_append, not_or] at hn
      obtain ⟨⟨haL, haN⟩, hn2⟩ := hn
      have hfr : ∀ x, x ≠ l → setRght hp l (new.getD (hs l &&& (n - 1)) 0) x = hp x :=
        fun x hx => setRght_ne _ _ _ _ hx
      have hc1 : Chain (setRght hp l (new.getD (hs l &&& (n - 1)) 0)) (hp l).rght L := by
        refine seg_frame ?_ h3
        intro x hx
        rw [hfr x (fun h => haL (h ▸ hx))]
      have ht1 := table_pushAt h2 (k := hs l &&& (n - 1)) ht haN
      have hn3 : (L ++ (pushAt Ns (hs l &&& (n - 1)) l).flatten).Nodup := by
        rw [List.nodup_append] at hn2 ⊢
        by_cases hk : hs l &&& (n - 1) < Ns.length
        · have hp := pushAt_perm Ns _ l hk
          refine ⟨hn2.1, ?_, ?_⟩
          · rw [hp.nodup_iff, List.nodup_cons]; exact ⟨haN, hn2.2.1⟩
          · intro x hx hx2
            rw [hp.mem_iff, List.mem_cons] at hx2
            rcases hx2 with rfl | hx2
            · exact haL hx
            · exact hn2.2.2 hx hx2
        · have : pushAt Ns (hs l &&& (n - 1)) l = Ns := by
            unfold pushAt
            exact List.set_eq_of_length_le (by omega)
          rw [this]; exact hn2
      obtain ⟨hp1, new1, e1, e2, e3, e4⟩ := ih f _ _ _ _ hc1 ht1 hn3
        (fun x => by rw [setRght_hash]; exact hh x) (by simpa using hf)
      refine ⟨hp1, new1, ?_, e2, ?_, ?_⟩
      · unfold moveChain
        simp only [h2, if_false, hh l]
        exact e1
      · intro x hx
        rw [List.mem_cons, not_or] at hx
        rw [e3 x hx.2, hfr x hx.1]
      · intro x
        exact ⟨(e4 x).1.trans (setRght_hash _ _ _ _), (e4 x).2.trans (setRght_obj _ _ _ _)⟩

/-- The loop of `moveTable`: all links of the old chains are in the new array. -/
theorem moveTable_spec (n : Nat) (hs : Nat → Nat) (fuel : Nat) (hpos : 0 < n) :
    ∀ (Ls : List (List Nat)) (ts : List Nat) (hp : Heap) (new : List Nat) (Ns : List (List Nat)),
    Table hp ts Ls → Table hp new Ns → Ns.length = n → (Ls.flatten ++ Ns.flatten).Nodup →
    (∀ x, (hp x).hash = hs x) → (∀ L ∈ Ls, L.length < fuel) →
    ∃ hp1 new1, moveTable fuel n ts hp new = some (hp1, new1) ∧
      Table hp1 new1 (pushAll hs n Ns Ls.flatten) ∧
      (∀ x, x ∉ Ls.flatten → hp1 x = hp x) ∧
      (∀ x, (hp1 x).hash = (hp x).hash ∧ (hp1 x).obj = (hp x).obj) := by
  intro Ls
  induction Ls with
  | nil =>
    intro ts hp new Ns ht hN _ _ _ _
    cases ts with
    | cons t ts => exact ht.elim
    | nil => exact ⟨hp, new, by simp [moveTable], hN, fun _ _ => rfl, fun _ => ⟨rfl, rfl⟩⟩
  | cons L Ls ih =>
    intro ts hp new Ns ht hN hlen hn hh hfl
    cases ts with
    | nil => exact ht.elim
    | cons t ts =>
      rw [List.flatten_cons, List.append_assoc, List.nodup_append] at hn
      obtain ⟨hnL, hn2, hdis⟩ := hn
      have hnLN : (L ++ Ns.flatten).Nodup := by
        rw [List.nodup_append] at hn2 ⊢
        exact ⟨hnL, hn2.2.1, fun x hx hx2 => hdis hx (List.mem_append_right _ hx2)⟩
      obtain ⟨hp1, new1, e1, e2, e3, e4⟩ := moveChain_spec n hs L fuel hp new Ns t ht.1 hN hnLN hh
        (hfl L (List.mem_cons_self _ _))
      have ht2 : Table hp1 ts Ls := by
        refine table_frame ?_ ht.2
        intro x hx
        rw [e3 x (fun h => hdis h (List.mem_append_left _ hx))]
      have hperm := pushAll_perm hs n hpos L Ns hlen
      have hn3 : (Ls.flatten ++ (pushAll hs n Ns L).flatten).Nodup := by
        rw [List.nodup_append] at hn2 ⊢
        refine ⟨hn2.1, hperm.nodup_iff.mpr hnLN, ?_⟩
        intro x hx hx2
        rw [hperm.mem_iff, List.mem_append] at hx2
        rcases hx2 with hx2 | hx2
        · exact hdis hx2 (List.mem_append_left _ hx)
        · exact hn2.2.2 hx hx2
      obtain ⟨hp2, new2, g1, g2, g3, g4⟩ := ih ts hp1 new1 _ ht2 e2
        (by rw [pushAll_length, hlen]) hn3
        (fun x => by rw [(e4 x).1]; exact hh x) (fun L hL => hfl L (List.mem_cons_of_mem _ hL))
      refine ⟨hp2, new2, ?_, ?_, ?_, ?_⟩
      · simp only [moveTable, e1, g1]
      · rw [List.flatten_cons, pushAll_append]; exact g2
      · intro x hx
        rw [List.flatten_cons, List.mem_append, not_or] at hx
        rw [g3 x hx.2, e3 x hx.1]
      · intro x
        exact ⟨(g4 x).1.trans (e4 x).1, (g4 x).2.trans (e4 x).2⟩

theorem placed_congr {hp hp1 : Heap} {n : Nat} (h : ∀ x, (hp1 x).hash = (hp x).hash) :
    ∀ {i : Nat} {Ls : List (List Nat)}, Placed hp n i Ls → Placed hp1 n i Ls
  | _, [], _ => trivial
  | i, L :: Ls, hP => ⟨fun a ha => by rw [h a]; exact hP.1 a ha, placed_congr h hP.2⟩

theorem placed_pushAt {hp : Heap} {n a : Nat} :
    ∀ {i : Nat} {Ns : List (List Nat)} {k : Nat}, Placed hp n i Ns →
    (hp a).hash &&& (n - 1) = i + k → Placed hp n i (pushAt Ns k a)
  | _, [], _, _, _ => by simp [pushAt, Placed]
  | i, M :: Ms, 0, hP, hk => by
    refine ⟨?_, hP.2⟩
    intro x hx
    simp only [List.getD_cons_zero, List.mem_cons] at hx
    rcases hx with rfl | hx
    · simpa using hk
    · exact hP.1 x hx
  | i, M :: Ms, k + 1, hP, hk => by
    refine ⟨hP.1, ?_⟩
    exact placed_pushAt (k := k) hP.2 (by omega)

theorem placed_pushAll {hp : Heap} {n : Nat} : ∀ (L : List Nat) {Ns : List (List Nat)},
    Placed hp n 0 Ns → Placed hp n 0 (pushAll (fun x => (hp x).hash) n Ns L)
  | [], _, hP => hP
  | a :: L, Ns, hP => by
    show Placed hp n 0 (pushAll _ n (pushAt Ns _ a) L)
    exact placed_pushAll L (placed_pushAt hP (by simp))

theorem placed_replicate (hp : Heap) (n : Nat) : ∀ (k i : Nat),
    Placed hp n i (List.replicate k [])
  | 0, _ => trivial
  | k + 1, i => ⟨fun a ha => by simp at ha, placed_replicate hp n k (i + 1)⟩

theorem table_replicate (hp : Heap) : ∀ (k : Nat),
    Table hp (List.replicate k 0) (List.replicate k [])
  | 0 => trivial
  | k + 1 => ⟨rfl, table_replicate hp k⟩

theorem flatten_replicate_nil : ∀ (k : Nat), (List.replicate k ([] : List Nat)).flatten = []
  | 0 => rfl
  | k + 1 => by
    show ([] :: List.replicate k ([] : List Nat)).flatten = []
    rw [List.flatten_cons, flatten_replicate_nil k]; rfl

/-- In a placed table a link sits in the chain of the slot its hash names. -/
theorem placed_mem_getD {hp : Heap} {n : Nat} : ∀ {i : Nat} {Ls : List (List Nat)},
    Placed hp n i Ls → ∀ a ∈ Ls.flatten,
    ∃ j, (hp a).hash &&& (n - 1) = i + j ∧ a ∈ Ls.getD j []
  | _, [], _, a, ha => by simp at ha
  | i, L :: Ls, hP, a, ha => by
    rw [List.flatten_cons, List.mem_append] at ha
    rcases ha with ha | ha
    · exact ⟨0, hP.1 a ha, by simpa using ha⟩
    · obtain ⟨j, h1, h2⟩ := placed_mem_getD hP.2 a ha
      exact ⟨j + 1, by omega, by simpa using h2⟩

theorem length_le_flatten : ∀ (Ls : List (List Nat)) (L : List Nat), L ∈ Ls →
    L.length ≤ Ls.flatten.length
  | [], _, h => by simp at h
  | M :: Ls, L, h => by
    rw [List.flatten_cons, List.length_append]
    rcases List.mem_cons.mp h with h | h
    · subst h; omega
    · have := length_le_flatten Ls L h
      omega

theorem hashsizeEvent_ret (dt : Dt) (n : Int) (h : (hashsizeEvent dt n).2.2 = true) :
    0 < dt.tblz ∧ dt.disc.eventf ≠ none := by
  unfold hashsizeEvent at h
  cases hev : dt.disc.eventf with
  | none => simp [hev] at h
  | some ev =>
    simp only [hev] at h
    by_cases h1 : (ev n).1 > 0
    · by_cases h2 : (ev n).2 < 0
      · simp only [h1, h2, if_true, decide_eq_true_eq] at h
        exact ⟨by omega, by simp⟩
      · simp [h1, h2] at h
    · simp [h1] at h

/-- The outcome of `dthash_htable` on a table of well-formed chains: either the slot
array and the heap stay as they are, for one of four reasons (the size is fixed,
there is an event hook that has its say, the count fits, the allocation fails), or
the call returns `0` and every link has moved into a larger array that holds the
count. -/
theorem dthash_htable_spec (H fuel : Nat) (dt : Dt) (Ls : List (List Nat))
    (ht : Table dt.heap dt.htbl Ls) (hn : Ls.flatten.Nodup)
    (hfl : ∀ L ∈ Ls, L.length < fuel) :
    (∃ fx nal rc, dthash_htable H fuel dt = some ({ dt with fixed := fx, nalloc := nal }, rc) ∧
        (dt.htbl = [] → rc = -1 ∧ dt.memoryf dt.nalloc = 0) ∧
        (dt.fixed = true ∨ dt.disc.eventf ≠ none ∨ dt.size ≤ (dt.tblz : Int) ∨
          dt.memoryf dt.nalloc = 0)) ∨
    (∃ fx hp ts, dthash_htable H fuel dt =
        some ({ dt with fixed := fx, nalloc := dt.nalloc + 1, htbl := ts, heap := hp }, 0) ∧
      dt.memoryf dt.nalloc ≠ 0 ∧
      dt.tblz < ts.length ∧ dt.size ≤ (ts.length : Int) ∧ 2 ^ H ≤ ts.length ∧
      Table hp ts (pushAll (fun x => (dt.heap x).hash) ts.length
        (List.replicate ts.length []) Ls.flatten) ∧
      (∀ x, x ∉ Ls.flatten → hp x = dt.heap x) ∧
      (∀ x, (hp x).hash = (dt.heap x).hash ∧ (hp x).obj = (dt.heap x).obj)) := by
  unfold dthash_htable
  by_cases h1 : 0 < dt.tblz ∧ dt.fixed = true
  · left
    refine ⟨dt.fixed, dt.nalloc, 0, by rw [if_pos h1], ?_, Or.inl h1.2⟩
    intro h
    have : dt.tblz = 0 := by simp [Dt.tblz, h]
    omega
  · simp only [h1, if_false]
    have hret := hashsizeEvent_ret dt dt.tblz
    generalize hashsizeEvent dt dt.tblz = ev at hret
    obtain ⟨fx, n0, ret⟩ := ev
    simp only at hret ⊢
    by_cases h2 : ret = true
    · left
      refine ⟨fx, dt.nalloc, 0, by simp [h2], ?_, Or.inr (Or.inl (hret h2).2)⟩
      intro h
      have : dt.tblz = 0 := by simp [Dt.tblz, h]
      have := (hret h2).1
      omega
    · simp only [h2, Bool.false_eq_true, if_false]
      have htb : Dt.tblz { dt with fixed := fx } = dt.tblz := rfl
      simp only [htb]
      generalize hn1 : (if n0 < dt.size then dt.size else n0) = n
      have hsn : dt.size ≤ n := by rw [← hn1]; split <;> omega
      obtain ⟨j, hHj, hk, hnk, _⟩ := hsize_pow H n
      rw [hk]
      by_cases h3 : 2 ^ j ≤ dt.tblz
      · left
        refine ⟨fx, dt.nalloc, 0, by simp [h3], ?_, Or.inr (Or.inr (Or.inl ?_))⟩
        · intro h
          have : dt.tblz = 0 := by simp [Dt.tblz, h]
          have : 0 < 2 ^ j := by positivity
          omega
        · have : ((2 ^ j : Nat) : Int) ≤ (dt.tblz : Int) := by exact_mod_cast h3
          omega
      · simp only [h3, if_false]
        by_cases h4 : dt.memoryf dt.nalloc = 0
        · left
          exact ⟨fx, dt.nalloc + 1, -1, by simp [h4], fun _ => ⟨rfl, h4⟩,
            Or.inr (Or.inr (Or.inr h4))⟩
        · right
          simp only [h4, if_false]
          have hN : (Ls.flatten ++ (List.replicate (2 ^ j) ([] : List Nat)).flatten).Nodup := by
            rw [flatten_replicate_nil]; simpa using hn
          obtain ⟨hp1, new1, e1, e2, e3, e4⟩ := moveTable_spec (2 ^ j) (fun x => (dt.heap x).hash)
            fuel (by positivity) Ls dt.htbl dt.heap (List.replicate (2 ^ j) 0)
            (List.replicate (2 ^ j) []) ht (table_replicate _ _) (by simp) hN (fun _ => rfl) hfl
          have hlen : new1.length = 2 ^ j := by
            rw [moveTable_length _ _ _ _ _ _ _ e1]; simp
          refine ⟨fx, hp1, new1, ?_, h4, ?_, ?_, ?_, ?_, e3, e4⟩
          · simp only [e1]
          · rw [hlen]; omega
          · rw [hlen]; exact le_trans hsn hnk
          · rw [hlen]; exact Nat.pow_le_pow_right (by norm_num) hHj
          · rw [hlen]; exact e2

/-! ### The scan of a chain -/

theorem table_getD {hp : Heap} : ∀ {ts : List Nat} {Ls : List (List Nat)} (k : Nat),
    Table hp ts Ls → Chain hp (ts.getD k 0) (Ls.getD k [])
  | [], [], _, _ => rfl
  | t :: ts, L :: Ls, 0, h => h.1
  | t :: ts, L :: Ls, k + 1, h => by
    simpa using table_getD k h.2
  | [], _ :: _, _, h => h.elim
  | _ :: _, [], _, h => h.elim

theorem mem_flatten_of_getD {Ls : List (List Nat)} {k a : Nat} (h : a ∈ Ls.getD k []) :
    a ∈ Ls.flatten := by
  by_cases hk : k < Ls.length
  · rw [List.getD_eq_getElem _ _ hk] at h
    exact List.mem_flatten.mpr ⟨_, List.getElem_mem hk, h⟩
  · rw [List.getD_eq_default _ _ (by omega)] at h
    simp at h

/-- The scan always comes to an end on a well-formed chain. -/
theorem scanChain_total (dt : Dt) (type : Ops) (key obj hsh : Nat) :
    ∀ (L : List Nat) (f p l pp ll : Nat), Chain dt.heap l L → L.length < f →
    ∃ r, scanChain dt type key obj hsh f p l pp ll = some r := by
  intro L
  induction L with
  | nil =>
    intro f p l pp ll hc hf
    have hl : l = 0 := hc
    cases f with
    | zero => omega
    | succ f => exact ⟨(pp, ll), by simp [scanChain, hl]⟩
  | cons a L ih =>
    intro f p l pp ll hc hf
    obtain ⟨h1, h2, h3⟩ := hc
    subst h1
    cases f with
    | zero => omega
    | succ f =>
      have hf2 : L.length < f := by simpa using hf
      unfold scanChain
      simp only [h2, if_false]
      split
      · split
        · exact ih f _ _ _ _ h3 hf2
        · split
          · split
            · exact ih f _ _ _ _ h3 hf2
            · exact ih f _ _ _ _ h3 hf2
          · exact ⟨_, rfl⟩
      · exact ih f _ _ _ _ h3 hf2

/-- The scan for an operation other than `DT_NEXT`, `DT_PREV` and `DT_STEP` stops at
the first link that passes the test, with the link before it in `pp`. -/
theorem scanChain_find (dt : Dt) (type : Ops) (key obj hsh : Nat)
    (hnx : type.next = false) (hpv : type.prev = false) (hst : type.step = false)
    (x : Nat) (L2 : List Nat) (q : Nat) (hx : Stop dt type key obj hsh x) :
    ∀ (L1 : List Nat) (f p l pp ll : Nat), Seg dt.heap l (L1 ++ x :: L2) q →
    (∀ y ∈ L1, ¬ Stop dt type key obj hsh y) → L1.length < f →
    scanChain dt type key obj hsh f p l pp ll = some (L1.getLastD p, x) := by
  intro L1
  induction L1 with
  | nil =>
    intro f p l pp ll hs _ hf
    obtain ⟨h1, h2, _⟩ := hs
    subst h1
    cases f with
    | zero => omega
    | succ f =>
      obtain ⟨e1, e2, e3⟩ := hx
      unfold scanChain
      simp only [h2, if_false, e1, if_true, e2, ne_eq, not_true_eq_false, e3]
      rfl
  | cons a L1 ih =>
    intro f p l pp ll hs hno hf
    obtain ⟨h1, h2, h3⟩ := hs
    subst h1
    cases f with
    | zero => omega
    | succ f =>
      have hf2 : L1.length < f := by simpa using hf
      have hna := hno l (List.mem_cons_self _ _)
      have ih2 := fun pp ll => ih f l (dt.heap l).rght pp ll h3
        (fun y hy => hno y (List.mem_cons_of_mem _ hy)) hf2
      rw [getLastD_cons]
      unfold scanChain
      simp only [h2, if_false]
      split
      · rename_i e1
        split
        · exact ih2 _ _
        · rename_i e2
          split
          · simp only [hnx, hpv, hst, Bool.or_self, Bool.false_eq_true, if_false]
            exact ih2 _ _
          · rename_i e3
            exact absurd ⟨e1, not_not.mp e2, e3⟩ hna
      · exact ih2 _ _

/-- The scan for an operation other than `DT_NEXT`, `DT_PREV` and `DT_STEP` leaves
`pp` and `ll` alone when no link passes the test. -/
theorem scanChain_none (dt : Dt) (type : Ops) (key obj hsh : Nat)
    (hnx : type.next = false) (hpv : type.prev = false) (hst : type.step = false) :
    ∀ (L : List Nat) (f p l pp ll : Nat), Chain dt.heap l L →
    (∀ y ∈ L, ¬ Stop dt type key obj hsh y) → L.length < f →
    scanChain dt type key obj hsh f p l pp ll = some (pp, ll) := by
  intro L
  induction L with
  | nil =>
    intro f p l pp ll hc _ hf
    have hl : l = 0 := hc
    cases f with
    | zero => omega
    | succ f => simp [scanChain, hl]
  | cons a L ih =>
    intro f p l pp ll hc hno hf
    obtain ⟨h1, h2, h3⟩ := hc
    subst h1
    cases f with
    | zero => omega
    | succ f =>
      have hf2 : L.length < f := by simpa using hf
      have hna := hno l (List.mem_cons_self _ _)
      have ih2 := fun pp ll => ih f l (dt.heap l).rght pp ll h3
        (fun y hy => hno y (List.mem_cons_of_mem _ hy)) hf2
      unfold scanChain
      simp only [h2, if_false]
      split
      · rename_i e1
        split
        · exact ih2 _ _
        · rename_i e2
          split
          · simp only [hnx, hpv, hst, Bool.or_self, Bool.false_eq_true, if_false]
            exact ih2 _ _
          · rename_i e3
            exact absurd ⟨e1, not_not.mp e2, e3⟩ hna
      · exact ih2 _ _

/-- The first member of a list that has a property. -/
theorem exists_first (P : Nat → Prop) [DecidablePred P] : ∀ (L : List Nat), (∃ x ∈ L, P x) →
    ∃ L1 x L2, L = L1 ++ x :: L2 ∧ (∀ y ∈ L1, ¬ P y) ∧ P x
  | [], h => by obtain ⟨x, hx, _⟩ := h; simp at hx
  | a :: L, h => by
    by_cases ha : P a
    · exact ⟨[], a, L, rfl, by simp, ha⟩
    · have : ∃ x ∈ L, P x := by
        obtain ⟨x, hx, hPx⟩ := h
        rcases List.mem_cons.mp hx with rfl | hx
        · exact absurd hPx ha
        · exact ⟨x, hx, hPx⟩
      obtain ⟨L1, x, L2, e1, e2, e3⟩ := exists_first P L this
      refine ⟨a :: L1, x, L2, by rw [e1]; rfl, ?_, e3⟩
      intro y hy
      rcases List.mem_cons.mp hy with rfl | hy
      · exact ha
      · exact e2 y hy

/-- The outcome of the scan of `dthash_slow` on the chain of the slot of `hsh`, for an
operation other than `DT_NEXT`, `DT_PREV` and `DT_STEP`. -/
theorem scan_bucket (dt : Dt) (type : Ops) (key obj hsh : Nat) (Ls : List (List Nat))
    (fuel : Nat) (ht : Table dt.heap dt.htbl Ls) (hfuel : Ls.flatten.length < fuel)
    (hnx : type.next = false) (hpv : type.prev = false) (hst : type.step = false) :
    (∃ L1 x L2, Ls.getD (hsh &&& (dt.tblz - 1)) [] = L1 ++ x :: L2 ∧
        (∀ y ∈ L1, ¬ Stop dt type key obj hsh y) ∧ Stop dt type key obj hsh x ∧
        scanChain dt type key obj hsh fuel 0 (dt.htbl.getD (hsh &&& (dt.tblz - 1)) 0) 0 0 =
          some (L1.getLastD 0, x)) ∨
    ((∀ y ∈ Ls.getD (hsh &&& (dt.tblz - 1)) [], ¬ Stop dt type key obj hsh y) ∧
      scanChain dt type key obj hsh fuel 0 (dt.htbl.getD (hsh &&& (dt.tblz - 1)) 0) 0 0 =
        some (0, 0)) := by
  have hc := table_getD (hsh &&& (dt.tblz - 1)) ht
  have hlen : (Ls.getD (hsh &&& (dt.tblz - 1)) []).length < fuel := by
    by_cases hk : hsh &&& (dt.tblz - 1) < Ls.length
    · rw [List.getD_eq_getElem _ _ hk]
      exact lt_of_le_of_lt (length_le_flatten Ls _ (List.getElem_mem hk)) hfuel
    · rw [List.getD_eq_default _ _ (by omega)]
      exact lt_of_le_of_lt (Nat.zero_le _) hfuel
  by_cases hex : ∃ x ∈ Ls.getD (hsh &&& (dt.tblz - 1)) [], Stop dt type key obj hsh x
  · left
    obtain ⟨L1, x, L2, e1, e2, e3⟩ := exists_first _ _ hex
    refine ⟨L1, x, L2, e1, e2, e3, ?_⟩
    unfold Chain at hc
    rw [e1] at hc hlen
    refine scanChain_find dt type key obj hsh hnx hpv hst x L2 0 e3 L1 fuel 0 _ 0 0 hc e2 ?_
    simp at hlen; omega
  · right
    have hno : ∀ y ∈ Ls.getD (hsh &&& (dt.tblz - 1)) [], ¬ Stop dt type key obj hsh y :=
      fun y hy hs => hex ⟨y, hy, hs⟩
    exact ⟨hno, scanChain_none dt type key obj hsh hnx hpv hst _ fuel 0 _ 0 0 hc hno hlen⟩

theorem dthashchain_succ (H mk fuel : Nat) (dt : Dt) (obj : Nat) (type : Ops) :
    dthashchain H mk (fuel + 1) dt obj type =
      if type = DT_NONE then some (dt, 0)
      else
        match (if dt.htbl = [] then dthash_htable H (fuel + 1) dt else some (dt, 0)) with
        | none => none
        | some (dt1, rc) =>
          if rc < 0 then some (dt1, 0)
          else
            match (if dt1.flat then (dthash_hflatten (fuel + 1) dt1 DT_NONE).map Prod.fst
                   else some dt1) with
            | none => none
            | some dt2 =>
              dthashchain_body (dthashchain H mk fuel) H (fuel + 1) mk dt2 obj type := rfl

/-- The set-up of lines 254-258 on a well-formed table: either the slot array is
there and the body runs on the table as it is; or it is made first, and then the
call returns `NULL` when the allocation fails and runs the body on the table with
its new, empty slots otherwise. -/
theorem dthashchain_setup (H mk fuel : Nat) (dt : Dt) (obj : Nat) (type : Ops)
    (Ls : List (List Nat)) (hw : WellFormed dt Ls) (hty : type ≠ DT_NONE) :
    (dt.htbl ≠ [] ∧ dthashchain H mk (fuel + 1) dt obj type =
        dthashchain_body (dthashchain H mk fuel) H (fuel + 1) mk dt obj type) ∨
    (dt.htbl = [] ∧ Ls.flatten = [] ∧
      ((∃ fx nal, dt.memoryf dt.nalloc = 0 ∧ dthashchain H mk (fuel + 1) dt obj type =
          some ({ dt with fixed := fx, nalloc := nal }, 0)) ∨
       (∃ (fx : Bool) (k : Nat), 0 < k ∧ dt.size ≤ (k : Int) ∧ dt.memoryf dt.nalloc ≠ 0 ∧
          dthashchain H mk (fuel + 1) dt obj type =
            dthashchain_body (dthashchain H mk fuel) H (fuel + 1) mk
              { dt with fixed := fx, nalloc := dt.nalloc + 1, htbl := List.replicate k 0 }
              obj type))) := by
  obtain ⟨ht, hn, _, _, hflat⟩ := hw
  by_cases hnil : dt.htbl = []
  · right
    have hLs : Ls.flatten = [] := by
      have := table_length_eq ht
      rw [hnil] at this
      have : Ls = [] := List.length_eq_zero.mp this.symm
      rw [this]; rfl
    refine ⟨hnil, hLs, ?_⟩
    have hfl : ∀ L ∈ Ls, L.length < fuel + 1 := by
      intro L hL
      have := length_le_flatten Ls L hL
      rw [hLs] at this
      have : L.length = 0 := Nat.le_zero.mp this
      omega
    rcases dthash_htable_spec H (fuel + 1) dt Ls ht hn hfl with
      ⟨fx, nal, rc, h, hrc, _⟩ | ⟨fx, hp, ts, h, hmem, hlt, hsz, hpow, htab, hfr, _⟩
    · left
      obtain ⟨hrc1, hrc2⟩ := hrc hnil
      subst hrc1
      refine ⟨fx, nal, hrc2, ?_⟩
      rw [dthashchain_succ]
      simp only [hty, if_false, hnil, if_true, h]
      simp
    · right
      have hts : ts = List.replicate ts.length 0 := by
        have := table_slots_eq htab
        rw [hLs] at this
        have e : pushAll (fun x => (dt.heap x).hash) ts.length (List.replicate ts.length [])
            [] = List.replicate ts.length [] := rfl
        rw [e] at this
        rw [this]
        simp
      have hhp : hp = dt.heap := by
        funext x
        exact hfr x (by rw [hLs]; simp)
      refine ⟨fx, ts.length, by omega, hsz, hmem, ?_⟩
      rw [dthashchain_succ]
      simp only [hty, if_false, hnil, if_true, h]
      rw [← hts, hhp]
      simp [hflat]
  · left
    refine ⟨hnil, ?_⟩
    rw [dthashchain_succ]
    simp [hty, hnil, hflat]

/-- The search by key of an operation other than `DT_RELINK`, `DT_NEXT`, `DT_PREV`
and `DT_STEP` on a table of well-formed chains: it resolves the operation at the
first link of the chain of the slot that passes the test of the scan, or with
`ll = NULL` when there is none. -/
theorem slow_cases (H fuel mk : Nat) (dt : Dt) (obj0 : Nat) (type : Ops) (fngr : Nat)
    (Ls : List (List Nat)) (ht : Table dt.heap dt.htbl Ls) (hfuel : Ls.flatten.length < fuel)
    (hrl : type.relink = false)
    (hnx : type.next = false) (hpv : type.prev = false) (hst : type.step = false)
    (key obj : Nat)
    (hkey : key = if type.mtch then obj0 else _DTKEY dt obj0)
    (hobj : obj = if type.mtch then 0 else obj0) :
    (∃ L1 x L2, Ls.getD (_DTHSH dt key &&& (dt.tblz - 1)) [] = L1 ++ x :: L2 ∧
        (∀ y ∈ L1, ¬ Stop dt type key obj (_DTHSH dt key) y) ∧
        Stop dt type key obj (_DTHSH dt key) x ∧ x ≠ 0 ∧
        dthash_slow H fuel mk dt obj0 type fngr =
          dthash_resolve H fuel mk dt type fngr 0 obj (_DTHSH dt key) (L1.getLastD 0) x) ∨
    ((∀ y ∈ Ls.getD (_DTHSH dt key &&& (dt.tblz - 1)) [],
        ¬ Stop dt type key obj (_DTHSH dt key) y) ∧
      dthash_slow H fuel mk dt obj0 type fngr =
        dthash_resolve H fuel mk dt type fngr 0 obj (_DTHSH dt key) 0 0) := by
  have hslow : dthash_slow H fuel mk dt obj0 type fngr =
      match scanChain dt type key obj (_DTHSH dt key) fuel 0
          (dt.htbl.getD (_DTHSH dt key &&& (dt.tblz - 1)) 0) 0 0 with
      | none => none
      | some (pp, ll) => dthash_resolve H fuel mk dt type fngr 0 obj (_DTHSH dt key) pp ll := by
    subst hkey hobj
    unfold dthash_slow
    simp only [hrl, Bool.false_eq_true, if_false]
    try rfl
  rcases scan_bucket dt type key obj (_DTHSH dt key) Ls fuel ht hfuel hnx hpv hst with
    ⟨L1, x, L2, e1, e2, e3, e4⟩ | ⟨e1, e2⟩
  · left
    have hx0 : x ≠ 0 := by
      have := seg_zero_not_mem (table_getD (_DTHSH dt key &&& (dt.tblz - 1)) ht)
      rw [e1] at this
      intro h; exact this (by simp [h])
    exact ⟨L1, x, L2, e1, e2, e3, hx0, by rw [hslow, e4]⟩
  · right
    exact ⟨e1, by rw [hslow, e2]⟩

/-- The body of `dthashchain` runs the search by key, with the fingered link
cleared, for every operation that is neither among those of line 260 nor one of
`DT_SEARCH`, `DT_NEXT` and `DT_PREV`. -/
theorem body_slow (sf : Dt → Nat → Ops → Option (Dt × Nat)) (H fuel mk : Nat) (dt : Dt)
    (obj : Nat) (type : Ops) (he : type.early = false) (hs : type.search = false)
    (hnx : type.next = false) (hpv : type.prev = false) :
    dthashchain_body sf H fuel mk dt obj type =
      dthash_slow H fuel mk { dt with here := 0 } obj type 0 := by
  have h1 : type.start = false := by
    simp only [Ops.early, Bool.or_eq_false_iff] at he; tauto
  have h2 : type.step = false := by
    simp only [Ops.early, Bool.or_eq_false_iff] at he; tauto
  simp [dthashchain_body, dthash_lookup, he, hs, hnx, hpv, h1, h2]

/-- In a well-formed table a link whose memoized hash is `hsh` is in the chain of the
slot of `hsh`. -/
theorem mem_bucket (dt : Dt) (Ls : List (List Nat)) (hw : WellFormed dt Ls) (e hsh : Nat)
    (he : e ∈ Ls.flatten) (hh : (dt.heap e).hash = hsh) :
    e ∈ Ls.getD (hsh &&& (dt.tblz - 1)) [] := by
  obtain ⟨j, h1, h2⟩ := placed_mem_getD hw.2.2.1 e he
  rw [hh] at h1
  rw [h1]
  simpa using h2

/-- The table the set-up leaves is well formed when it has made the slot array. -/
theorem wellFormed_new (dt : Dt) (fx : Bool) (nal k : Nat) (hflat : dt.flat = false) :
    WellFormed { dt with fixed := fx, nalloc := nal, htbl := List.replicate k 0 }
      (List.replicate k []) := by
  refine ⟨table_replicate _ _, ?_, placed_replicate _ _ _ _, ?_, hflat⟩
  · rw [flatten_replicate_nil]; exact List.nodup_nil
  · intro a ha
    rw [flatten_replicate_nil] at ha
    simp at ha

/-- The test of the scan for an operation other than `DT_REMOVE`, `DT_NEXT`,
`DT_PREV` and `DT_STEP`: the hash and the key. -/
theorem stop_plain (dt : Dt) (type : Ops) (key obj hsh x : Nat) (hrm : type.remove = false)
    (hnx : type.next = false) (hpv : type.prev = false) (hst : type.step = false) :
    Stop dt type key obj hsh x ↔
      ((dt.heap x).hash = hsh ∧ _DTCMP dt key (_DTKEY dt (_DTOBJ dt x)) = 0) := by
  simp only [Stop, hrm, hnx, hpv, hst, Bool.or_self, Bool.false_eq_true, false_and,
    not_false_eq_true, and_true]
  constructor
  · rintro ⟨a, b⟩; exact ⟨a.symm, b⟩
  · rintro ⟨a, b⟩; exact ⟨a.symm, b⟩

/-- A table that holds a link has its slot array. -/
theorem htbl_ne_nil {hp : Heap} {ts : List Nat} {Ls : List (List Nat)} (ht : Table hp ts Ls)
    {e : Nat} (he : e ∈ Ls.flatten) : ts ≠ [] := by
  intro h
  subst h
  cases Ls with
  | nil => simp at he
  | cons L Ls => exact ht.elim

/-! ### Taking a link out of its chain -/

/-- A table read slot by slot. -/
theorem table_iff {hp : Heap} : ∀ {ts : List Nat} {Ls : List (List Nat)},
    Table hp ts Ls ↔ ts.length = Ls.length ∧ ∀ j, j < ts.length → Chain hp (ts.getD j 0) (Ls.getD j [])
  | [], [] => by simp [Table]
  | t :: ts, L :: Ls => by
    constructor
    · intro h
      refine ⟨by simp [table_length_eq h.2], ?_⟩
      intro j _
      exact table_getD j h
    · rintro ⟨h1, h2⟩
      refine ⟨by simpa using h2 0 (by simp), ?_⟩
      refine table_iff.mpr ⟨by simpa using h1, ?_⟩
      intro j hj
      simpa using h2 (j + 1) (by simpa using hj)
  | [], _ :: _ => by simp [Table]
  | _ :: _, [] => by simp [Table]

/-- The chains of two slots of a table of pairwise distinct links share no link. -/
theorem disjoint_getD : ∀ (Ls : List (List Nat)) (j k : Nat), Ls.flatten.Nodup → j ≠ k →
    ∀ a, a ∈ Ls.getD j [] → a ∈ Ls.getD k [] → False
  | [], _, _, _, _, a, h, _ => by simp at h
  | L :: Ls, 0, 0, _, h, _, _, _ => h rfl
  | L :: Ls, 0, k + 1, hn, _, a, h1, h2 => by
    rw [List.flatten_cons, List.nodup_append] at hn
    exact hn.2.2 (by simpa using h1) (mem_flatten_of_getD (k := k) (by simpa using h2))
  | L :: Ls, j + 1, 0, hn, _, a, h1, h2 => by
    rw [List.flatten_cons, List.nodup_append] at hn
    exact hn.2.2 (by simpa using h2) (mem_flatten_of_getD (k := j) (by simpa using h1))
  | L :: Ls, j + 1, k + 1, hn, h, a, h1, h2 => by
    rw [List.flatten_cons, List.nodup_append] at hn
    exact disjoint_getD Ls j k hn.2.1 (by omega) a (by simpa using h1) (by simpa using h2)

/-- Replacing the chain of one slot: what it does to the links of the table. -/
theorem flatten_set_perm : ∀ (Ls : List (List Nat)) (k : Nat) (M : List Nat), k < Ls.length →
    ((Ls.set k M).flatten ++ Ls.getD k []).Perm (Ls.flatten ++ M)
  | [], _, _, h => by simp at h
  | L :: Ls, 0, M, _ => by
    simp only [List.set_cons_zero, List.flatten_cons, List.getD_cons_zero]
    have h1 : (M ++ Ls.flatten ++ L).Perm (L ++ (M ++ Ls.flatten)) := List.perm_append_comm
    have h2 : (L ++ (M ++ Ls.flatten)).Perm (L ++ (Ls.flatten ++ M)) :=
      List.Perm.append_left L List.perm_append_comm
    rw [List.append_assoc L]
    exact h1.trans h2
  | L :: Ls, k + 1, M, h => by
    have ih := flatten_set_perm Ls k M (by simpa using h)
    simp only [List.set_cons_succ, List.flatten_cons, List.getD_cons_succ, List.append_assoc]
    exact List.Perm.append_left L ih

theorem getD_set_self (Ls : List (List Nat)) (k : Nat) (M : List Nat) (h : k < Ls.length) :
    (Ls.set k M).getD k [] = M := by
  rw [List.getD_eq_getElem _ _ (by simpa using h)]
  simp

theorem getD_set_ne (Ls : List (List Nat)) (j k : Nat) (M : List Nat) (h : j ≠ k) :
    (Ls.set k M).getD j [] = Ls.getD j [] := by
  simp only [List.getD_eq_getElem?_getD]
  rw [List.getElem?_set_ne (Ne.symm h)]

theorem getD_set_self_nat (ts : List Nat) (k r : Nat) (h : k < ts.length) :
    (ts.set k r).getD k 0 = r := by
  rw [List.getD_eq_getElem _ _ (by simpa using h)]
  simp

theorem getD_set_ne_nat (ts : List Nat) (j k r : Nat) (h : j ≠ k) :
    (ts.set k r).getD j 0 = ts.getD j 0 := by
  simp only [List.getD_eq_getElem?_getD]
  rw [List.getElem?_set_ne (Ne.symm h)]

/-- Placement read slot by slot. -/
theorem placed_iff {hp : Heap} {n : Nat} : ∀ {i : Nat} {Ls : List (List Nat)},
    Placed hp n i Ls ↔ ∀ j, j < Ls.length → ∀ a ∈ Ls.getD j [], (hp a).hash &&& (n - 1) = i + j
  | _, [] => by simp [Placed]
  | i, L :: Ls => by
    constructor
    · rintro ⟨h1, h2⟩ j hj a ha
      cases j with
      | zero => exact h1 a (by simpa using ha)
      | succ j =>
        have := (placed_iff.mp h2) j (by simpa using hj) a (by simpa using ha)
        omega
    · intro h
      refine ⟨fun a ha => h 0 (by simp) a (by simpa using ha), placed_iff.mpr ?_⟩
      intro j hj a ha
      have := h (j + 1) (by simpa using hj) a (by simpa using ha)
      omega

theorem nodup_getD : ∀ (Ls : List (List Nat)) (k : Nat), Ls.flatten.Nodup → (Ls.getD k []).Nodup
  | [], _, _ => by simp
  | L :: Ls, 0, hn => by
    rw [List.flatten_cons, List.nodup_append] at hn
    simpa using hn.1
  | L :: Ls, k + 1, hn => by
    rw [List.flatten_cons, List.nodup_append] at hn
    simpa using nodup_getD Ls k hn.2.1

theorem lt_length_of_getD {Ls : List (List Nat)} {k a : Nat} (h : a ∈ Ls.getD k []) :
    k < Ls.length := by
  by_contra hk
  rw [List.getD_eq_default _ _ (by omega)] at h
  simp at h

theorem unlink_fields (dt : Dt) (k pp ll : Nat) :
    (unlink dt k pp ll).size = dt.size ∧ (unlink dt k pp ll).disc = dt.disc ∧
    (unlink dt k pp ll).bag = dt.bag ∧ (unlink dt k pp ll).walk = dt.walk ∧
    (unlink dt k pp ll).here = dt.here ∧ (unlink dt k pp ll).flat = dt.flat ∧
    (unlink dt k pp ll).fixed = dt.fixed ∧ (unlink dt k pp ll).nalloc = dt.nalloc ∧
    (unlink dt k pp ll).memoryf = dt.memoryf ∧ (unlink dt k pp ll).fngr = dt.fngr ∧
    (unlink dt k pp ll).freed = dt.freed ∧ (unlink dt k pp ll).tblz = dt.tblz ∧
    (∀ y, ((unlink dt k pp ll).heap y).hash = (dt.heap y).hash ∧
      ((unlink dt k pp ll).heap y).obj = (dt.heap y).obj) := by
  unfold unlink
  split
  · refine ⟨rfl, rfl, rfl, rfl, rfl, rfl, rfl, rfl, rfl, rfl, rfl, rfl, ?_⟩
    intro y
    exact ⟨setRght_hash _ _ _ _, setRght_obj _ _ _ _⟩
  · refine ⟨rfl, rfl, rfl, rfl, rfl, rfl, rfl, rfl, rfl, rfl, rfl, ?_, fun _ => ⟨rfl, rfl⟩⟩
    simp [Dt.tblz]

/-- Lines 371-374 on a table of well-formed chains: the link `x` leaves the chain of
its slot, the other links stay, in the order they had. -/
theorem unlink_table (dt : Dt) (Ls : List (List Nat)) (k : Nat) (L1 : List Nat) (x : Nat)
    (L2 : List Nat) (ht : Table dt.heap dt.htbl Ls) (hn : Ls.flatten.Nodup)
    (hb : Ls.getD k [] = L1 ++ x :: L2) :
    Table (unlink dt k (L1.getLastD 0) x).heap (unlink dt k (L1.getLastD 0) x).htbl
      (Ls.set k (L1 ++ L2)) := by
  have hk : k < Ls.length := lt_length_of_getD (a := x) (by rw [hb]; simp)
  obtain ⟨hlen, hall⟩ := table_iff.mp ht
  have hck := hall k (by omega)
  rw [hb] at hck
  have hnk := nodup_getD Ls k hn
  rw [hb] at hnk
  rcases List.eq_nil_or_concat L1 with h1 | ⟨L0, p, h1⟩
  · -- `x` is the head of its chain
    subst h1
    have hu : unlink dt k (([] : List Nat).getLastD 0) x =
        { dt with htbl := dt.htbl.set k (dt.heap x).rght } := by
      simp [unlink]
    rw [hu]
    show Table dt.heap (dt.htbl.set k (dt.heap x).rght) _
    refine table_iff.mpr ⟨by simp [hlen], ?_⟩
    intro j hj
    by_cases hjk : j = k
    · subst hjk
      rw [getD_set_self_nat _ _ _ (by omega), getD_set_self _ _ _ hk]
      exact hck.2.2
    · rw [getD_set_ne_nat _ _ _ _ hjk, getD_set_ne _ _ _ _ hjk]
      exact hall j (by simpa using hj)
  · -- `x` comes after `p`
    rw [List.concat_eq_append] at h1
    subst h1
    have hp0 : p ≠ 0 := by
      have := seg_zero_not_mem hck
      intro h; exact this (by simp [h])
    have hu : unlink dt k ((L0 ++ [p]).getLastD 0) x =
        { dt with heap := setRght dt.heap p (dt.heap x).rght } := by
      rw [List.getLastD_concat]
      simp [unlink, hp0]
    rw [hu]
    show Table (setRght dt.heap p (dt.heap x).rght) dt.htbl _
    have hpk : p ∈ Ls.getD k [] := by rw [hb]; simp
    rw [List.append_assoc, List.nodup_append] at hnk
    obtain ⟨hn0, hn1, hn2⟩ := hnk
    have hpL0 : p ∉ L0 := fun h => hn2 h (by simp)
    have hpL2 : p ∉ L2 := by
      intro h
      have : ([p] ++ x :: L2).Nodup := hn1
      rw [List.nodup_append] at this
      exact this.2.2 (by simp) (List.mem_cons_of_mem _ h)
    refine table_iff.mpr ⟨by simp [hlen], ?_⟩
    intro j hj
    by_cases hjk : j = k
    · subst hjk
      rw [getD_set_self _ _ _ hk]
      unfold Chain at hck ⊢
      obtain ⟨m, s1, s2⟩ := seg_append.mp hck
      have hm : m = x := s2.1
      subst hm
      refine seg_append.mpr ⟨(dt.heap m).rght, ?_, ?_⟩
      · refine seg_relast s1 hpL0 ?_ ?_
        · intro y hy
          rw [setRght_ne _ _ _ _ (fun h : y = p => hpL0 (h ▸ hy))]
        · rw [setRght_rght]; simp
      · refine seg_frame ?_ s2.2.2
        intro y hy
        rw [setRght_ne _ _ _ _ (fun h : y = p => hpL2 (h ▸ hy))]
    · rw [getD_set_ne _ _ _ _ hjk]
      refine seg_frame ?_ (hall j hj)
      intro y hy
      rw [setRght_ne _ _ _ _ (fun h : y = p => disjoint_getD Ls j k hn hjk p (h ▸ hy) hpk)]

/-- The links of the table once `x` has left its chain. -/
theorem unlink_perm (Ls : List (List Nat)) (k : Nat) (L1 : List Nat) (x : Nat) (L2 : List Nat)
    (hb : Ls.getD k [] = L1 ++ x :: L2) :
    Ls.flatten.Perm (x :: (Ls.set k (L1 ++ L2)).flatten) := by
  have hk : k < Ls.length := lt_length_of_getD (a := x) (by rw [hb]; simp)
  have h := flatten_set_perm Ls k (L1 ++ L2) hk
  rw [hb] at h
  have h2 : ((Ls.set k (L1 ++ L2)).flatten ++ (L1 ++ x :: L2)).Perm
      ((x :: (Ls.set k (L1 ++ L2)).flatten) ++ (L1 ++ L2)) := by
    refine (List.Perm.append_left _ List.perm_middle).trans ?_
    exact List.perm_middle
  exact ((List.perm_append_right_iff (L1 ++ L2)).mp (h2.symm.trans h)).symm

/-- A table stays well formed when a link leaves its chain (lines 370-378). -/
theorem wellFormed_unlink (dt : Dt) (Ls : List (List Nat)) (k : Nat) (L1 : List Nat) (x : Nat)
    (L2 : List Nat) (hw : WellFormed dt Ls) (hb : Ls.getD k [] = L1 ++ x :: L2) (sz : Int) :
    WellFormed (_dtfree (unlink { dt with size := sz } k (L1.getLastD 0) x) x)
      (Ls.set k (L1 ++ L2)) := by
  obtain ⟨ht, hn, hpl, hh, hflat⟩ := hw
  have hk : k < Ls.length := lt_length_of_getD (a := x) (by rw [hb]; simp)
  have htab := unlink_table { dt with size := sz } Ls k L1 x L2 ht hn hb
  have hperm := unlink_perm Ls k L1 x L2 hb
  have hf := unlink_fields { dt with size := sz } k (L1.getLastD 0) x
  obtain ⟨_, hdisc, _, _, _, hfl, _, _, _, _, _, htz, hho⟩ := hf
  have hsub : ∀ a, a ∈ (Ls.set k (L1 ++ L2)).flatten → a ∈ Ls.flatten := by
    intro a ha
    rw [hperm.mem_iff]
    exact List.mem_cons_of_mem _ ha
  refine ⟨htab, ?_, ?_, ?_, ?_⟩
  · have := hperm.nodup_iff.mp hn
    exact (List.nodup_cons.mp this).2
  · show Placed (unlink { dt with size := sz } k (L1.getLastD 0) x).heap
      (unlink { dt with size := sz } k (L1.getLastD 0) x).tblz 0 _
    rw [htz]
    refine placed_iff.mpr ?_
    intro j hj a ha
    rw [(hho a).1]
    have hpl2 := placed_iff.mp hpl j (by simpa using hj) a
    by_cases hjk : j = k
    · subst hjk
      rw [getD_set_self _ _ _ hk] at ha
      apply hpl2
      rw [hb]
      rcases List.mem_append.mp ha with h | h
      · exact List.mem_append_left _ h
      · exact List.mem_append_right _ (List.mem_cons_of_mem _ h)
    · rw [getD_set_ne _ _ _ _ hjk] at ha
      exact hpl2 ha
  · intro a ha
    have := hh a (hsub a ha)
    show ((unlink { dt with size := sz } k (L1.getLastD 0) x).heap a).hash =
      (unlink { dt with size := sz } k (L1.getLastD 0) x).disc.hashf
        ((unlink { dt with size := sz } k (L1.getLastD 0) x).disc.keyf
          ((unlink { dt with size := sz } k (L1.getLastD 0) x).heap a).obj)
    rw [(hho a).1, (hho a).2, hdisc]
    exact this
  · show (unlink { dt with size := sz } k (L1.getLastD 0) x).flat = false
    rw [hfl]; exact hflat

/-- The body of `dthashchain` under `DT_SEARCH` when no link is fingered. -/
theorem body_search (sf : Dt → Nat → Ops → Option (Dt × Nat)) (H fuel mk : Nat) (dt : Dt)
    (obj : Nat) (hh : dt.here = 0) :
    dthashchain_body sf H fuel mk dt obj DT_SEARCH =
      dthash_slow H fuel mk { dt with here := 0 } obj DT_SEARCH 0 := by
  simp [dthashchain_body, dthash_lookup, DT_SEARCH, Ops.early, hh]

/-- The search by key of `DT_MATCH`, and of `DT_SEARCH` when no link is fingered, on a
well-formed table: the answer is the object of the first link of the chain of the slot
that has the hash and a key comparing equal, and that link is then fingered; `NULL`
when there is no such link. -/
theorem body_find (sf : Dt → Nat → Ops → Option (Dt × Nat)) (H fuel mk : Nat) (d : Dt)
    (Ms : List (List Nat)) (type : Ops) (obj0 key : Nat)
    (hw : WellFormed d Ms) (hf : Ms.flatten.length < fuel)
    (hty : (type = DT_MATCH ∧ key = obj0) ∨
      (type = DT_SEARCH ∧ key = _DTKEY d obj0 ∧ d.here = 0)) :
    (∃ L1 l L2, Ms.getD (_DTHSH d key &&& (d.tblz - 1)) [] = L1 ++ l :: L2 ∧
        (∀ y ∈ L1, ¬ ((d.heap y).hash = _DTHSH d key ∧
          _DTCMP d key (_DTKEY d (_DTOBJ d y)) = 0)) ∧
        ((d.heap l).hash = _DTHSH d key ∧ _DTCMP d key (_DTKEY d (_DTOBJ d l)) = 0) ∧
        dthashchain_body sf H fuel mk d obj0 type = some ({ d with here := l }, _DTOBJ d l)) ∨
    ((∀ y ∈ Ms.getD (_DTHSH d key &&& (d.tblz - 1)) [], ¬ ((d.heap y).hash = _DTHSH d key ∧
          _DTCMP d key (_DTKEY d (_DTOBJ d y)) = 0)) ∧
      dthashchain_body sf H fuel mk d obj0 type = some ({ d with here := 0 }, 0)) := by
  have hflags : type.relink = false ∧ type.next = false ∧ type.prev = false ∧
      type.step = false ∧ type.remove = false ∧ (type.search || type.mtch) = true := by
    rcases hty with ⟨h, _⟩ | ⟨h, _⟩ <;> subst h <;> decide
  obtain ⟨f1, f2, f3, f4, f5, f6⟩ := hflags
  have hbody : dthashchain_body sf H fuel mk d obj0 type =
      dthash_slow H fuel mk { d with here := 0 } obj0 type 0 := by
    rcases hty with ⟨h, _⟩ | ⟨h, _, h0⟩
    · subst h; exact body_slow _ _ _ _ _ _ DT_MATCH rfl rfl rfl rfl
    · subst h; exact body_search _ _ _ _ _ _ h0
  have hk : key = if type.mtch then obj0 else _DTKEY { d with here := 0 } obj0 := by
    rcases hty with ⟨h, hk⟩ | ⟨h, hk, _⟩
    · subst h; exact hk
    · subst h; exact hk
  rw [hbody]
  rcases slow_cases H fuel mk { d with here := 0 } obj0 type 0 Ms hw.1 hf f1 f2 f3 f4
      key (if type.mtch then 0 else obj0) hk rfl with ⟨L1, x, L2, e1, e2, e3, e4, e5⟩ | ⟨e1, e2⟩
  · left
    refine ⟨L1, x, L2, e1, fun y hy => ?_, ?_, ?_⟩
    · exact fun h => e2 y hy ((stop_plain _ _ _ _ _ _ f5 f2 f3 f4).mpr h)
    · exact (stop_plain _ _ _ _ _ _ f5 f2 f3 f4).mp e3
    · rw [e5]
      have f7 : (type.search || type.mtch || type.atleast || type.atmost) = true := by
        rw [f6]; rfl
      simp only [dthash_resolve, ne_eq, e4, not_false_eq_true, if_true, f7]
      rfl
  · right
    refine ⟨fun y hy h => e1 y hy ((stop_plain _ _ _ _ _ _ f5 f2 f3 f4).mpr h), ?_⟩
    rw [e2]
    have f8 : (type.insert || type.install || type.append || type.attach || type.relink) = false ∧
        type.start = false ∧ type.step = false := by
      rcases hty with ⟨h, _⟩ | ⟨h, _⟩ <;> subst h <;> decide
    simp only [dthash_resolve, ne_eq, not_true_eq_false, if_false, f8.1, Bool.false_eq_true,
      not_false_eq_true, if_true, f8.2.1, f8.2.2]

/-- On a table that has its slot array and is not flattened, `dthashchain` is its
body. -/
theorem dthashchain_ready (H mk fuel : Nat) (dt : Dt) (obj : Nat) (type : Ops)
    (hty : type ≠ DT_NONE) (hne : dt.htbl ≠ []) (hflat : dt.flat = false) :
    dthashchain H mk (fuel + 1) dt obj type =
      dthashchain_body (dthashchain H mk fuel) H (fuel + 1) mk dt obj type := by
  rw [dthashchain_succ]
  simp [hty, hne, hflat]

/-- The fields of the table that `_dtfree` and `unlink` leave alone. -/
theorem dtfree_unlink_fields (dt : Dt) (k pp ll : Nat) :
    (_dtfree (unlink dt k pp ll) ll).size = dt.size ∧
    (_dtfree (unlink dt k pp ll) ll).disc = dt.disc ∧
    (_dtfree (unlink dt k pp ll) ll).here = dt.here ∧
    (_dtfree (unlink dt k pp ll) ll).tblz = dt.tblz ∧
    (∀ y, ((_dtfree (unlink dt k pp ll) ll).heap y).hash = (dt.heap y).hash ∧
      ((_dtfree (unlink dt k pp ll) ll).heap y).obj = (dt.heap y).obj) := by
  obtain ⟨h1, h2, _, _, h5, _, _, _, _, _, _, h12, h13⟩ := unlink_fields dt k pp ll
  exact ⟨h1, h2, h5, h12, h13⟩

/-- The test of the scan for `DT_REMOVE`: the hash, the key and the object itself. -/
theorem stop_remove (dt : Dt) (key obj hsh x : Nat) :
    Stop dt DT_REMOVE key obj hsh x ↔
      ((dt.heap x).hash = hsh ∧ _DTCMP dt key (_DTKEY dt (_DTOBJ dt x)) = 0 ∧
        _DTOBJ dt x = obj) := by
  simp only [Stop, DT_REMOVE, Bool.or_false, Bool.true_or, true_and, ne_eq, not_not,
    Bool.or_self]
  constructor
  · rintro ⟨a, b, c⟩; exact ⟨a.symm, b, c⟩
  · rintro ⟨a, b, c⟩; exact ⟨a.symm, b, c⟩

/-! ### Insertion -/

/-- Line 422-425 on a well-formed table: after the resize, if any, the table is well
formed, holds the same links with the same objects and hashes, and is not smaller;
it holds the count if the table may grow and the allocation succeeds; it is untouched
while a walk is going on. -/
theorem resize_spec (H fuel : Nat) (dt : Dt) (Ls : List (List Nat))
    (hw : WellFormed dt Ls) (hfuel : Ls.flatten.length < fuel) :
    ∃ dt1 Ls1,
      (if dt.walk = 0 ∧ (dt.tblz : Int) < dt.size
        then (dthash_htable H fuel dt).map Prod.fst else some dt) = some dt1 ∧
      WellFormed dt1 Ls1 ∧ Ls1.flatten.Perm Ls.flatten ∧ Kept dt dt1 ∧
      (∀ y, (dt1.heap y).hash = (dt.heap y).hash ∧ (dt1.heap y).obj = (dt.heap y).obj) ∧
      (∀ y, y ∉ Ls.flatten → dt1.heap y = dt.heap y) ∧
      dt.tblz ≤ dt1.tblz ∧
      (dt.walk = 0 → dt.fixed = false → dt.disc.eventf = none → dt.memoryf dt.nalloc ≠ 0 →
        dt.size ≤ (dt1.tblz : Int)) ∧
      (dt.walk ≠ 0 → dt1 = dt ∧ Ls1 = Ls) := by
  obtain ⟨ht, hn, hpl, hh, hflat⟩ := hw
  have hfl : ∀ L ∈ Ls, L.length < fuel := fun L hL =>
    lt_of_le_of_lt (length_le_flatten Ls L hL) hfuel
  by_cases hc : dt.walk = 0 ∧ (dt.tblz : Int) < dt.size
  · rw [if_pos hc]
    rcases dthash_htable_spec H fuel dt Ls ht hn hfl with
      ⟨fx, nal, rc, h, _, hwhy⟩ | ⟨fx, hp, ts, h, hmem, hlt, hsz, hpow, htab, hfr, hho⟩
    · refine ⟨{ dt with fixed := fx, nalloc := nal }, Ls, by rw [h]; rfl,
        ⟨ht, hn, hpl, hh, hflat⟩, List.Perm.refl _, ⟨rfl, rfl, rfl, rfl, rfl, rfl, rfl, rfl, rfl⟩,
        fun _ => ⟨rfl, rfl⟩, fun _ _ => rfl, le_refl _, ?_, fun h0 => absurd hc.1 h0⟩
      intro _ h1 h2 h3
      rcases hwhy with h | h | h | h
      · rw [h1] at h; exact absurd h (by decide)
      · exact absurd h2 h
      · exact h
      · exact absurd h h3
    · have hperm : (pushAll (fun x => (dt.heap x).hash) ts.length
          (List.replicate ts.length []) Ls.flatten).flatten.Perm Ls.flatten := by
        have := pushAll_perm (fun x => (dt.heap x).hash) ts.length (by omega) Ls.flatten
          (List.replicate ts.length []) (by simp)
        rw [flatten_replicate_nil, List.append_nil] at this
        exact this
      refine ⟨{ dt with fixed := fx, nalloc := dt.nalloc + 1, htbl := ts, heap := hp }, _,
        by rw [h]; rfl, ⟨htab, hperm.nodup_iff.mpr hn, ?_, ?_, hflat⟩, hperm,
        ⟨rfl, rfl, rfl, rfl, rfl, rfl, rfl, rfl, rfl⟩, hho, hfr, le_of_lt hlt,
        fun _ _ _ _ => hsz, fun h0 => absurd hc.1 h0⟩
      · show Placed hp ts.length 0 _
        exact placed_congr (fun x => (hho x).1)
          (placed_pushAll Ls.flatten (placed_replicate dt.heap ts.length ts.length 0))
      · intro a ha
        show (hp a).hash = dt.disc.hashf (dt.disc.keyf (hp a).obj)
        rw [(hho a).1, (hho a).2]
        exact hh a (hperm.mem_iff.mp ha)
  · rw [if_neg hc]
    refine ⟨dt, Ls, rfl, ⟨ht, hn, hpl, hh, hflat⟩, List.Perm.refl _,
      ⟨rfl, rfl, rfl, rfl, rfl, rfl, rfl, rfl, rfl⟩, fun _ => ⟨rfl, rfl⟩, fun _ _ => rfl,
      le_refl _, ?_, fun _ => ⟨rfl, rfl⟩⟩
    intro h0 _ _ _
    by_contra hlt
    exact hc ⟨h0, by omega⟩

/-- The cell of the new link after lines 429-434, and the other cells. -/
theorem insert_heap (hp : Heap) (mk obj hsh r : Nat) :
    setRght (setHash (setObj hp mk obj) mk hsh) mk r mk = ⟨r, hsh, obj⟩ ∧
    ∀ y, y ≠ mk → setRght (setHash (setObj hp mk obj) mk hsh) mk r y = hp y := by
  constructor
  · simp [setRght, setHash, setObj]
  · intro y hy
    simp [setRght, setHash, setObj, hy]

theorem placed_congr_mem {hp hp1 : Heap} {n : Nat} {i : Nat} {Ls : List (List Nat)}
    (h : ∀ x ∈ Ls.flatten, (hp1 x).hash = (hp x).hash) (hP : Placed hp n i Ls) :
    Placed hp1 n i Ls := by
  refine placed_iff.mpr ?_
  intro j hj a ha
  rw [h a (mem_flatten_of_getD ha)]
  exact placed_iff.mp hP j hj a ha

/-- Lines 421-438 when `_dtmake` fails: the call returns `NULL`, and the table is the
one the resize has left, with the count it had. -/
theorem do_insert_fail (H fuel : Nat) (dt : Dt) (Ls : List (List Nat)) (obj hsh : Nat)
    (hw : WellFormed dt Ls) (hfuel : Ls.flatten.length < fuel) :
    ∃ dt1 Ls1,
      do_insert H fuel 0 dt obj hsh 0 = some (dt1, 0) ∧
      WellFormed dt1 Ls1 ∧ Ls1.flatten.Perm Ls.flatten ∧ Kept dt dt1 ∧
      dt.tblz ≤ dt1.tblz ∧
      (dt.walk = 0 → dt.fixed = false → dt.disc.eventf = none → dt.memoryf dt.nalloc ≠ 0 →
        dt.size ≤ (dt1.tblz : Int)) ∧
      (dt.walk ≠ 0 → dt1 = dt ∧ Ls1 = Ls) := by
  obtain ⟨dt1, Ls1, h1, h2, h3, h4, _, _, h7, h8, h9⟩ := resize_spec H fuel dt Ls hw hfuel
  refine ⟨dt1, Ls1, ?_, h2, h3, h4, h7, h8, h9⟩
  unfold do_insert
  rw [h1]
  simp [_dtmake]

/-- Lines 421-438 for a new object on a well-formed table that has its slot array:
when `_dtmake` comes up with a fresh link `mk`, the link holds the object, is the
head of the chain of its slot and is fingered, the count is one more, and the call
returns the object. -/
theorem do_insert_new (H fuel mk : Nat) (dt : Dt) (Ls : List (List Nat)) (obj hsh : Nat)
    (hw : WellFormed dt Ls) (hfuel : Ls.flatten.length < fuel) (hne : dt.htbl ≠ [])
    (hmk0 : mk ≠ 0) (hmk : mk ∉ Ls.flatten) (hhsh : hsh = _DTHSH dt (_DTKEY dt obj)) :
    ∃ dt2 Ls1,
      do_insert H fuel mk dt obj hsh 0 = some (dt2, obj) ∧
      WellFormed dt2 (pushAt Ls1 (hsh &&& (dt2.tblz - 1)) mk) ∧
      Ls1.flatten.Perm Ls.flatten ∧
      dt2.size = dt.size + 1 ∧ dt2.here = mk ∧
      (dt2.heap mk).obj = obj ∧ (dt2.heap mk).hash = hsh ∧
      (∀ y, y ≠ mk →
        (dt2.heap y).hash = (dt.heap y).hash ∧ (dt2.heap y).obj = (dt.heap y).obj) ∧
      dt2.disc = dt.disc ∧ dt2.bag = dt.bag ∧ dt2.walk = dt.walk ∧ dt2.flat = dt.flat ∧
      dt.tblz ≤ dt2.tblz ∧
      (dt.walk = 0 → dt.fixed = false → dt.disc.eventf = none → dt.memoryf dt.nalloc ≠ 0 →
        dt.size ≤ (dt2.tblz : Int)) ∧
      (dt.walk ≠ 0 → Ls1 = Ls ∧ dt2.tblz = dt.tblz) := by
  obtain ⟨dt1, Ls1, h1, h2, h3, h4, h5, _, h7, h8, h9⟩ := resize_spec H fuel dt Ls hw hfuel
  obtain ⟨k1, k2, k3, k4, k5, k6, k7, k8, k9⟩ := h4
  obtain ⟨w1, w2, w3, w4, w5⟩ := h2
  have hlen : dt1.htbl.length = Ls1.length := table_length_eq w1
  have hpos : 0 < dt1.tblz := by
    have : 0 < dt.tblz := List.length_pos.mpr hne
    omega
  have htbl : hsh &&& (dt1.tblz - 1) < Ls1.length := by
    have := @Nat.and_le_right hsh (dt1.tblz - 1)
    have : dt1.tblz = Ls1.length := hlen
    omega
  have hmk1 : mk ∉ Ls1.flatten := fun h => hmk (h3.mem_iff.mp h)
  obtain ⟨hc1, hc2⟩ := insert_heap dt1.heap mk obj hsh (dt1.htbl.getD (hsh &&& (dt1.tblz - 1)) 0)
  have hres : do_insert H fuel mk dt obj hsh 0 =
      some ({ dt1 with
                size := dt1.size + 1
                heap := setRght (setHash (setObj dt1.heap mk obj) mk hsh) mk
                  (dt1.htbl.getD (hsh &&& (dt1.tblz - 1)) 0)
                htbl := dt1.htbl.set (hsh &&& (dt1.tblz - 1)) mk
                here := mk }, obj) := by
    unfold do_insert
    rw [h1]
    simp only [_dtmake, hmk0, if_false, if_true]
    rw [hc1]
  have htz : Dt.tblz { dt1 with
                size := dt1.size + 1
                heap := setRght (setHash (setObj dt1.heap mk obj) mk hsh) mk
                  (dt1.htbl.getD (hsh &&& (dt1.tblz - 1)) 0)
                htbl := dt1.htbl.set (hsh &&& (dt1.tblz - 1)) mk
                here := mk } = dt1.tblz := by
    simp [Dt.tblz]
  have hperm := pushAt_perm Ls1 (hsh &&& (dt1.tblz - 1)) mk htbl
  refine ⟨_, Ls1, hres, ?_, h3, by rw [← k4], rfl, by show (setRght _ _ _ mk).obj = obj; rw [hc1],
    by show (setRght _ _ _ mk).hash = hsh; rw [hc1], ?_, k1, k2, k6, k5, by rw [htz]; exact h7,
    by rw [htz]; exact h8, ?_⟩
  · rw [htz]
    refine ⟨?_, ?_, ?_, ?_, w5⟩
    · -- the chains
      have hb : Table (setHash (setObj dt1.heap mk obj) mk hsh) dt1.htbl Ls1 := by
        refine table_frame ?_ w1
        intro x _
        simp only [setHash, setObj]
        split <;> rfl
      exact table_pushAt hmk0 hb hmk1
    · rw [hperm.nodup_iff, List.nodup_cons]
      exact ⟨hmk1, w2⟩
    · show Placed (setRght _ _ _) (Dt.tblz _) 0 _
      rw [htz]
      refine placed_pushAt ?_ (by rw [hc1]; simp)
      refine placed_congr_mem ?_ w3
      intro x hx
      rw [hc2 x (fun h => hmk1 (h ▸ hx))]
    · intro a ha
      rw [hperm.mem_iff, List.mem_cons] at ha
      show (setRght _ _ _ a).hash = dt1.disc.hashf (dt1.disc.keyf (setRght _ _ _ a).obj)
      rcases ha with rfl | ha
      · rw [hc1, k1]
        exact hhsh
      · rw [hc2 a (fun h => hmk1 (h ▸ ha))]
        exact w4 a ha
  · intro y hy
    show (setRght _ _ _ y).hash = _ ∧ (setRght _ _ _ y).obj = _
    rw [hc2 y hy]
    exact h5 y
  · intro h0
    obtain ⟨e1, e2⟩ := h9 h0
    refine ⟨e2, ?_⟩
    rw [htz, e1]

/-- The body of `dthashchain` under `DT_INSERT`, `DT_APPEND`, `DT_ATTACH` or
`DT_INSTALL` on a table of well-formed chains goes to `do_insert` with no link made
yet, in bag mode always and in set mode when no link of the chain of the slot has
the hash and a key that compares equal. -/
theorem body_insert (sf : Dt → Nat → Ops → Option (Dt × Nat)) (H fuel mk : Nat) (dt : Dt)
    (Ls : List (List Nat)) (obj : Nat) (type : Ops)
    (ht : Table dt.heap dt.htbl Ls) (hfuel : Ls.flatten.length < fuel)
    (hty : type = DT_INSERT ∨ type = DT_APPEND ∨ type = DT_ATTACH ∨ type = DT_INSTALL)
    (hcase : dt.bag = true ∨
      ∀ y ∈ Ls.getD (_DTHSH dt (_DTKEY dt obj) &&& (dt.tblz - 1)) [],
        ¬ ((dt.heap y).hash = _DTHSH dt (_DTKEY dt obj) ∧
          _DTCMP dt (_DTKEY dt obj) (_DTKEY dt (_DTOBJ dt y)) = 0)) :
    dthashchain_body sf H fuel mk dt obj type =
      do_insert H fuel mk { dt with here := 0 } obj (_DTHSH dt (_DTKEY dt obj)) 0 := by
  have hflags : type.early = false ∧ type.search = false ∧ type.next = false ∧
      type.prev = false ∧ type.step = false ∧ type.relink = false ∧ type.remove = false ∧
      type.mtch = false ∧ type.atleast = false ∧ type.atmost = false ∧ type.start = false ∧
      type.delete = false ∧ type.detach = false ∧
      (type.insert || type.install || type.append || type.attach || type.relink) = true := by
    rcases hty with h | h | h | h <;> subst h <;> decide
  obtain ⟨f1, f2, f3, f4, f5, f6, f7, f8, f9, f10, f11, f12, f13, f14⟩ := hflags
  rw [body_slow _ _ _ _ _ _ type f1 f2 f3 f4]
  rcases slow_cases H fuel mk { dt with here := 0 } obj type 0 Ls ht hfuel
    f6 f3 f4 f5 (_DTKEY dt obj) obj (by simp [f8, _DTKEY]) (by simp [f8]) with
    ⟨L1, x, L2, e1, _, e3, e4, e5⟩ | ⟨_, e2⟩
  · have hx := (stop_plain _ _ _ _ _ _ f7 f3 f4 f5).mp e3
    rcases hcase with hb | hno
    · rw [e5]
      have hb2 : ({ dt with here := 0 } : Dt).bag = true := hb
      simp only [dthash_resolve, ne_eq, e4, not_false_eq_true, if_true, f2, f8, f9, f10,
        Bool.or_self, Bool.false_eq_true, if_false, f11, f5, f3, f4, f12, f13, f7, hb2]
      split <;> rfl
    · exfalso
      have hl : x ∈ L1 ++ x :: L2 := by simp
      rw [← e1] at hl
      exact hno x hl hx
  · rw [e2]
    simp only [dthash_resolve, ne_eq, not_true_eq_false, if_false, f14, not_true_eq_false]
    rfl

/-! ### Walking the table -/

/-- A list without repetition splits around a member in one way only. -/
theorem nodup_split_unique : ∀ {A A1 B B1 : List Nat} {l : Nat},
    (A ++ l :: B).Nodup → A ++ l :: B = A1 ++ l :: B1 → A = A1 ∧ B = B1
  | [], [], B, B1, l, _, h => by simpa using h
  | [], a :: A1, B, B1, l, hn, h => by
    exfalso
    simp only [List.nil_append, List.cons_append, List.cons.injEq] at h
    obtain ⟨h1, h2⟩ := h
    subst h1
    rw [List.nil_append, List.nodup_cons] at hn
    exact hn.1 (by rw [h2]; simp)
  | a :: A, [], B, B1, l, hn, h => by
    exfalso
    simp only [List.nil_append, List.cons_append, List.cons.injEq] at h
    obtain ⟨h1, _⟩ := h
    subst h1
    rw [List.cons_append, List.nodup_cons] at hn
    exact hn.1 (by simp)
  | a :: A, a1 :: A1, B, B1, l, hn, h => by
    simp only [List.cons_append, List.cons.injEq] at h
    obtain ⟨h1, h2⟩ := h
    subst h1
    rw [List.cons_append, List.nodup_cons] at hn
    obtain ⟨g1, g2⟩ := nodup_split_unique hn.2 h2
    exact ⟨by rw [g1], g2⟩

/-- The first non-`NULL` slot of a table is the first link of its chains. -/
theorem firstSlot_table {hp : Heap} : ∀ {ts : List Nat} {Ls : List (List Nat)},
    Table hp ts Ls → firstSlot ts = Ls.flatten.headD 0
  | [], [], _ => rfl
  | t :: ts, [] :: Ls, h => by
    have h1 : t = 0 := h.1
    subst h1
    simp only [firstSlot, ne_eq, not_true_eq_false, if_false, List.flatten_cons,
      List.nil_append]
    exact firstSlot_table h.2
  | t :: ts, (a :: L) :: Ls, h => by
    have h1 : t = a := h.1.1
    have h2 : a ≠ 0 := h.1.2.1
    subst h1
    simp [firstSlot, h2]
  | [], _ :: _, h => h.elim
  | _ :: _, [], h => h.elim

/-- The link `dthash_hnext` goes to after `l` (lines 139-145) is the link that
follows `l` in the chains read slot after slot, `NULL` after the last one. -/
theorem next_spec {hp : Heap} {n : Nat} : ∀ {ts : List Nat} {Ls : List (List Nat)} {i : Nat},
    Table hp ts Ls → Placed hp n i Ls → Ls.flatten.Nodup →
    ∀ (A : List Nat) (l : Nat) (B : List Nat), Ls.flatten = A ++ l :: B →
    ∃ j, (hp l).hash &&& (n - 1) = i + j ∧
      (if (hp l).rght = 0 then firstSlot (ts.drop (j + 1)) else (hp l).rght) = B.headD 0
  | [], [], _, _, _, _, A, l, B, h => by simp at h
  | t :: ts, L :: Ls, i, ht, hp1, hn, A, l, B, h => by
    rw [List.flatten_cons] at h hn
    by_cases hl : l ∈ L
    · obtain ⟨L1, L2, hL⟩ := List.append_of_mem hl
      have hsplit : A ++ l :: B = L1 ++ l :: (L2 ++ Ls.flatten) := by
        rw [← h, hL]; simp
      obtain ⟨_, hB⟩ := nodup_split_unique (h ▸ hn) hsplit
      have hc : Seg hp t (L1 ++ l :: L2) 0 := hL ▸ ht.1
      have hr := seg_rght_eq hc
      refine ⟨0, hp1.1 l hl, ?_⟩
      rw [hB, hr]
      cases L2 with
      | nil =>
        simp only [List.headD_nil, if_true, List.nil_append, Nat.zero_add, List.drop_succ_cons,
          List.drop_zero]
        exact firstSlot_table ht.2
      | cons b L2 =>
        have hb : b ≠ 0 := by
          intro hb0
          have := seg_zero_not_mem hc
          exact this (by rw [← hb0]; simp)
        simp [hb]
    · have hl2 : l ∈ Ls.flatten := by
        have : l ∈ L ++ Ls.flatten := by rw [h]; simp
        exact (List.mem_append.mp this).resolve_left hl
      obtain ⟨A1, B1, hAB⟩ := List.append_of_mem hl2
      have hsplit : A ++ l :: B = (L ++ A1) ++ l :: B1 := by
        rw [← h, hAB]; simp
      obtain ⟨_, hB⟩ := nodup_split_unique (h ▸ hn) hsplit
      obtain ⟨j, g1, g2⟩ := next_spec ht.2 hp1.2 (List.nodup_append.mp hn).2.1 A1 l B1 hAB
      refine ⟨j + 1, by omega, ?_⟩
      rw [hB]
      simpa using g2
  | [], _ :: _, _, h, _, _, _, _, _, _ => h.elim
  | _ :: _, [], _, h, _, _, _, _, _, _ => h.elim

/-- A step on the cursor `c` that sits, as `hash->here` does, on link `l`: the
object of `l` is returned, and cursor and `hash->here` go to the link that follows
`l` in the chains read slot after slot, to `NULL` after the last one. -/
theorem step_spec (H mk fuel : Nat) (dt : Dt) (Ls : List (List Nat)) (hw : WellFormed dt Ls)
    (hobj : ∀ a ∈ Ls.flatten, _DTOBJ dt a ≠ 0) (c : Nat) (hc : c ≠ 0)
    (A : List Nat) (l : Nat) (B : List Nat) (hsplit : Ls.flatten = A ++ l :: B)
    (d : Dt) (hheap : d.heap = dt.heap) (htbl : d.htbl = dt.htbl) (hflat : d.flat = false)
    (hhere : d.here = l) (hfg : d.fngr c = l) :
    ∃ d1, dthashchain H mk (fuel + 1) d c DT_STEP = some (d1, _DTOBJ dt l) ∧
      d1.heap = dt.heap ∧ d1.htbl = dt.htbl ∧ d1.flat = false ∧
      d1.here = B.headD 0 ∧ d1.fngr c = B.headD 0 := by
  have hl : l ∈ Ls.flatten := by rw [hsplit]; simp
  have hl0 : l ≠ 0 := fun h => table_zero_not_mem hw.1 (h ▸ hl)
  have hne : d.htbl ≠ [] := htbl ▸ htbl_ne_nil hw.1 hl
  obtain ⟨j, hj, hnext⟩ := next_spec hw.1 hw.2.2.1 hw.2.1 A l B hsplit
  rw [Nat.zero_add] at hj
  have hobjd : ∀ a, _DTOBJ d a = _DTOBJ dt a := fun a => by simp only [_DTOBJ, hheap]
  have hbody : dthashchain_body (dthashchain H mk fuel) H (fuel + 1) mk d c DT_STEP =
      some (stepFngr { d with fngr := setFngr d.fngr c 0, here := 0 } c l, _DTOBJ dt l) := by
    have e1 : DT_STEP.early = true := rfl
    have e2 : DT_STEP.start = false := rfl
    have e3 : DT_STEP.step = true := rfl
    have e4 : DT_STEP.search = false := rfl
    have e5 : DT_STEP.next = false := rfl
    have e6 : DT_STEP.prev = false := rfl
    simp only [dthashchain_body, e1, e2, e3, if_true, Bool.false_eq_true, if_false, hc, hfg,
      hl0, or_self, dthash_lookup, hhere, ne_eq, not_false_eq_true, _DTOBJ, and_self, e4, e5,
      e6, Bool.or_self, hheap]
  rw [dthashchain_ready H mk fuel d c DT_STEP (by decide) hne hflat, hbody]
  refine ⟨_, rfl, hheap, htbl, hflat, ?_, ?_⟩
  · show (if (d.heap l).rght = 0 then
        firstSlot (d.htbl.drop (((d.heap l).hash &&& (d.htbl.length - 1)) + 1))
      else (d.heap l).rght) = B.headD 0
    rw [hheap, htbl]
    have : dt.htbl.length = dt.tblz := rfl
    rw [this, hj]
    exact hnext
  · have hn2 : (if (dt.heap l).rght = 0 then
        firstSlot (d.htbl.drop (((dt.heap l).hash &&& (d.htbl.length - 1)) + 1))
      else (dt.heap l).rght) = B.headD 0 := by
      rw [htbl]
      have : dt.htbl.length = dt.tblz := rfl
      rw [this, hj]
      exact hnext
    simp only [stepFngr, dthash_hnext, Dt.tblz, setFngr, if_true, _DTOBJ, hheap, hn2]
    cases B with
    | nil => simp
    | cons b B =>
      have hb : b ∈ Ls.flatten := by rw [hsplit]; simp
      have hb0 : b ≠ 0 := fun h => table_zero_not_mem hw.1 (h ▸ hb)
      have := hobj b hb
      simp only [_DTOBJ] at this
      simp [this, hb0]

/-- A step on a cursor that holds `NULL` returns `NULL` and leaves the table alone. -/
theorem step_end (H mk fuel : Nat) (d : Dt) (c : Nat) (hne : d.htbl ≠ [])
    (hflat : d.flat = false) (hfg : d.fngr c = 0) :
    dthashchain H mk (fuel + 1) d c DT_STEP = some (d, 0) := by
  rw [dthashchain_ready H mk fuel d c DT_STEP (by decide) hne hflat]
  have e1 : DT_STEP.early = true := rfl
  have e2 : DT_STEP.start = false := rfl
  have e3 : DT_STEP.step = true := rfl
  simp only [dthashchain_body, e1, e2, e3, if_true, Bool.false_eq_true, if_false, hfg,
    or_true]

/-- The steps of a walk whose cursor sits on link `l` return the object of `l` and
then those of the links that follow it, and stop. -/
theorem walkSteps_spec (H mk fuel : Nat) (dt : Dt) (Ls : List (List Nat))
    (hw : WellFormed dt Ls) (hobj : ∀ a ∈ Ls.flatten, _DTOBJ dt a ≠ 0) (c : Nat) (hc : c ≠ 0) :
    ∀ (B : List Nat) (l : Nat) (A : List Nat) (d : Dt) (n : Nat),
      Ls.flatten = A ++ l :: B → d.heap = dt.heap → d.htbl = dt.htbl → d.flat = false →
      d.here = l → d.fngr c = l → B.length + 1 < n →
      ∃ d1, walkSteps H mk (fuel + 1) c n d = some (d1, (l :: B).map (_DTOBJ dt))
  | B, l, A, d, 0, _, _, _, _, _, _, hn => by omega
  | B, l, A, d, n + 1, hsplit, hheap, htbl, hflat, hhere, hfg, hn => by
    obtain ⟨d1, g1, g2, g3, g4, g5, g6⟩ :=
      step_spec H mk fuel dt Ls hw hobj c hc A l B hsplit d hheap htbl hflat hhere hfg
    have hl : l ∈ Ls.flatten := by rw [hsplit]; simp
    have ho := hobj l hl
    cases B with
    | nil =>
      obtain ⟨m, rfl⟩ : ∃ m, n = m + 1 := ⟨n - 1, by simp at hn; omega⟩
      have hend := step_end H mk fuel d1 c (g3 ▸ htbl_ne_nil hw.1 hl) g4 g6
      refine ⟨d1, ?_⟩
      simp only [walkSteps, g1, ho, if_false, hend, if_true, Option.map_some', List.map_cons,
        List.map_nil]
    | cons b B =>
      obtain ⟨d2, k⟩ := walkSteps_spec H mk fuel dt Ls hw hobj c hc B b (A ++ [l]) d1 n
        (by rw [hsplit]; simp) g2 g3 g4 g5 g6 (by simp at hn ⊢; omega)
      refine ⟨d2, ?_⟩
      simp only [walkSteps, g1, ho, if_false, k, Option.map_some', List.map_cons]

/-- `DT_START` with no start object on a table without link returns `NULL`. -/
theorem start_empty (H mk fuel : Nat) (dt : Dt) (Ls : List (List Nat)) (hw : WellFormed dt Ls)
    (hnil : Ls.flatten = []) :
    ∃ dt1, dthashchain H mk (fuel + 1) dt 0 DT_START = some (dt1, 0) := by
  have hbody : ∀ (d : Dt) (Ms : List (List Nat)), Table d.heap d.htbl Ms → Ms.flatten = [] →
      ∃ d1, dthashchain_body (dthashchain H mk fuel) H (fuel + 1) mk d 0 DT_START =
        some (d1, 0) := by
    intro d Ms ht hM
    have e1 : DT_START.early = true := rfl
    have e2 : DT_START.start = true := rfl
    have hf : firstSlot d.htbl = 0 := by rw [firstSlot_table ht, hM]; rfl
    by_cases hz : d.memoryf d.nalloc = 0
    · refine ⟨{ d with nalloc := d.nalloc + 1 }, ?_⟩
      simp only [dthashchain_body, e1, e2, if_true, hz]
    · refine ⟨{ d with nalloc := d.nalloc + 1, here := 0 }, ?_⟩
      simp only [dthashchain_body, e1, e2, if_true, hz, if_false, dthash_hfirst,
        hf, ne_eq, not_true_eq_false]
  rcases dthashchain_setup H mk fuel dt 0 DT_START Ls hw (by decide) with
    ⟨_, hd⟩ | ⟨_, _, ⟨fx, nal, _, hd⟩ | ⟨fx, n, _, _, _, hd⟩⟩
  · rw [hd]; exact hbody dt Ls hw.1 hnil
  · exact ⟨_, hd⟩
  · rw [hd]
    exact hbody _ (List.replicate n []) (table_replicate _ _) (flatten_replicate_nil n)

/-- The function `dthash_htable` does not call the hash function: under another hash
function it does the same to the table. -/
theorem dthash_htable_hashf (H fuel : Nat) (dt : Dt) (f : Nat → Nat) :
    dthash_htable H fuel { dt with disc := { dt.disc with hashf := f } } =
      (dthash_htable H fuel dt).map
        (fun r => ({ r.1 with disc := { r.1.disc with hashf := f } }, r.2)) := by
  unfold dthash_htable
  simp only [hashsizeEvent, Dt.tblz]
  split_ifs <;> try rfl
  all_goals (cases moveTable fuel _ dt.htbl dt.heap _ <;> rfl)

/-- The body of `dthashchain` under `DT_EXTRACT` on a table of well-formed chains:
the chains are threaded into one list, slot after slot, the head of the list is
returned, every slot is left `NULL` and the count is `0`. -/
theorem body_extract (sf : Dt → Nat → Ops → Option (Dt × Nat)) (H fuel mk : Nat) (d : Dt)
    (Ms : List (List Nat)) (obj : Nat) (ht : Table d.heap d.htbl Ms) (hn : Ms.flatten.Nodup)
    (hfuel : Ms.flatten.length < fuel) :
    ∃ d1, dthashchain_body sf H fuel mk d obj DT_EXTRACT = some (d1, Ms.flatten.headD 0) ∧
      Seg d1.heap (Ms.flatten.headD 0) Ms.flatten 0 ∧ (∀ t ∈ d1.htbl, t = 0) ∧
      d1.tblz = d.tblz ∧ d1.size = 0 ∧
      (∀ x, (d1.heap x).hash = (d.heap x).hash ∧ (d1.heap x).obj = (d.heap x).obj) := by
  have hlen : ∀ L ∈ Ms, L.length < fuel := fun L hL =>
    lt_of_le_of_lt (length_le_flatten Ms L hL) hfuel
  have h0 : (0 : Nat) ∉ Ms.flatten := table_zero_not_mem ht
  obtain ⟨hp1, hF1, hF2, _, _, hF5⟩ := flatTable_spec false fuel (by omega) Ms d.htbl d.heap
    0 0 ht hn h0 (fun h => absurd rfl h) hlen
  simp only [ne_eq, not_true_eq_false, if_false, Bool.false_eq_true] at hF1
  refine ⟨{ d with heap := hp1, htbl := Ms.map (fun _ => 0), size := 0 }, ?_, hF2, ?_, ?_, rfl,
    hF5⟩
  · have e1 : DT_EXTRACT.early = true := rfl
    have e2 : DT_EXTRACT.start = false := rfl
    have e3 : DT_EXTRACT.step = false := rfl
    have e4 : DT_EXTRACT.stop = false := rfl
    have e5 : DT_EXTRACT.first = false := rfl
    have e6 : DT_EXTRACT.last = false := rfl
    have e7 : DT_EXTRACT.clear = false := rfl
    have e8 : DT_EXTRACT.stat = false := rfl
    have e9 : DT_EXTRACT.flatten = false := rfl
    have e10 : DT_EXTRACT.extract = true := rfl
    have e11 : (DT_EXTRACT = DT_FLATTEN) = False := by simp; decide
    simp only [dthashchain_body, dthash_hlist, dthash_hflatten, e1, e2, e3, e4, e5, e6, e7, e8,
      e9, e10, if_true, Bool.false_eq_true, if_false, Bool.or_self, or_true, e11, decide_False,
      hF1]
  · intro t htm
    simp only [List.mem_map] at htm
    obtain ⟨_, _, h⟩ := htm
    exact h.symm
  · show (Ms.map (fun _ => 0)).length = d.htbl.length
    rw [List.length_map, table_length_eq ht]

/-- The cell of a link after lines 432-434, and the other cells. -/
theorem link_heap (hp : Heap) (l hsh r : Nat) :
    setRght (setHash hp l hsh) l r l = ⟨r, hsh, (hp l).obj⟩ ∧
    ∀ y, y ≠ l → setRght (setHash hp l hsh) l r y = hp y := by
  constructor
  · simp [setRght, setHash]
  · intro y hy
    simp [setRght, setHash, hy]

/-- Lines 421-438 for a link that is there already (`DT_RELINK`, or the link
`DT_INSTALL` has made) and is in no chain, on a well-formed table that has its slot
array: the link becomes the head of the chain of its slot and is fingered, the count
stays, and the call returns the object of the link. -/
theorem do_insert_link (H fuel mk : Nat) (dt : Dt) (Ls : List (List Nat)) (obj hsh lnk : Nat)
    (hw : WellFormed dt Ls) (hfuel : Ls.flatten.length < fuel) (hne : dt.htbl ≠ [])
    (hl0 : lnk ≠ 0) (hl : lnk ∉ Ls.flatten)
    (hhsh : hsh = _DTHSH dt (_DTKEY dt (_DTOBJ dt lnk))) :
    ∃ dt2 Ls1,
      do_insert H fuel mk dt obj hsh lnk = some (dt2, _DTOBJ dt lnk) ∧
      WellFormed dt2 (pushAt Ls1 (hsh &&& (dt2.tblz - 1)) lnk) ∧
      Ls1.flatten.Perm Ls.flatten ∧
      dt2.size = dt.size ∧ dt2.here = lnk ∧ (dt2.heap lnk).hash = hsh ∧
      (∀ y, (dt2.heap y).obj = (dt.heap y).obj) ∧
      (∀ y, y ≠ lnk → (dt2.heap y).hash = (dt.heap y).hash) ∧
      dt2.disc = dt.disc ∧ dt2.bag = dt.bag ∧ dt2.walk = dt.walk ∧ dt2.flat = dt.flat ∧
      dt2.freed = dt.freed ∧ dt2.memoryf = dt.memoryf ∧
      dt.tblz ≤ dt2.tblz ∧
      (dt.walk ≠ 0 → Ls1 = Ls ∧ dt2.tblz = dt.tblz ∧
        dt2.htbl = dt.htbl.set (hsh &&& (dt.tblz - 1)) lnk ∧
        (dt2.heap lnk).rght = dt.htbl.getD (hsh &&& (dt.tblz - 1)) 0) := by
  obtain ⟨dt1, Ls1, h1, h2, h3, h4, h5, h6, h7, _, h9⟩ := resize_spec H fuel dt Ls hw hfuel
  obtain ⟨k1, k2, k3, k4, k5, k6, k7, k8, k9⟩ := h4
  obtain ⟨w1, w2, w3, w4, w5⟩ := h2
  have hlen : dt1.htbl.length = Ls1.length := table_length_eq w1
  have hpos : 0 < dt1.tblz := by
    have : 0 < dt.tblz := List.length_pos.mpr hne
    omega
  have htbl : hsh &&& (dt1.tblz - 1) < Ls1.length := by
    have := @Nat.and_le_right hsh (dt1.tblz - 1)
    have : dt1.tblz = Ls1.length := hlen
    omega
  have hl1 : lnk ∉ Ls1.flatten := fun h => hl (h3.mem_iff.mp h)
  obtain ⟨hc1, hc2⟩ := link_heap dt1.heap lnk hsh (dt1.htbl.getD (hsh &&& (dt1.tblz - 1)) 0)
  have hres : do_insert H fuel mk dt obj hsh lnk =
      some ({ dt1 with
                heap := setRght (setHash dt1.heap lnk hsh) lnk
                  (dt1.htbl.getD (hsh &&& (dt1.tblz - 1)) 0)
                htbl := dt1.htbl.set (hsh &&& (dt1.tblz - 1)) lnk
                here := lnk }, _DTOBJ dt lnk) := by
    unfold do_insert
    rw [h1]
    simp only [hl0, if_false]
    rw [hc1]
    simp only [_DTOBJ, (h5 lnk).2]
  have htz : Dt.tblz { dt1 with
                heap := setRght (setHash dt1.heap lnk hsh) lnk
                  (dt1.htbl.getD (hsh &&& (dt1.tblz - 1)) 0)
                htbl := dt1.htbl.set (hsh &&& (dt1.tblz - 1)) lnk
                here := lnk } = dt1.tblz := by
    simp [Dt.tblz]
  have hperm := pushAt_perm Ls1 (hsh &&& (dt1.tblz - 1)) lnk htbl
  refine ⟨_, Ls1, hres, ?_, h3, k4, rfl, by show (setRght _ _ _ lnk).hash = hsh; rw [hc1],
    ?_, ?_, k1, k2, k6, k5, k9, k3, by rw [htz]; exact h7, ?_⟩
  · rw [htz]
    refine ⟨?_, ?_, ?_, ?_, w5⟩
    · have hb : Table (setHash dt1.heap lnk hsh) dt1.htbl Ls1 := by
        refine table_frame ?_ w1
        intro x _
        simp only [setHash]
        split <;> rfl
      exact table_pushAt hl0 hb hl1
    · rw [hperm.nodup_iff, List.nodup_cons]
      exact ⟨hl1, w2⟩
    · show Placed (setRght _ _ _) (Dt.tblz _) 0 _
      rw [htz]
      refine placed_pushAt ?_ (by rw [hc1]; simp)
      refine placed_congr_mem ?_ w3
      intro x hx
      rw [hc2 x (fun h => hl1 (h ▸ hx))]
    · intro a ha
      rw [hperm.mem_iff, List.mem_cons] at ha
      show (setRght _ _ _ a).hash = dt1.disc.hashf (dt1.disc.keyf (setRght _ _ _ a).obj)
      rcases ha with rfl | ha
      · rw [hc1, k1]
        show hsh = dt.disc.hashf (dt.disc.keyf (dt1.heap a).obj)
        rw [(h5 a).2]
        exact hhsh
      · rw [hc2 a (fun h => hl1 (h ▸ ha))]
        exact w4 a ha
  · intro y
    show (setRght _ _ _ y).obj = _
    by_cases hy : y = lnk
    · subst hy; rw [hc1]; exact (h5 y).2
    · rw [hc2 y hy]; exact (h5 y).2
  · intro y hy
    show (setRght _ _ _ y).hash = _
    rw [hc2 y hy]
    exact (h5 y).1
  · intro hwk
    obtain ⟨e1, e2⟩ := h9 hwk
    subst e1
    refine ⟨e2, by rw [htz], rfl, ?_⟩
    show (setRght _ _ _ lnk).rght = _
    rw [hc1]

/-- The body of `dthashchain` under `DT_INSERT`, `DT_APPEND`, `DT_ATTACH` or
`DT_INSTALL` on a table of well-formed chains, by cases.  In set mode, when `x` is the
first link of the chain of the slot that has the hash and a key comparing equal:
`DT_INSTALL` asks `_dtmake` for a link, returns `NULL` when there is none, and else
takes `x` out of its chain, frees it and goes to `do_insert` with the new link; the
other three return the object of `x`.  In bag mode, and when there is no such link,
the call goes to `do_insert` with no link made yet. -/
theorem body_insert_cases (sf : Dt → Nat → Ops → Option (Dt × Nat)) (H fuel mk : Nat)
    (d : Dt) (Ms : List (List Nat)) (obj : Nat) (type : Ops)
    (ht : Table d.heap d.htbl Ms) (hfuel : Ms.flatten.length < fuel)
    (hty : type = DT_INSERT ∨ type = DT_APPEND ∨ type = DT_ATTACH ∨ type = DT_INSTALL) :
    (∃ L1 x L2, Ms.getD (_DTHSH d (_DTKEY d obj) &&& (d.tblz - 1)) [] = L1 ++ x :: L2 ∧
        (∀ y ∈ L1, ¬ ((d.heap y).hash = _DTHSH d (_DTKEY d obj) ∧
          _DTCMP d (_DTKEY d obj) (_DTKEY d (_DTOBJ d y)) = 0)) ∧
        ((d.heap x).hash = _DTHSH d (_DTKEY d obj) ∧
          _DTCMP d (_DTKEY d obj) (_DTKEY d (_DTOBJ d x)) = 0) ∧
        x ≠ 0 ∧ d.bag = false ∧
        dthashchain_body sf H fuel mk d obj type =
          if type = DT_INSTALL then
            if mk = 0 then some ({ d with here := 0 }, 0)
            else
              do_insert H fuel mk
                (_dtfree (unlink { d with here := 0, heap := setObj d.heap mk obj }
                  (_DTHSH d (_DTKEY d obj) &&& (d.tblz - 1)) (L1.getLastD 0) x) x)
                obj (_DTHSH d (_DTKEY d obj)) mk
          else some ({ d with here := 0 }, _DTOBJ d x)) ∨
    ((d.bag = true ∨
        ∀ y ∈ Ms.getD (_DTHSH d (_DTKEY d obj) &&& (d.tblz - 1)) [],
          ¬ ((d.heap y).hash = _DTHSH d (_DTKEY d obj) ∧
            _DTCMP d (_DTKEY d obj) (_DTKEY d (_DTOBJ d y)) = 0)) ∧
      dthashchain_body sf H fuel mk d obj type =
        do_insert H fuel mk { d with here := 0 } obj (_DTHSH d (_DTKEY d obj)) 0) := by
  by_cases hb : d.bag = true
  · exact Or.inr ⟨Or.inl hb, body_insert sf H fuel mk d Ms obj type ht hfuel hty (Or.inl hb)⟩
  have hb : d.bag = false := by simpa using hb
  have hflags : type.early = false ∧ type.search = false ∧ type.next = false ∧
      type.prev = false ∧ type.step = false ∧ type.relink = false ∧ type.remove = false ∧
      type.mtch = false ∧ type.atleast = false ∧ type.atmost = false ∧ type.start = false ∧
      type.delete = false ∧ type.detach = false := by
    rcases hty with h | h | h | h <;> subst h <;> decide
  obtain ⟨f1, f2, f3, f4, f5, f6, f7, f8, f9, f10, f11, f12, f13⟩ := hflags
  rcases slow_cases H fuel mk { d with here := 0 } obj type 0 Ms ht hfuel
    f6 f3 f4 f5 (_DTKEY d obj) obj (by simp [f8, _DTKEY]) (by simp [f8]) with
    ⟨L1, x, L2, e1, e2, e3, e4, e5⟩ | ⟨e1, _⟩
  · left
    have hx := (stop_plain _ _ _ _ _ _ f7 f3 f4 f5).mp e3
    refine ⟨L1, x, L2, e1, fun y hy h => e2 y hy ((stop_plain _ _ _ _ _ _ f7 f3 f4 f5).mpr h),
      hx, e4, hb, ?_⟩
    rw [body_slow _ _ _ _ _ _ type f1 f2 f3 f4, e5]
    have hb2 : ({ d with here := 0 } : Dt).bag = false := hb
    have hres : type.install = false →
        (type.insert || type.append || type.attach) = true →
        dthash_resolve H fuel mk { d with here := 0 } type 0 0 obj (_DTHSH d (_DTKEY d obj))
          (L1.getLastD 0) x = some ({ d with here := 0 }, _DTOBJ d x) := by
      intro gi ga
      simp only [dthash_resolve, ne_eq, e4, not_false_eq_true, if_true, f2, f8, f9, f10, f11,
        f5, f3, f4, f12, f13, f7, gi, ga, Bool.or_self, Bool.false_eq_true, if_false, hb2, hb]
      rfl
    rcases hty with h | h | h | h
    · rw [if_neg (by rw [h]; decide)]
      exact hres (by rw [h]; rfl) (by rw [h]; rfl)
    · rw [if_neg (by rw [h]; decide)]
      exact hres (by rw [h]; rfl) (by rw [h]; rfl)
    · rw [if_neg (by rw [h]; decide)]
      exact hres (by rw [h]; rfl) (by rw [h]; rfl)
    · subst h
      rw [if_pos rfl]
      by_cases hmk : mk = 0
      · subst hmk
        simp only [dthash_resolve, ne_eq, e4, not_false_eq_true, if_true, DT_INSTALL,
          Bool.or_self, Bool.false_eq_true, if_false, hb2, hb, _dtmake]
      · simp only [dthash_resolve, ne_eq, e4, not_false_eq_true, if_true, DT_INSTALL,
          Bool.or_self, Bool.false_eq_true, if_false, hb2, hb, _dtmake, hmk]
        rfl
  · right
    have hno : ∀ y ∈ Ms.getD (_DTHSH d (_DTKEY d obj) &&& (d.tblz - 1)) [],
        ¬ ((d.heap y).hash = _DTHSH d (_DTKEY d obj) ∧
          _DTCMP d (_DTKEY d obj) (_DTKEY d (_DTOBJ d y)) = 0) :=
      fun y hy h => e1 y hy ((stop_plain _ _ _ _ _ _ f7 f3 f4 f5).mpr h)
    exact ⟨Or.inr hno, body_insert sf H fuel mk d Ms obj type ht hfuel hty (Or.inr hno)⟩

/-- The body of `dthashchain` under `DT_RELINK` of the link `r` on a table of
well-formed chains, by cases.  In set mode, when `x` is the first link of the chain
of the slot that has the hash of the key of `r` and a key comparing equal, the link
`r` is freed and the object of `x` is returned (lines 403-410).  In bag mode, and when
there is no such link, the call goes to `do_insert` with the link `r`. -/
theorem body_relink_cases (sf : Dt → Nat → Ops → Option (Dt × Nat)) (H fuel mk : Nat)
    (d : Dt) (Ms : List (List Nat)) (r : Nat)
    (ht : Table d.heap d.htbl Ms) (hfuel : Ms.flatten.length < fuel) :
    (∃ L1 x L2,
        Ms.getD (_DTHSH d (_DTKEY d (_DTOBJ d r)) &&& (d.tblz - 1)) [] = L1 ++ x :: L2 ∧
        (∀ y ∈ L1, ¬ ((d.heap y).hash = _DTHSH d (_DTKEY d (_DTOBJ d r)) ∧
          _DTCMP d (_DTKEY d (_DTOBJ d r)) (_DTKEY d (_DTOBJ d y)) = 0)) ∧
        ((d.heap x).hash = _DTHSH d (_DTKEY d (_DTOBJ d r)) ∧
          _DTCMP d (_DTKEY d (_DTOBJ d r)) (_DTKEY d (_DTOBJ d x)) = 0) ∧
        x ≠ 0 ∧ d.bag = false ∧
        dthashchain_body sf H fuel mk d r DT_RELINK =
          some (if r ≠ 0 then _dtfree { d with here := 0 } r else { d with here := 0 },
            _DTOBJ d x)) ∨
    ((d.bag = true ∨
        ∀ y ∈ Ms.getD (_DTHSH d (_DTKEY d (_DTOBJ d r)) &&& (d.tblz - 1)) [],
          ¬ ((d.heap y).hash = _DTHSH d (_DTKEY d (_DTOBJ d r)) ∧
            _DTCMP d (_DTKEY d (_DTOBJ d r)) (_DTKEY d (_DTOBJ d y)) = 0)) ∧
      dthashchain_body sf H fuel mk d r DT_RELINK =
        do_insert H fuel mk { d with here := 0 } (_DTOBJ d r)
          (_DTHSH d (_DTKEY d (_DTOBJ d r))) r) := by
  have hslow : dthashchain_body sf H fuel mk d r DT_RELINK =
      match scanChain { d with here := 0 } DT_RELINK (_DTKEY d (_DTOBJ d r)) (_DTOBJ d r)
          (_DTHSH d (_DTKEY d (_DTOBJ d r))) fuel 0
          (({ d with here := 0 } : Dt).htbl.getD
            (_DTHSH d (_DTKEY d (_DTOBJ d r)) &&& (({ d with here := 0 } : Dt).tblz - 1)) 0)
          0 0 with
      | none => none
      | some (pp, ll) =>
        dthash_resolve H fuel mk { d with here := 0 } DT_RELINK 0 r (_DTOBJ d r)
          (_DTHSH d (_DTKEY d (_DTOBJ d r))) pp ll := by
    rw [body_slow _ _ _ _ _ _ DT_RELINK rfl rfl rfl rfl]
    rfl
  have hst : ∀ y, Stop { d with here := 0 } DT_RELINK (_DTKEY d (_DTOBJ d r)) (_DTOBJ d r)
      (_DTHSH d (_DTKEY d (_DTOBJ d r))) y ↔
      ((d.heap y).hash = _DTHSH d (_DTKEY d (_DTOBJ d r)) ∧
        _DTCMP d (_DTKEY d (_DTOBJ d r)) (_DTKEY d (_DTOBJ d y)) = 0) :=
    fun y => stop_plain _ _ _ _ _ _ rfl rfl rfl rfl
  rcases scan_bucket { d with here := 0 } DT_RELINK (_DTKEY d (_DTOBJ d r)) (_DTOBJ d r)
      (_DTHSH d (_DTKEY d (_DTOBJ d r))) Ms fuel ht hfuel rfl rfl rfl with
    ⟨L1, x, L2, e1, e2, e3, e4⟩ | ⟨e1, e2⟩
  · have hx0 : x ≠ 0 := by
      have := seg_zero_not_mem (table_getD (_DTHSH d (_DTKEY d (_DTOBJ d r)) &&& (d.tblz - 1)) ht)
      have e1b : Ms.getD (_DTHSH d (_DTKEY d (_DTOBJ d r)) &&& (d.tblz - 1)) [] =
          L1 ++ x :: L2 := e1
      rw [e1b] at this
      intro h; exact this (by simp [h])
    by_cases hb : d.bag = true
    · right
      refine ⟨Or.inl hb, ?_⟩
      rw [hslow, e4]
      have hb2 : ({ d with here := 0 } : Dt).bag = true := hb
      simp only [dthash_resolve, ne_eq, hx0, not_false_eq_true, if_true, DT_RELINK,
        Bool.or_self, Bool.false_eq_true, if_false, hb2, hb]
    · left
      have hb : d.bag = false := by simpa using hb
      refine ⟨L1, x, L2, e1, fun y hy h => e2 y hy ((hst y).mpr h), (hst x).mp e3, hx0, hb, ?_⟩
      rw [hslow, e4]
      have hb2 : ({ d with here := 0 } : Dt).bag = false := hb
      by_cases hr : r = 0
      · subst hr
        simp only [dthash_resolve, ne_eq, hx0, not_false_eq_true, if_true, DT_RELINK,
          Bool.or_self, Bool.false_eq_true, if_false, hb2, hb, not_true_eq_false, false_and]
        rfl
      · simp only [dthash_resolve, ne_eq, hx0, not_false_eq_true, if_true, DT_RELINK,
          Bool.or_self, Bool.false_eq_true, if_false, hb2, hb, hr, and_self]
        rfl
  · right
    refine ⟨Or.inr (fun y hy h => e1 y hy ((hst y).mpr h)), ?_⟩
    rw [hslow, e2]
    simp only [dthash_resolve, ne_eq, not_true_eq_false, if_false, DT_RELINK, Bool.or_true,
      Bool.or_false, Bool.or_self, not_true_eq_false, if_true]
    try rfl

/-- Writing the object of a link that is in no chain keeps a table well formed. -/
theorem wellFormed_setObj (d : Dt) (Ms : List (List Nat)) (mk obj h : Nat)
    (hw : WellFormed d Ms) (hmk : mk ∉ Ms.flatten) :
    WellFormed { d with here := h, heap := setObj d.heap mk obj } Ms := by
  obtain ⟨w1, w2, w3, w4, w5⟩ := hw
  refine ⟨table_frame (fun x _ => ?_) w1, w2, placed_congr (fun x => ?_) w3, ?_, w5⟩
  · simp only [setObj]; split <;> rfl
  · simp only [setObj]; split <;> rfl
  · intro a ha
    have hne : a ≠ mk := fun h => hmk (h ▸ ha)
    show (setObj d.heap mk obj a).hash = d.disc.hashf (d.disc.keyf (setObj d.heap mk obj a).obj)
    simp only [setObj, hne, if_false]
    exact w4 a ha

/-- Lines 421-438 when `_dtmake` fails, with what the resize keeps. -/
theorem do_insert_fail_keeps (H fuel : Nat) (dt : Dt) (Ls : List (List Nat)) (obj hsh : Nat)
    (hw : WellFormed dt Ls) (hfuel : Ls.flatten.length < fuel) :
    ∃ dt1 Ls1,
      do_insert H fuel 0 dt obj hsh 0 = some (dt1, 0) ∧
      WellFormed dt1 Ls1 ∧ Ls1.flatten.Perm Ls.flatten ∧ Kept dt dt1 ∧
      (∀ y, (dt1.heap y).hash = (dt.heap y).hash ∧ (dt1.heap y).obj = (dt.heap y).obj) ∧
      (dt.walk ≠ 0 → dt1 = dt ∧ Ls1 = Ls) := by
  obtain ⟨dt1, Ls1, h1, h2, h3, h4, h5, _, _, _, h9⟩ := resize_spec H fuel dt Ls hw hfuel
  refine ⟨dt1, Ls1, ?_, h2, h3, h4, h5, h9⟩
  unfold do_insert
  rw [h1]
  simp [_dtmake]

/-- The slot a hash names is a slot of the table. -/
theorem slot_lt (hsh : Nat) {n : Nat} (h : 0 < n) : hsh &&& (n - 1) < n := by
  have := @Nat.and_le_right hsh (n - 1)
  omega

/-- Lines 379-395 and 421-438 in set mode: `DT_INSTALL` of an object whose key compares
equal to that of the link `x` of the table, with the fresh link `mk` that `_dtmake`
comes up with.  The link `x` leaves its chain and is freed, the link `mk` holds the
object, is the head of the chain of its slot and is fingered, the count stays, and
the object is returned. -/
theorem install_replace_spec (H fuel mk : Nat) (d : Dt) (Ms : List (List Nat)) (obj : Nat)
    (L1 : List Nat) (x : Nat) (L2 : List Nat)
    (hw : WellFormed d Ms) (hfuel : Ms.flatten.length < fuel) (hne : d.htbl ≠ [])
    (hmk0 : mk ≠ 0) (hmk : mk ∉ Ms.flatten)
    (hb : Ms.getD (_DTHSH d (_DTKEY d obj) &&& (d.tblz - 1)) [] = L1 ++ x :: L2) :
    ∃ d2 Ms1,
      do_insert H fuel mk
        (_dtfree (unlink { d with here := 0, heap := setObj d.heap mk obj }
          (_DTHSH d (_DTKEY d obj) &&& (d.tblz - 1)) (L1.getLastD 0) x) x)
        obj (_DTHSH d (_DTKEY d obj)) mk = some (d2, obj) ∧
      WellFormed d2 (pushAt Ms1 (_DTHSH d (_DTKEY d obj) &&& (d2.tblz - 1)) mk) ∧
      Ms1.flatten.Perm
        (Ms.set (_DTHSH d (_DTKEY d obj) &&& (d.tblz - 1)) (L1 ++ L2)).flatten ∧
      (x :: (pushAt Ms1 (_DTHSH d (_DTKEY d obj) &&& (d2.tblz - 1)) mk).flatten).Perm
        (mk :: Ms.flatten) ∧
      d2.size = d.size ∧ d2.here = mk ∧ (d2.heap mk).obj = obj ∧
      (d2.heap mk).hash = _DTHSH d (_DTKEY d obj) ∧
      (∀ y, y ≠ mk → (d2.heap y).obj = (d.heap y).obj ∧ (d2.heap y).hash = (d.heap y).hash) ∧
      d2.disc = d.disc ∧ d2.bag = d.bag ∧ d2.walk = d.walk ∧ d2.freed = x :: d.freed ∧
      d.tblz ≤ d2.tblz ∧ (d.walk ≠ 0 → d2.tblz = d.tblz) := by
  have hw1 := wellFormed_setObj d Ms mk obj 0 hw hmk
  have hwd := wellFormed_unlink { d with here := 0, heap := setObj d.heap mk obj } Ms
    (_DTHSH d (_DTKEY d obj) &&& (d.tblz - 1)) L1 x L2 hw1 hb d.size
  obtain ⟨u1, u2, u3, u4, u5, u6, u7, u8, u9, u10, u11, u12, u13⟩ :=
    unlink_fields { d with here := 0, heap := setObj d.heap mk obj }
      (_DTHSH d (_DTKEY d obj) &&& (d.tblz - 1)) (L1.getLastD 0) x
  have hperm := unlink_perm Ms (_DTHSH d (_DTKEY d obj) &&& (d.tblz - 1)) L1 x L2 hb
  have hmk1 : mk ∉ (Ms.set (_DTHSH d (_DTKEY d obj) &&& (d.tblz - 1)) (L1 ++ L2)).flatten :=
    fun h => hmk (hperm.mem_iff.mpr (List.mem_cons_of_mem _ h))
  have hlen : (Ms.set (_DTHSH d (_DTKEY d obj) &&& (d.tblz - 1)) (L1 ++ L2)).flatten.length <
      fuel := by
    have := hperm.length_eq
    simp only [List.length_cons] at this
    omega
  have hobjmk : _DTOBJ (_dtfree (unlink { d with here := 0, heap := setObj d.heap mk obj }
      (_DTHSH d (_DTKEY d obj) &&& (d.tblz - 1)) (L1.getLastD 0) x) x) mk = obj := by
    show ((unlink _ _ _ _).heap mk).obj = obj
    rw [(u13 mk).2]
    simp [setObj]
  obtain ⟨d2, Ms1, g1, g2, g3, g4, g5, g6, g7, g8, g9, g10, g11, g12, g13, g14, g15, g16⟩ :=
    do_insert_link H fuel mk
      (_dtfree (unlink { d with here := 0, heap := setObj d.heap mk obj }
        (_DTHSH d (_DTKEY d obj) &&& (d.tblz - 1)) (L1.getLastD 0) x) x)
      (Ms.set (_DTHSH d (_DTKEY d obj) &&& (d.tblz - 1)) (L1 ++ L2)) obj
      (_DTHSH d (_DTKEY d obj)) mk hwd hlen
      (by
        intro h
        have h0 : (unlink { d with here := 0, heap := setObj d.heap mk obj }
          (_DTHSH d (_DTKEY d obj) &&& (d.tblz - 1)) (L1.getLastD 0) x).tblz = 0 :=
          congrArg List.length h
        rw [u12] at h0
        exact hne (List.length_eq_zero.mp h0))
      hmk0 hmk1
      (by
        rw [hobjmk]
        exact (congrArg (fun ds : Dtdisc => ds.hashf (ds.keyf obj)) u2).symm)
  rw [hobjmk] at g1
  have hk : _DTHSH d (_DTKEY d obj) &&& (d2.tblz - 1) < Ms1.length := by
    have h1 := table_length_eq g2.1
    simp only [pushAt, List.length_set] at h1
    have h3 : 0 < d2.tblz := by
      have : 0 < d.tblz := List.length_pos.mpr hne
      have h4 : d.tblz ≤ d2.tblz := by
        have : (unlink { d with here := 0, heap := setObj d.heap mk obj }
          (_DTHSH d (_DTKEY d obj) &&& (d.tblz - 1)) (L1.getLastD 0) x).tblz ≤ d2.tblz := g15
        rw [u12] at this
        exact this
      omega
    have h5 : d2.tblz = Ms1.length := h1
    have := slot_lt (_DTHSH d (_DTKEY d obj)) h3
    omega
  refine ⟨d2, Ms1, g1, g2, g3, ?_, ?_, g5, ?_, g6, ?_, ?_, ?_, ?_, ?_, ?_, ?_⟩
  · have p1 := pushAt_perm Ms1 (_DTHSH d (_DTKEY d obj) &&& (d2.tblz - 1)) mk hk
    have p2 : (x :: mk :: Ms1.flatten).Perm (mk :: x :: Ms1.flatten) := List.Perm.swap _ _ _
    have p3 : (x :: Ms1.flatten).Perm Ms.flatten :=
      (List.Perm.cons x g3).trans hperm.symm
    exact ((List.Perm.cons x p1).trans p2).trans (List.Perm.cons mk p3)
  · rw [g4]; exact u1
  · rw [g7 mk]; exact hobjmk
  · intro y hy
    constructor
    · rw [g7 y]
      show ((unlink _ _ _ _).heap y).obj = _
      rw [(u13 y).2]
      simp [setObj, hy]
    · rw [g8 y hy]
      show ((unlink _ _ _ _).heap y).hash = _
      rw [(u13 y).1]
      simp [setObj, hy]
  · rw [g9]; exact u2
  · rw [g10]; exact u3
  · rw [g11]; exact u4
  · rw [g13]
    show x :: (unlink _ _ _ _).freed = _
    rw [u11]
  · have : (unlink { d with here := 0, heap := setObj d.heap mk obj }
      (_DTHSH d (_DTKEY d obj) &&& (d.tblz - 1)) (L1.getLastD 0) x).tblz ≤ d2.tblz := g15
    rw [u12] at this
    exact this
  · intro hwk
    have := (g16 (by rw [show (_dtfree _ x).walk = (unlink _ _ _ _).walk from rfl, u4]; exact hwk)).2.1
    rw [this]
    exact u12

/-- Keys stay without duplicate when the links stay and keep their objects. -/
theorem uniqueKeys_of_subset (d d2 : Dt) (Ms Ms2 : List (List Nat)) (hu : UniqueKeys d Ms)
    (hsub : ∀ a ∈ Ms2.flatten, a ∈ Ms.flatten) (hdisc : d2.disc = d.disc)
    (hobj : ∀ a ∈ Ms2.flatten, (d2.heap a).obj = (d.heap a).obj) : UniqueKeys d2 Ms2 := by
  intro a ha b hb hab
  have := hu a (hsub a ha) b (hsub b hb) hab
  simp only [_DTCMP, _DTKEY, _DTOBJ, hdisc, hobj a ha, hobj b hb] at this ⊢
  exact this

/-- Keys stay without duplicate when a link comes in whose key compares equal to the
key of no link that stays. -/
theorem uniqueKeys_add (d d2 : Dt) (Ms Ms2 : List (List Nat)) (m : Nat) (hu : UniqueKeys d Ms)
    (hsub : ∀ a ∈ Ms2.flatten, a = m ∨ a ∈ Ms.flatten) (hdisc : d2.disc = d.disc)
    (hobj : ∀ a ∈ Ms2.flatten, a ≠ m → (d2.heap a).obj = (d.heap a).obj)
    (hnew : ∀ b ∈ Ms2.flatten, b ≠ m →
      d.disc.comparf (d.disc.keyf (d2.heap m).obj) (d.disc.keyf (d.heap b).obj) ≠ 0 ∧
      d.disc.comparf (d.disc.keyf (d.heap b).obj) (d.disc.keyf (d2.heap m).obj) ≠ 0) :
    UniqueKeys d2 Ms2 := by
  intro a ha b hb hab
  simp only [_DTCMP, _DTKEY, _DTOBJ, hdisc]
  by_cases h1 : a = m
  · subst h1
    have hbm : b ≠ a := fun h => hab h.symm
    rw [hobj b hb hbm]
    exact (hnew b hb hbm).1
  · by_cases h2 : b = m
    · subst h2
      rw [hobj a ha h1]
      exact (hnew a ha h1).2
    · rw [hobj a ha h1, hobj b hb h2]
      have := hu a ((hsub a ha).resolve_left h1) b ((hsub b hb).resolve_left h2) hab
      simpa only [_DTCMP, _DTKEY, _DTOBJ] using this

/-- In a well-formed table under a hash function consistent with the comparator, a
link whose key compares equal to a key `k` has the hash of `k` and sits in the chain
of the slot of that hash. -/
theorem equal_key_in_bucket (d : Dt) (Ms : List (List Nat)) (hw : WellFormed d Ms)
    (hcons : ∀ a b, d.disc.comparf a b = 0 → d.disc.hashf a = d.disc.hashf b)
    (k b : Nat) (hb : b ∈ Ms.flatten)
    (hc : _DTCMP d k (_DTKEY d (_DTOBJ d b)) = 0) :
    b ∈ Ms.getD (_DTHSH d k &&& (d.tblz - 1)) [] ∧ (d.heap b).hash = _DTHSH d k := by
  have hh : (d.heap b).hash = _DTHSH d k := by
    rw [hw.2.2.2.1 b hb]
    exact (hcons _ _ hc).symm
  exact ⟨mem_bucket d Ms hw b _ hb hh, hh⟩

/-- In set mode, under a hash function consistent with a comparator whose equality is
symmetric and transitive: the body of `dthashchain` under `DT_INSERT`, `DT_APPEND`,
`DT_ATTACH` or `DT_INSTALL` returns and leaves a well-formed table without duplicate
key when it is given one. -/
theorem body_insert_unique (sf : Dt → Nat → Ops → Option (Dt × Nat)) (H fuel mk : Nat)
    (d : Dt) (Ms : List (List Nat)) (obj : Nat) (type : Ops)
    (hw : WellFormed d Ms) (hfuel : Ms.flatten.length < fuel) (hne : d.htbl ≠ [])
    (hset : d.bag = false)
    (hty : type = DT_INSERT ∨ type = DT_APPEND ∨ type = DT_ATTACH ∨ type = DT_INSTALL)
    (hmk : mk ≠ 0 → mk ∉ Ms.flatten)
    (hcons : ∀ a b, d.disc.comparf a b = 0 → d.disc.hashf a = d.disc.hashf b)
    (hsym : ∀ a b, d.disc.comparf a b = 0 → d.disc.comparf b a = 0)
    (htrans : ∀ a b c, d.disc.comparf a b = 0 → d.disc.comparf b c = 0 →
      d.disc.comparf a c = 0)
    (hu : UniqueKeys d Ms) :
    ∃ d2 r Ms2, dthashchain_body sf H fuel mk d obj type = some (d2, r) ∧
      WellFormed d2 Ms2 ∧ UniqueKeys d2 Ms2 ∧ d2.disc = d.disc ∧ d2.bag = d.bag := by
  have hw0 : WellFormed { d with here := 0 } Ms := hw
  rcases body_insert_cases sf H fuel mk d Ms obj type hw.1 hfuel hty with
    ⟨L1, x, L2, e1, _, e3, e4, _, e6⟩ | ⟨e1, e2⟩
  · by_cases hin : type = DT_INSTALL
    · rw [if_pos hin] at e6
      by_cases hmk0 : mk = 0
      · rw [if_pos hmk0] at e6
        exact ⟨_, 0, Ms, e6, hw0, hu, rfl, rfl⟩
      · rw [if_neg hmk0] at e6
        obtain ⟨d2, Ms1, g1, g2, _, g4, _, _, g7, _, g9, g10, g11, _⟩ :=
          install_replace_spec H fuel mk d Ms obj L1 x L2 hw hfuel hne hmk0 (hmk hmk0) e1
        have hxF : x ∈ Ms.flatten := mem_flatten_of_getD (by rw [e1]; simp)
        have hnd : (x :: (pushAt Ms1 (_DTHSH d (_DTKEY d obj) &&& (d2.tblz - 1))
            mk).flatten).Nodup :=
          g4.nodup_iff.mpr (List.nodup_cons.mpr ⟨hmk hmk0, hw.2.1⟩)
        have hxn := (List.nodup_cons.mp hnd).1
        have hsub : ∀ a ∈ (pushAt Ms1 (_DTHSH d (_DTKEY d obj) &&& (d2.tblz - 1))
            mk).flatten, a = mk ∨ a ∈ Ms.flatten := by
          intro a ha
          have := g4.mem_iff.mp (List.mem_cons_of_mem x ha)
          simpa using this
        refine ⟨d2, obj, _, e6.trans g1, g2, ?_, g10, g11⟩
        refine uniqueKeys_add d d2 Ms _ mk hu hsub g10 (fun a _ h => (g9 a h).1) ?_
        intro b hb hbm
        have hbF : b ∈ Ms.flatten := (hsub b hb).resolve_left hbm
        have hbx : x ≠ b := fun h => hxn (h ▸ hb)
        have hxb := hu x hxF b hbF hbx
        simp only [_DTCMP, _DTKEY, _DTOBJ] at hxb e3
        rw [g7]
        constructor
        · intro h
          exact hxb (htrans _ _ _ (hsym _ _ e3.2) h)
        · intro h
          exact hxb (htrans _ _ _ (hsym _ _ e3.2) (hsym _ _ h))
    · rw [if_neg hin] at e6
      exact ⟨_, _, Ms, e6, hw0, hu, rfl, rfl⟩
  · have hnone : ∀ y ∈ Ms.getD (_DTHSH d (_DTKEY d obj) &&& (d.tblz - 1)) [],
        ¬ ((d.heap y).hash = _DTHSH d (_DTKEY d obj) ∧
          _DTCMP d (_DTKEY d obj) (_DTKEY d (_DTOBJ d y)) = 0) := by
      rcases e1 with h | h
      · rw [hset] at h; exact absurd h (by decide)
      · exact h
    by_cases hmk0 : mk = 0
    · subst hmk0
      obtain ⟨d1, Ms1, g1, g2, g3, g4, g5, _⟩ :=
        do_insert_fail_keeps H fuel { d with here := 0 } Ms obj (_DTHSH d (_DTKEY d obj))
          hw0 hfuel
      refine ⟨d1, 0, Ms1, e2.trans g1, g2, ?_, g4.1, g4.2.1⟩
      exact uniqueKeys_of_subset d d1 Ms Ms1 hu (fun a ha => g3.mem_iff.mp ha) g4.1
        (fun a _ => (g5 a).2)
    · obtain ⟨d2, Ms1, g1, g2, g3, _, _, g6, _, g8, g9, g10, _, _, g13, _⟩ :=
        do_insert_new H fuel mk { d with here := 0 } Ms obj (_DTHSH d (_DTKEY d obj))
          hw0 hfuel hne hmk0 (hmk hmk0) rfl
      have hk : _DTHSH d (_DTKEY d obj) &&& (d2.tblz - 1) < Ms1.length := by
        have h1 := table_length_eq g2.1
        simp only [pushAt, List.length_set] at h1
        have h5 : d2.tblz = Ms1.length := h1
        have h3 : 0 < d.tblz := List.length_pos.mpr hne
        have h4 : d.tblz ≤ d2.tblz := g13
        have := slot_lt (_DTHSH d (_DTKEY d obj)) (by omega : 0 < d2.tblz)
        omega
      have p1 := pushAt_perm Ms1 (_DTHSH d (_DTKEY d obj) &&& (d2.tblz - 1)) mk hk
      have hsub : ∀ a ∈ (pushAt Ms1 (_DTHSH d (_DTKEY d obj) &&& (d2.tblz - 1))
          mk).flatten, a = mk ∨ a ∈ Ms.flatten := by
        intro a ha
        have := p1.mem_iff.mp ha
        rcases List.mem_cons.mp this with h | h
        · exact Or.inl h
        · exact Or.inr (g3.mem_iff.mp h)
      refine ⟨d2, obj, _, e2.trans g1, g2, ?_, g9, g10⟩
      refine uniqueKeys_add d d2 Ms _ mk hu hsub g9 (fun a _ h => (g8 a h).2) ?_
      intro b hb hbm
      have hbF : b ∈ Ms.flatten := (hsub b hb).resolve_left hbm
      rw [g6]
      have hno : d.disc.comparf (d.disc.keyf obj) (d.disc.keyf (d.heap b).obj) ≠ 0 := by
        intro h
        obtain ⟨q1, q2⟩ := equal_key_in_bucket d Ms hw hcons (_DTKEY d obj) b hbF h
        exact hnone b q1 ⟨q2, h⟩
      exact ⟨hno, fun h => hno (hsym _ _ h)⟩

/-- In set mode, under a hash function consistent with a comparator whose equality is
symmetric: the body of `dthashchain` under `DT_RELINK` of a link that is in no chain
returns and leaves a well-formed table without duplicate key when it is given one. -/
theorem body_relink_unique (sf : Dt → Nat → Ops → Option (Dt × Nat)) (H fuel mk : Nat)
    (d : Dt) (Ms : List (List Nat)) (r : Nat)
    (hw : WellFormed d Ms) (hfuel : Ms.flatten.length < fuel) (hne : d.htbl ≠ [])
    (hset : d.bag = false) (hr0 : r ≠ 0) (hr : r ∉ Ms.flatten)
    (hcons : ∀ a b, d.disc.comparf a b = 0 → d.disc.hashf a = d.disc.hashf b)
    (hsym : ∀ a b, d.disc.comparf a b = 0 → d.disc.comparf b a = 0)
    (hu : UniqueKeys d Ms) :
    ∃ d2 o Ms2, dthashchain_body sf H fuel mk d r DT_RELINK = some (d2, o) ∧
      WellFormed d2 Ms2 ∧ UniqueKeys d2 Ms2 ∧ d2.disc = d.disc ∧ d2.bag = d.bag := by
  have hw0 : WellFormed { d with here := 0 } Ms := hw
  rcases body_relink_cases sf H fuel mk d Ms r hw.1 hfuel with
    ⟨L1, x, L2, _, _, _, _, _, e6⟩ | ⟨e1, e2⟩
  · rw [if_pos hr0] at e6
    exact ⟨_, _, Ms, e6, hw0, hu, rfl, rfl⟩
  · have hnone : ∀ y ∈ Ms.getD (_DTHSH d (_DTKEY d (_DTOBJ d r)) &&& (d.tblz - 1)) [],
        ¬ ((d.heap y).hash = _DTHSH d (_DTKEY d (_DTOBJ d r)) ∧
          _DTCMP d (_DTKEY d (_DTOBJ d r)) (_DTKEY d (_DTOBJ d y)) = 0) := by
      rcases e1 with h | h
      · rw [hset] at h; exact absurd h (by decide)
      · exact h
    obtain ⟨d2, Ms1, g1, g2, g3, _, _, _, g7, _, g9, g10, _, _, _, _, g15, _⟩ :=
      do_insert_link H fuel mk { d with here := 0 } Ms (_DTOBJ d r)
        (_DTHSH d (_DTKEY d (_DTOBJ d r))) r hw0 hfuel hne hr0 hr rfl
    have hk : _DTHSH d (_DTKEY d (_DTOBJ d r)) &&& (d2.tblz - 1) < Ms1.length := by
      have h1 := table_length_eq g2.1
      simp only [pushAt, List.length_set] at h1
      have h5 : d2.tblz = Ms1.length := h1
      have h3 : 0 < d.tblz := List.length_pos.mpr hne
      have h4 : d.tblz ≤ d2.tblz := g15
      have := slot_lt (_DTHSH d (_DTKEY d (_DTOBJ d r))) (by omega : 0 < d2.tblz)
      omega
    have p1 := pushAt_perm Ms1 (_DTHSH d (_DTKEY d (_DTOBJ d r)) &&& (d2.tblz - 1)) r hk
    have hsub : ∀ a ∈ (pushAt Ms1 (_DTHSH d (_DTKEY d (_DTOBJ d r)) &&& (d2.tblz - 1))
        r).flatten, a = r ∨ a ∈ Ms.flatten := by
      intro a ha
      have := p1.mem_iff.mp ha
      rcases List.mem_cons.mp this with h | h
      · exact Or.inl h
      · exact Or.inr (g3.mem_iff.mp h)
    refine ⟨d2, _, _, e2.trans g1, g2, ?_, g9, g10⟩
    refine uniqueKeys_add d d2 Ms _ r hu hsub g9 (fun a _ _ => g7 a) ?_
    intro b hb hbm
    have hbF : b ∈ Ms.flatten := (hsub b hb).resolve_left hbm
    rw [g7 r]
    have hno : d.disc.comparf (d.disc.keyf (d.heap r).obj) (d.disc.keyf (d.heap b).obj) ≠ 0 := by
      intro h
      obtain ⟨q1, q2⟩ := equal_key_in_bucket d Ms hw hcons (_DTKEY d (_DTOBJ d r)) b hbF h
      exact hnone b q1 ⟨q2, h⟩
    exact ⟨hno, fun h => hno (hsym _ _ h)⟩

/-- Lines 114-117 on a well-formed chain: every link is freed, nothing else changes. -/
theorem clearChain_spec : ∀ (L : List Nat) (f : Nat) (dt : Dt) (l : Nat),
    Chain dt.heap l L → L.length < f →
    ∃ fr, clearChain f dt l = some { dt with freed := fr }
  | [], f + 1, dt, l, h, _ => by
    have : l = 0 := h
    subst this
    exact ⟨dt.freed, by simp [clearChain]⟩
  | a :: L, f + 1, dt, l, h, hf => by
    obtain ⟨h1, h2, h3⟩ := h
    subst h1
    obtain ⟨fr, ih⟩ := clearChain_spec L f (_dtfree dt l) (dt.heap l).rght h3
      (by simp at hf; omega)
    exact ⟨fr, by simp only [clearChain, h2, if_false]; exact ih⟩
  | [], 0, _, _, _, hf => by simp at hf
  | _ :: _, 0, _, _, _, hf => by simp at hf

/-- Lines 113-119 on a table of well-formed chains: every link is freed, nothing else
changes. -/
theorem clearTable_spec (fuel : Nat) : ∀ (Ls : List (List Nat)) (ts : List Nat) (dt : Dt),
    Table dt.heap ts Ls → (∀ L ∈ Ls, L.length < fuel) →
    ∃ fr, clearTable fuel ts dt = some { dt with freed := fr }
  | [], [], dt, _, _ => ⟨dt.freed, rfl⟩
  | L :: Ls, t :: ts, dt, h, hf => by
    obtain ⟨fr, h1⟩ := clearChain_spec L fuel dt t h.1 (hf L (by simp))
    obtain ⟨fr2, h2⟩ := clearTable_spec fuel Ls ts { dt with freed := fr } h.2
      (fun M hM => hf M (by simp [hM]))
    exact ⟨fr2, by simp only [clearTable, h1]; exact h2⟩
  | [], _ :: _, _, h, _ => h.elim
  | _ :: _, [], _, h, _ => h.elim

/-- A table without link is well formed, whatever its other fields are. -/
theorem wellFormed_empty (d : Dt) (k : Nat) (hflat : d.flat = false)
    (htbl : d.htbl = List.replicate k 0) : WellFormed d (List.replicate k []) := by
  refine ⟨?_, ?_, placed_replicate _ _ _ _, ?_, hflat⟩
  · rw [htbl]; exact table_replicate _ _
  · rw [flatten_replicate_nil]; exact List.nodup_nil
  · intro a ha
    rw [flatten_replicate_nil] at ha
    simp at ha

/-- The body of `dthashchain` under `DT_CLEAR` on a table of well-formed chains: the
call returns `NULL` and leaves a table without link and a count of `0`. -/
theorem body_clear (sf : Dt → Nat → Ops → Option (Dt × Nat)) (H fuel mk : Nat) (d : Dt)
    (Ms : List (List Nat)) (obj : Nat) (ht : Table d.heap d.htbl Ms) (hflat : d.flat = false)
    (hfuel : Ms.flatten.length < fuel) :
    ∃ d1, dthashchain_body sf H fuel mk d obj DT_CLEAR = some (d1, 0) ∧
      WellFormed d1 (List.replicate d.tblz []) ∧ d1.size = 0 ∧ d1.tblz = d.tblz := by
  have hlen : ∀ L ∈ Ms, L.length < fuel := fun L hL =>
    lt_of_le_of_lt (length_le_flatten Ms L hL) hfuel
  obtain ⟨fr, h1⟩ := clearTable_spec fuel Ms d.htbl { d with here := 0, size := 0 } ht hlen
  refine ⟨{ d with here := 0, size := 0, freed := fr, htbl := List.replicate d.tblz 0 }, ?_,
    wellFormed_empty _ _ hflat rfl, rfl, ?_⟩
  · have e1 : DT_CLEAR.early = true := rfl
    have e2 : DT_CLEAR.start = false := rfl
    have e3 : DT_CLEAR.step = false := rfl
    have e4 : DT_CLEAR.stop = false := rfl
    have e5 : DT_CLEAR.first = false := rfl
    have e6 : DT_CLEAR.last = false := rfl
    have e7 : DT_CLEAR.clear = true := rfl
    simp only [dthashchain_body, dthash_hclear, e1, e2, e3, e4, e5, e6, e7, if_true,
      Bool.false_eq_true, if_false, Bool.or_self, h1]
    rfl
  · simp [Dt.tblz]

/-- The body of `dthashchain` under `DT_EXTRACT` on a table of well-formed chains
leaves a table without link and a count of `0`. -/
theorem body_extract_empty (sf : Dt → Nat → Ops → Option (Dt × Nat)) (H fuel mk : Nat)
    (d : Dt) (Ms : List (List Nat)) (obj : Nat) (ht : Table d.heap d.htbl Ms)
    (hn : Ms.flatten.Nodup) (hflat : d.flat = false) (hfuel : Ms.flatten.length < fuel) :
    ∃ d1 r, dthashchain_body sf H fuel mk d obj DT_EXTRACT = some (d1, r) ∧
      WellFormed d1 (List.replicate Ms.length []) ∧ d1.size = 0 := by
  have hlen : ∀ L ∈ Ms, L.length < fuel := fun L hL =>
    lt_of_le_of_lt (length_le_flatten Ms L hL) hfuel
  have h0 : (0 : Nat) ∉ Ms.flatten := table_zero_not_mem ht
  obtain ⟨hp1, hF1, _⟩ := flatTable_spec false fuel (by omega) Ms d.htbl d.heap
    0 0 ht hn h0 (fun h => absurd rfl h) hlen
  simp only [ne_eq, not_true_eq_false, if_false, Bool.false_eq_true] at hF1
  refine ⟨{ d with heap := hp1, htbl := Ms.map (fun _ => 0), size := 0 }, Ms.flatten.headD 0,
    ?_, wellFormed_empty _ _ hflat ?_, rfl⟩
  · have e1 : DT_EXTRACT.early = true := rfl
    have e2 : DT_EXTRACT.start = false := rfl
    have e3 : DT_EXTRACT.step = false := rfl
    have e4 : DT_EXTRACT.stop = false := rfl
    have e5 : DT_EXTRACT.first = false := rfl
    have e6 : DT_EXTRACT.last = false := rfl
    have e7 : DT_EXTRACT.clear = false := rfl
    have e8 : DT_EXTRACT.stat = false := rfl
    have e9 : DT_EXTRACT.flatten = false := rfl
    have e10 : DT_EXTRACT.extract = true := rfl
    have e11 : (DT_EXTRACT = DT_FLATTEN) = False := by simp; decide
    simp only [dthashchain_body, dthash_hlist, dthash_hflatten, e1, e2, e3, e4, e5, e6, e7, e8,
      e9, e10, if_true, Bool.false_eq_true, if_false, Bool.or_self, or_true, e11, decide_False,
      hF1]
  · show Ms.map (fun _ => 0) = List.replicate Ms.length 0
    exact List.map_const' Ms 0

/-- The body of `dthashchain` under `DT_DELETE`, `DT_DETACH` or `DT_REMOVE` on a
well-formed table, by cases: either a link `x` of the chain of the slot passes the
test of the scan, and it leaves its chain, is freed, and the count goes down by one;
or none does and the call returns `NULL` with the table as it was. -/
theorem body_delete_cases (sf : Dt → Nat → Ops → Option (Dt × Nat)) (H fuel mk : Nat)
    (d : Dt) (Ms : List (List Nat)) (obj : Nat) (type : Ops)
    (hw : WellFormed d Ms) (hfuel : Ms.flatten.length < fuel)
    (hty : type = DT_DELETE ∨ type = DT_DETACH ∨ type = DT_REMOVE) :
    (∃ L1 x L2, Ms.getD (_DTHSH d (_DTKEY d obj) &&& (d.tblz - 1)) [] = L1 ++ x :: L2 ∧
        dthashchain_body sf H fuel mk d obj type =
          some (_dtfree (unlink { d with here := 0, size := d.size - 1 }
            (_DTHSH d (_DTKEY d obj) &&& (d.tblz - 1)) (L1.getLastD 0) x) x, _DTOBJ d x) ∧
        WellFormed (_dtfree (unlink { d with here := 0, size := d.size - 1 }
            (_DTHSH d (_DTKEY d obj) &&& (d.tblz - 1)) (L1.getLastD 0) x) x)
          (Ms.set (_DTHSH d (_DTKEY d obj) &&& (d.tblz - 1)) (L1 ++ L2))) ∨
    dthashchain_body sf H fuel mk d obj type = some ({ d with here := 0 }, 0) := by
  have hflags : type.early = false ∧ type.search = false ∧ type.next = false ∧
      type.prev = false ∧ type.step = false ∧ type.relink = false ∧
      type.mtch = false ∧ type.atleast = false ∧ type.atmost = false ∧ type.start = false ∧
      (type.delete || type.detach || type.remove) = true ∧
      (type.insert || type.install || type.append || type.attach || type.relink) = false := by
    rcases hty with h | h | h <;> subst h <;> decide
  obtain ⟨f1, f2, f3, f4, f5, f6, f8, f9, f10, f11, f12, f13⟩ := hflags
  rw [body_slow _ _ _ _ _ _ type f1 f2 f3 f4]
  rcases slow_cases H fuel mk { d with here := 0 } obj type 0 Ms hw.1 hfuel
    f6 f3 f4 f5 (_DTKEY d obj) obj (by simp [f8, _DTKEY]) (by simp [f8]) with
    ⟨L1, x, L2, e1, _, _, e4, e5⟩ | ⟨_, e2⟩
  · left
    refine ⟨L1, x, L2, e1, ?_, ?_⟩
    · rw [e5]
      simp only [dthash_resolve, ne_eq, e4, not_false_eq_true, if_true, f2, f8, f9, f10, f11,
        f5, f3, f4, f12, Bool.or_self, Bool.false_eq_true, if_false]
      rfl
    · exact wellFormed_unlink { d with here := 0 } Ms
        (_DTHSH d (_DTKEY d obj) &&& (d.tblz - 1)) L1 x L2 hw e1 (d.size - 1)
  · right
    rw [e2]
    simp only [dthash_resolve, ne_eq, not_true_eq_false, if_false, f13, Bool.false_eq_true,
      not_false_eq_true, if_true, f11, f5]

/-- The body of `dthashchain` under `DT_INSERT`, `DT_APPEND`, `DT_ATTACH` or
`DT_INSTALL` on a well-formed table whose count is the number of its links returns
and leaves such a table, whether or not `_dtmake` comes up with a link. -/
theorem body_insert_count (sf : Dt → Nat → Ops → Option (Dt × Nat)) (H fuel mk : Nat)
    (d : Dt) (Ms : List (List Nat)) (obj : Nat) (type : Ops)
    (hw : WellFormed d Ms) (hfuel : Ms.flatten.length < fuel) (hne : d.htbl ≠ [])
    (hty : type = DT_INSERT ∨ type = DT_APPEND ∨ type = DT_ATTACH ∨ type = DT_INSTALL)
    (hmk : mk ≠ 0 → mk ∉ Ms.flatten) (hcount : d.size = Ms.flatten.length) :
    ∃ d2 r Ms2, dthashchain_body sf H fuel mk d obj type = some (d2, r) ∧
      WellFormed d2 Ms2 ∧ d2.size = Ms2.flatten.length := by
  have hw0 : WellFormed { d with here := 0 } Ms := hw
  have hins : ∃ d2 r Ms2,
      do_insert H fuel mk { d with here := 0 } obj (_DTHSH d (_DTKEY d obj)) 0 = some (d2, r) ∧
      WellFormed d2 Ms2 ∧ d2.size = Ms2.flatten.length := by
    by_cases hmk0 : mk = 0
    · subst hmk0
      obtain ⟨d1, Ms1, g1, g2, g3, g4, _⟩ :=
        do_insert_fail_keeps H fuel { d with here := 0 } Ms obj (_DTHSH d (_DTKEY d obj))
          hw0 hfuel
      refine ⟨d1, 0, Ms1, g1, g2, ?_⟩
      rw [g4.2.2.2.1, g3.length_eq]
      exact hcount
    · obtain ⟨d2, Ms1, g1, g2, g3, g4, _, _, _, _, _, _, _, _, g13, _⟩ :=
        do_insert_new H fuel mk { d with here := 0 } Ms obj (_DTHSH d (_DTKEY d obj))
          hw0 hfuel hne hmk0 (hmk hmk0) rfl
      have hk : _DTHSH d (_DTKEY d obj) &&& (d2.tblz - 1) < Ms1.length := by
        have h1 := table_length_eq g2.1
        simp only [pushAt, List.length_set] at h1
        have h5 : d2.tblz = Ms1.length := h1
        have h3 : 0 < d.tblz := List.length_pos.mpr hne
        have h4 : d.tblz ≤ d2.tblz := g13
        have := slot_lt (_DTHSH d (_DTKEY d obj)) (by omega : 0 < d2.tblz)
        omega
      have p1 := (pushAt_perm Ms1 (_DTHSH d (_DTKEY d obj) &&& (d2.tblz - 1)) mk hk).length_eq
      refine ⟨d2, obj, _, g1, g2, ?_⟩
      rw [g4, p1, List.length_cons, g3.length_eq]
      show d.size + 1 = _
      rw [hcount]
      push_cast
      rfl
  rcases body_insert_cases sf H fuel mk d Ms obj type hw.1 hfuel hty with
    ⟨L1, x, L2, e1, _, _, _, _, e6⟩ | ⟨_, e2⟩
  · by_cases hin : type = DT_INSTALL
    · rw [if_pos hin] at e6
      by_cases hmk0 : mk = 0
      · rw [if_pos hmk0] at e6
        exact ⟨_, 0, Ms, e6, hw0, hcount⟩
      · rw [if_neg hmk0] at e6
        obtain ⟨d2, Ms1, g1, g2, _, g4, g5, _⟩ :=
          install_replace_spec H fuel mk d Ms obj L1 x L2 hw hfuel hne hmk0 (hmk hmk0) e1
        refine ⟨d2, obj, _, e6.trans g1, g2, ?_⟩
        have := g4.length_eq
        simp only [List.length_cons] at this
        rw [g5, hcount]
        congr 1
        omega
    · rw [if_neg hin] at e6
      exact ⟨_, _, Ms, e6, hw0, hcount⟩
  · obtain ⟨d2, r, Ms2, g1, g2, g3⟩ := hins
    exact ⟨d2, r, Ms2, e2.trans g1, g2, g3⟩

/-- The body of `dthashchain` under `DT_DELETE`, `DT_DETACH` or `DT_REMOVE` on a
well-formed table whose count is the number of its links returns and leaves such a
table. -/
theorem body_delete_count (sf : Dt → Nat → Ops → Option (Dt × Nat)) (H fuel mk : Nat)
    (d : Dt) (Ms : List (List Nat)) (obj : Nat) (type : Ops)
    (hw : WellFormed d Ms) (hfuel : Ms.flatten.length < fuel)
    (hty : type = DT_DELETE ∨ type = DT_DETACH ∨ type = DT_REMOVE)
    (hcount : d.size = Ms.flatten.length) :
    ∃ d2 r Ms2, dthashchain_body sf H fuel mk d obj type = some (d2, r) ∧
      WellFormed d2 Ms2 ∧ d2.size = Ms2.flatten.length := by
  rcases body_delete_cases sf H fuel mk d Ms obj type hw hfuel hty with
    ⟨L1, x, L2, e1, e2, e3⟩ | e2
  · refine ⟨_, _, _, e2, e3, ?_⟩
    have hp := (unlink_perm Ms (_DTHSH d (_DTKEY d obj) &&& (d.tblz - 1)) L1 x L2 e1).length_eq
    simp only [List.length_cons] at hp
    rw [(dtfree_unlink_fields _ _ _ _).1]
    show d.size - 1 = _
    rw [hcount, hp]
    push_cast
    omega
  · exact ⟨_, 0, Ms, e2, hw, hcount⟩

/-- The body of `dthashchain` under `DT_SEARCH` of the object of the fingered link
returns the object at once (lines 297-300). -/
theorem body_search_fingered (sf : Dt → Nat → Ops → Option (Dt × Nat)) (H fuel mk : Nat)
    (d : Dt) (obj : Nat) (hh : d.here ≠ 0) (ho : obj = _DTOBJ d d.here) :
    dthashchain_body sf H fuel mk d obj DT_SEARCH = some ({ d with here := 0 }, obj) := by
  have e1 : DT_SEARCH.early = false := rfl
  have e2 : DT_SEARCH.search = true := rfl
  have ho2 : obj = _DTOBJ { d with here := 0 } d.here := ho
  simp only [dthashchain_body, dthash_lookup, e1, e2, Bool.false_eq_true, if_false, ne_eq, hh,
    not_false_eq_true, ← ho2, and_self, if_true]

/-- Lines 421-438 for a new object while a walk is going on: no resize, the fresh link
goes to the head of the chain of its slot in the slot array as it is. -/
theorem do_insert_walk (H fuel mk : Nat) (dt : Dt) (obj hsh : Nat) (hwalk : dt.walk ≠ 0)
    (hmk0 : mk ≠ 0) :
    do_insert H fuel mk dt obj hsh 0 =
      some ({ dt with
                size := dt.size + 1
                heap := setRght (setHash (setObj dt.heap mk obj) mk hsh) mk
                  (dt.htbl.getD (hsh &&& (dt.tblz - 1)) 0)
                htbl := dt.htbl.set (hsh &&& (dt.tblz - 1)) mk
                here := mk }, obj) := by
  unfold do_insert
  have hc : ¬ (dt.walk = 0 ∧ (dt.tblz : Int) < dt.size) := fun h => hwalk h.1
  rw [if_neg hc]
  simp only [_dtmake, hmk0, if_false, if_true]
  rw [(insert_heap dt.heap mk obj hsh (dt.htbl.getD (hsh &&& (dt.tblz - 1)) 0)).1]

/-- Lines 421-438 for a link that is there already: the cells of the links that are
neither in a chain nor the link itself are left alone. -/
theorem do_insert_link_frame (H fuel mk : Nat) (dt : Dt) (Ls : List (List Nat))
    (obj hsh lnk : Nat) (hw : WellFormed dt Ls) (hfuel : Ls.flatten.length < fuel)
    (hl0 : lnk ≠ 0) :
    ∃ dt2 o, do_insert H fuel mk dt obj hsh lnk = some (dt2, o) ∧
      ∀ y, y ∉ Ls.flatten → y ≠ lnk → dt2.heap y = dt.heap y := by
  obtain ⟨dt1, Ls1, h1, _, _, _, _, h6, _⟩ := resize_spec H fuel dt Ls hw hfuel
  refine ⟨{ dt1 with
              heap := setRght (setHash dt1.heap lnk hsh) lnk
                (dt1.htbl.getD (hsh &&& (dt1.tblz - 1)) 0)
              htbl := dt1.htbl.set (hsh &&& (dt1.tblz - 1)) lnk
              here := lnk },
    (setRght (setHash dt1.heap lnk hsh) lnk
      (dt1.htbl.getD (hsh &&& (dt1.tblz - 1)) 0) lnk).obj, ?_, ?_⟩
  · unfold do_insert
    rw [h1]
    simp only [hl0, if_false]
  · intro y hy hyl
    show setRght (setHash dt1.heap lnk hsh) lnk _ y = _
    rw [(link_heap dt1.heap lnk hsh _).2 y hyl]
    exact h6 y hy

/-- One `DT_RELINK` of a link `r` that is in no chain, on a well-formed table that has
its slot array.  Either the table is in set mode and holds a link `x` whose key
compares equal: then `r` is freed, the object of `x` is returned and the table is as
it was; or `r` goes to the head of the chain of its slot and its object is returned.
The count is not touched, no object changes, and the cells of the links that are in no
chain stay as they are, the cell of `r` apart. -/
theorem relink_step (H F mk : Nat) (d : Dt) (Ms : List (List Nat)) (r : Nat)
    (hw : WellFormed d Ms) (hne : d.htbl ≠ []) (hr0 : r ≠ 0) (hr : r ∉ Ms.flatten)
    (hfuel : Ms.flatten.length ≤ F) :
    ∃ d2 o Ms2, dthashchain H mk (F + 1) d r DT_RELINK = some (d2, o) ∧
      WellFormed d2 Ms2 ∧ d2.htbl ≠ [] ∧ d2.bag = d.bag ∧ d2.size = d.size ∧
      (∀ y, (d2.heap y).obj = (d.heap y).obj) ∧
      (∀ y, y ∉ Ms.flatten → y ≠ r → d2.heap y = d.heap y) ∧
      (∀ a ∈ d.freed, a ∈ d2.freed) ∧ (∀ a ∈ Ms.flatten, a ∈ Ms2.flatten) ∧
      ((d.bag = false ∧ (∃ x ∈ Ms.flatten, o = _DTOBJ d x) ∧ Ms2 = Ms ∧ r ∈ d2.freed) ∨
        (o = _DTOBJ d r ∧ Ms2.flatten.Perm (r :: Ms.flatten))) := by
  have hw0 : WellFormed { d with here := 0 } Ms := hw
  rw [dthashchain_ready H mk F d r DT_RELINK (by decide) hne hw.2.2.2.2]
  rcases body_relink_cases (dthashchain H mk F) H (F + 1) mk d Ms r hw.1 (by omega) with
    ⟨L1, x, L2, e1, _, _, _, e5, e6⟩ | ⟨_, e2⟩
  · have hxF : x ∈ Ms.flatten := mem_flatten_of_getD (by rw [e1]; simp)
    rw [if_pos hr0] at e6
    exact ⟨_, _, Ms, e6, hw0, hne, rfl, rfl, fun _ => rfl, fun _ _ _ => rfl,
      fun a ha => List.mem_cons_of_mem _ ha, fun _ h => h,
      Or.inl ⟨e5, ⟨x, hxF, rfl⟩, rfl, List.mem_cons_self _ _⟩⟩
  · obtain ⟨d2, Ms1, g1, g2, g3, g4, _, _, g7, _, _, g10, _, _, g13, _, g15, _⟩ :=
      do_insert_link H (F + 1) mk { d with here := 0 } Ms (_DTOBJ d r)
        (_DTHSH d (_DTKEY d (_DTOBJ d r))) r hw0 (by omega) hne hr0 hr rfl
    obtain ⟨d3, o3, k1, k2⟩ :=
      do_insert_link_frame H (F + 1) mk { d with here := 0 } Ms (_DTOBJ d r)
        (_DTHSH d (_DTKEY d (_DTOBJ d r))) r hw0 (by omega) hr0
    have hd : d3 = d2 := congrArg Prod.fst (Option.some.inj (k1.symm.trans g1))
    subst hd
    have hpos : 0 < d3.tblz := by
      have h3 : 0 < d.tblz := List.length_pos.mpr hne
      have h4 : d.tblz ≤ d3.tblz := g15
      omega
    have hk : _DTHSH d (_DTKEY d (_DTOBJ d r)) &&& (d3.tblz - 1) < Ms1.length := by
      have h1 := table_length_eq g2.1
      simp only [pushAt, List.length_set] at h1
      have h5 : d3.tblz = Ms1.length := h1
      have := slot_lt (_DTHSH d (_DTKEY d (_DTOBJ d r))) hpos
      omega
    have p1 := pushAt_perm Ms1 (_DTHSH d (_DTKEY d (_DTOBJ d r)) &&& (d3.tblz - 1)) r hk
    refine ⟨d3, _, _, e2.trans g1, g2, ?_, g10, g4, g7, k2, ?_, ?_,
      Or.inr ⟨rfl, p1.trans (List.Perm.cons r g3)⟩⟩
    · intro h
      have : d3.tblz = 0 := congrArg List.length h
      omega
    · intro a ha
      rw [g13]; exact ha
    · intro a ha
      exact (p1.trans (List.Perm.cons r g3)).mem_iff.mpr (List.mem_cons_of_mem _ ha)

/-- Lines 207-211 on a well-formed table that has its slot array, for a list of links
that are in no chain: every link of the list is relinked; in set mode a link whose key
is in the table already is freed instead.  The loop ends, the table is well formed,
its links are links it had or links of the list, and its count has grown by the
number of links that came in, provided that in set mode no link of the list holds the
object of another link. -/
theorem relinkList_spec (H F mk : Nat) : ∀ (L : List Nat) (f : Nat) (d : Dt)
    (Ms : List (List Nat)) (lnk : Nat) (n : Nat),
    WellFormed d Ms → d.htbl ≠ [] → Seg d.heap lnk L 0 → L.Nodup →
    (∀ a ∈ L, a ∉ Ms.flatten) → d.size = (n : Int) →
    (d.bag = false → ∀ a ∈ L, ∀ b ∈ L ++ Ms.flatten, _DTOBJ d a = _DTOBJ d b → a = b) →
    L.length < f → Ms.flatten.length + L.length ≤ F →
    ∃ d2 Ms2, relinkList (dthashchain H mk (F + 1)) f d lnk = some d2 ∧
      WellFormed d2 Ms2 ∧ d2.bag = d.bag ∧
      (d2.size : Int) + Ms.flatten.length = (n : Int) + Ms2.flatten.length ∧
      (∀ a ∈ Ms2.flatten, a ∈ Ms.flatten ∨ a ∈ L) ∧
      (∀ a ∈ L, a ∈ Ms2.flatten ∨ a ∈ d2.freed) ∧
      (∀ y, (d2.heap y).obj = (d.heap y).obj) ∧
      (∀ a ∈ d.freed, a ∈ d2.freed) ∧ (∀ a ∈ Ms.flatten, a ∈ Ms2.flatten)
  | [], f + 1, d, Ms, lnk, n, hw, _, hseg, _, _, hsz, _, _, _ => by
    have : lnk = 0 := hseg
    subst this
    refine ⟨d, Ms, by simp [relinkList], hw, rfl, by rw [hsz], fun a ha => Or.inl ha,
      fun a ha => by simp at ha, fun _ => rfl, fun _ h => h, fun _ h => h⟩
  | r :: L, f + 1, d, Ms, lnk, n, hw, hne, hseg, hnd, hdis, hsz, hobj, hf, hF => by
    obtain ⟨h1, hr0, hrest⟩ := hseg
    subst h1
    have hrL : lnk ∉ L := (List.nodup_cons.mp hnd).1
    have hndL : L.Nodup := (List.nodup_cons.mp hnd).2
    have hrM : lnk ∉ Ms.flatten := hdis lnk (List.mem_cons_self _ _)
    obtain ⟨d2, o, Ms2, g1, g2, g3, g4, g5, g6, g7, gf, gm, g8⟩ :=
      relink_step H F mk d Ms lnk hw hne hr0 hrM (by omega)
    have hseg2 : ∀ (dd : Dt), dd.heap = d2.heap → Seg dd.heap (d.heap lnk).rght L 0 := by
      intro dd hdd
      rw [hdd]
      refine seg_frame ?_ hrest
      intro x hx
      have hxM : x ∉ Ms.flatten := hdis x (List.mem_cons_of_mem _ hx)
      have hxr : x ≠ lnk := fun h => hrL (h ▸ hx)
      rw [g7 x hxM hxr]
    have hstep : relinkList (dthashchain H mk (F + 1)) (f + 1) d lnk =
        relinkList (dthashchain H mk (F + 1)) f
          (if o = _DTOBJ d lnk then { d2 with size := d2.size + 1 } else d2)
          (d.heap lnk).rght := by
      have g1b : dthashchain H mk (F + 1) d lnk { relink := true } = some (d2, o) := g1
      simp only [relinkList, hr0, if_false, g1b]
    rw [hstep]
    rcases g8 with ⟨hb, ⟨x, hxF, hox⟩, hMs, hfr⟩ | ⟨ho, hperm⟩
    · -- the link is dropped
      subst hMs
      have hne_o : o ≠ _DTOBJ d lnk := by
        intro h
        have := hobj hb lnk (List.mem_cons_self _ _) x
          (List.mem_append.mpr (Or.inr hxF)) (by rw [← h, hox])
        exact hrM (this ▸ hxF)
      rw [if_neg hne_o]
      obtain ⟨d3, Ms3, q1, q2, q3, q4, q5, q6, q7, q8, q9⟩ :=
        relinkList_spec H F mk L f d2 Ms2 (d.heap lnk).rght n g2 g3 (hseg2 d2 rfl) hndL
          (fun a ha => hdis a (List.mem_cons_of_mem _ ha)) (by rw [g5]; exact hsz)
          (by
            intro hb2 a ha b hb3 hab
            refine hobj hb a (List.mem_cons_of_mem _ ha) b ?_ ?_
            · rcases List.mem_append.mp hb3 with h | h
              · exact List.mem_append.mpr (Or.inl (List.mem_cons_of_mem _ h))
              · exact List.mem_append.mpr (Or.inr h)
            · simp only [_DTOBJ] at hab ⊢
              rw [← g6 a, ← g6 b]; exact hab)
          (by simp only [List.length_cons] at hf; omega)
          (by simp only [List.length_cons] at hF; omega)
      refine ⟨d3, Ms3, q1, q2, q3.trans g4, q4, ?_, ?_, fun y => (q7 y).trans (g6 y),
        fun a ha => q8 a (gf a ha), fun a ha => q9 a ha⟩
      · intro a ha
        rcases q5 a ha with h | h
        · exact Or.inl h
        · exact Or.inr (List.mem_cons_of_mem _ h)
      · intro a ha
        rcases List.mem_cons.mp ha with h | h
        · subst h
          exact Or.inr (q8 a hfr)
        · exact q6 a h
    · -- the link comes in
      rw [if_pos ho]
      have hlen := hperm.length_eq
      simp only [List.length_cons] at hlen
      obtain ⟨d3, Ms3, q1, q2, q3, q4, q5, q6, q7, q8, q9⟩ :=
        relinkList_spec H F mk L f { d2 with size := d2.size + 1 } Ms2 (d.heap lnk).rght (n + 1)
          g2 g3 (hseg2 _ rfl) hndL
          (by
            intro a ha hm
            rcases List.mem_cons.mp (hperm.mem_iff.mp hm) with h | h
            · exact hrL (h ▸ ha)
            · exact hdis a (List.mem_cons_of_mem _ ha) h)
          (by show d2.size + 1 = _; rw [g5, hsz]; push_cast; rfl)
          (by
            intro hb2 a ha b hb3 hab
            have hb : d.bag = false := by rw [← g4]; exact hb2
            refine hobj hb a (List.mem_cons_of_mem _ ha) b ?_ ?_
            · rcases List.mem_append.mp hb3 with h | h
              · exact List.mem_append.mpr (Or.inl (List.mem_cons_of_mem _ h))
              · rcases List.mem_cons.mp (hperm.mem_iff.mp h) with h2 | h2
                · exact List.mem_append.mpr (Or.inl (h2 ▸ List.mem_cons_self _ _))
                · exact List.mem_append.mpr (Or.inr h2)
            · simp only [_DTOBJ] at hab ⊢
              rw [← g6 a, ← g6 b]; exact hab)
          (by simp only [List.length_cons] at hf; omega)
          (by simp only [List.length_cons] at hF; omega)
      refine ⟨d3, Ms3, q1, q2, q3.trans g4, ?_, ?_, ?_, fun y => (q7 y).trans (g6 y),
        fun a ha => q8 a (gf a ha), fun a ha => q9 a (gm a ha)⟩
      · rw [hlen] at q4
        push_cast at q4 ⊢
        omega
      · intro a ha
        rcases q5 a ha with h | h
        · rcases List.mem_cons.mp (hperm.mem_iff.mp h) with h2 | h2
          · exact Or.inr (h2 ▸ List.mem_cons_self _ _)
          · exact Or.inl h2
        · exact Or.inr (List.mem_cons_of_mem _ h)
      · intro a ha
        rcases List.mem_cons.mp ha with h | h
        · subst h
          exact Or.inl (q9 a (hperm.mem_iff.mpr (List.mem_cons_self _ _)))
        · exact q6 a h
  | [], 0, _, _, _, _, _, _, _, _, _, _, _, hf, _ => by simp at hf
  | _ :: _, 0, _, _, _, _, _, _, _, _, _, _, _, hf, _ => by simp at hf

/-- The body of `dthashchain` under `DT_RESTORE` is the loop of lines 205-212 on the
table with its count set to `0`. -/
theorem body_restore (sf : Dt → Nat → Ops → Option (Dt × Nat)) (H fuel mk : Nat) (d : Dt)
    (list : Nat) :
    dthashchain_body sf H fuel mk d list DT_RESTORE =
      (relinkList sf fuel { d with size := 0 } list).map (fun d1 => (d1, list)) := by
  have e1 : DT_RESTORE.early = true := rfl
  have e2 : DT_RESTORE.start = false := rfl
  have e3 : DT_RESTORE.step = false := rfl
  have e4 : DT_RESTORE.stop = false := rfl
  have e5 : DT_RESTORE.first = false := rfl
  have e6 : DT_RESTORE.last = false := rfl
  have e7 : DT_RESTORE.clear = false := rfl
  have e8 : DT_RESTORE.stat = false := rfl
  have e9 : DT_RESTORE.flatten = false := rfl
  have e10 : DT_RESTORE.extract = false := rfl
  simp only [dthashchain_body, dthash_hlist, e1, e2, e3, e4, e5, e6, e7, e8, e9, e10, if_true,
    Bool.false_eq_true, if_false, Bool.or_self]
  cases relinkList sf fuel { d with size := 0 } list <;> rfl

/-! ## The claims -/

/-- C1. Flatten followed at once by restore gives back the table: the heap and the
slot array are what they were, so every slot holds the same links in the same chain
order; the count is untouched, `H_FLATTEN` is cleared and so is the fingered
link. -/
theorem flatten_restore_roundtrip (fuel : Nat) (dt : Dt) (Ls : List (List Nat))
    (ht : Table dt.heap dt.htbl Ls) (hn : Ls.flatten.Nodup) (hflat : dt.flat = false)
    (hfuel : Ls.flatten.length < fuel) :
    ∃ dt1, dthash_hflatten fuel dt DT_FLATTEN = some (dt1, Ls.flatten.headD 0) ∧
      dt1.flat = true ∧ dt1.size = dt.size ∧
      dthash_hflatten fuel dt1 DT_NONE = some ({ dt with here := 0 }, 0) ∧
      Table ({ dt with here := 0 } : Dt).heap ({ dt with here := 0 } : Dt).htbl Ls := by
  have hlen : ∀ L ∈ Ls, L.length < fuel := by
    intro L hL
    have := length_le_flatten Ls L hL
    omega
  have h0 : (0 : Nat) ∉ Ls.flatten := table_zero_not_mem ht
  obtain ⟨hpF, hF1, hF2, _, hF4, hF5⟩ := flatTable_spec true fuel (by omega) Ls dt.htbl dt.heap
    0 0 ht hn h0 (fun h => absurd rfl h) hlen
  simp only [ne_eq, not_true_eq_false, if_false, if_true] at hF1
  obtain ⟨hpR, ts, hR1, hR2, hR3, hR4⟩ := restoreTable_spec fuel Ls hpF (Ls.flatten.headD 0) hF2 hn
    (fun L hL => Nat.lt_succ_of_lt (hlen L hL))
  have hts : ts = dt.htbl := by rw [table_slots_eq hR2, table_slots_eq ht]
  have hheap : hpR = dt.heap := by
    apply heap_ext
    intro x
    refine ⟨?_, (hR4 x).1.trans (hF5 x).1, (hR4 x).2.trans (hF5 x).2⟩
    by_cases hx : x ∈ Ls.flatten
    · exact table_rght_eq ht hR2 hn x hx
    · rw [hR3 x hx, hF4 x hx (Or.inr rfl)]
  refine ⟨{ dt with heap := hpF, htbl := Ls.map (fun L => L.getLastD 0),
                    here := Ls.flatten.headD 0, flat := true }, ?_, rfl, rfl, ?_, ht⟩
  · unfold dthash_hflatten
    simp [hF1]
  · unfold dthash_hflatten
    have hne : ¬ (DT_NONE = DT_FLATTEN ∨ DT_NONE = DT_EXTRACT) := by decide
    simp only [hne, if_false, hR1, hts, hheap, if_true, ← hflat]

/-- C1, witness: the round trip on the table `exBag`. -/
theorem flatten_restore_roundtrip_witness :
    ∃ dt1, dthash_hflatten 6 exBag DT_FLATTEN = some (dt1, 5) ∧
      dt1.flat = true ∧ dt1.size = exBag.size ∧
      dthash_hflatten 6 dt1 DT_NONE = some ({ exBag with here := 0 }, 0) ∧
      Table ({ exBag with here := 0 } : Dt).heap ({ exBag with here := 0 } : Dt).htbl exBagChains :=
  flatten_restore_roundtrip 6 exBag exBagChains (by decide) (by decide) rfl (by decide)

/-- C9. On a table without event hook whose slot array is either not made yet or has a
size `2 ^ j` with `j ≥ DT_HTABLE`: whenever `dthash_htable` returns `0`, the size is a
power of two, at least `2 ^ DT_HTABLE` and not smaller than before; if the table has
grown, the new size is the smallest power of two that is at least
`max (2 ^ DT_HTABLE) count`; and if that value is at most the current size, nothing
changes.  The call does return when the chains are well formed. -/
theorem dthash_htable_size (H fuel : Nat) (dt : Dt)
    (hev : dt.disc.eventf = none)
    (hinv : dt.tblz = 0 ∨ ∃ j, H ≤ j ∧ dt.tblz = 2 ^ j) :
    (∀ dt1, dthash_htable H fuel dt = some (dt1, 0) →
      (∃ j, H ≤ j ∧ dt1.tblz = 2 ^ j) ∧ dt.tblz ≤ dt1.tblz ∧
      (dt.tblz < dt1.tblz → LeastPow2 H dt.size dt1.tblz) ∧
      (∀ m, LeastPow2 H dt.size m → m ≤ dt.tblz → dt1 = dt)) ∧
    (∀ Ls, Table dt.heap dt.htbl Ls → Ls.flatten.Nodup → Ls.flatten.length < fuel →
      ∃ dt1 rc, dthash_htable H fuel dt = some (dt1, rc)) := by
  constructor
  · intro dt1 hret
    have hc := dthash_htable_cases H fuel dt hev
    simp only at hc
    rw [hc] at hret
    clear hc
    generalize hn : (if (dt.tblz : Int) < dt.size then dt.size else (dt.tblz : Int)) = n at hret
    obtain ⟨j, hHj, hk, hnk, hmin⟩ := hsize_pow H n
    rw [hk] at hret
    -- the case where nothing changes
    have hsame : dt1 = dt → 0 < dt.tblz →
        (∃ j, H ≤ j ∧ dt1.tblz = 2 ^ j) ∧ dt.tblz ≤ dt1.tblz ∧
        (dt.tblz < dt1.tblz → LeastPow2 H dt.size dt1.tblz) ∧
        (∀ m, LeastPow2 H dt.size m → m ≤ dt.tblz → dt1 = dt) := by
      intro h hpos
      subst h
      refine ⟨?_, le_refl _, fun h => absurd h (lt_irrefl _), fun _ _ _ => rfl⟩
      rcases hinv with h0 | h0
      · omega
      · exact h0
    by_cases h1 : 0 < dt.tblz ∧ dt.fixed = true
    · simp only [h1, and_self, if_true, Option.some.injEq, Prod.mk.injEq, and_true] at hret
      exact hsame hret.symm h1.1
    · simp only [h1, if_false] at hret
      by_cases h2 : 2 ^ j ≤ dt.tblz
      · simp only [h2, if_true, Option.some.injEq, Prod.mk.injEq, and_true] at hret
        have : 0 < dt.tblz := lt_of_lt_of_le (by positivity) h2
        exact hsame hret.symm this
      · simp only [h2, if_false] at hret
        by_cases h3 : dt.memoryf dt.nalloc = 0
        · simp [h3] at hret
        · simp only [h3, if_false] at hret
          cases hm : moveTable fuel (2 ^ j) dt.htbl dt.heap (List.replicate (2 ^ j) 0) with
          | none => simp [hm] at hret
          | some r =>
            obtain ⟨hp, htbl⟩ := r
            simp only [hm, Option.some.injEq, Prod.mk.injEq, and_true] at hret
            have hlen : htbl.length = 2 ^ j := by
              rw [moveTable_length _ _ _ _ _ _ _ hm]; simp
            have ht1 : dt1.tblz = 2 ^ j := by rw [← hret]; exact hlen
            have hlt : dt.tblz < 2 ^ j := by omega
            -- the size asked for is the count, or nothing when the table is new
            have hsn : dt.size ≤ n := by
              rw [← hn]; split <;> omega
            have hn2 : ∀ i, H ≤ i → dt.size ≤ ((2 ^ i : Nat) : Int) →
                n ≤ ((2 ^ i : Nat) : Int) := by
              intro i hi hs
              by_cases h4 : (dt.tblz : Int) < dt.size
              · simp only [h4, if_true] at hn; rw [← hn]; exact hs
              · simp only [h4, if_false] at hn
                rcases hinv with h0 | ⟨i0, hi0, h0⟩
                · rw [← hn, h0]; positivity
                · exfalso
                  have : n ≤ ((2 ^ i0 : Nat) : Int) := by rw [← hn, h0]
                  have := hmin i0 hi0 this
                  have : 2 ^ j ≤ 2 ^ i0 := Nat.pow_le_pow_right (by norm_num) this
                  omega
            refine ⟨⟨j, hHj, ht1⟩, by omega, ?_, ?_⟩
            · intro _
              rw [ht1]
              exact ⟨j, rfl, hHj, le_trans hsn hnk, fun i hi hc => hmin i hi (hn2 i hi hc)⟩
            · intro m ⟨jm, hm1, hm2, hm3, hm4⟩ hle
              exfalso
              have : n ≤ ((2 ^ jm : Nat) : Int) := hn2 jm hm2 (by rw [← hm1]; exact hm3)
              have := hmin jm hm2 this
              have : 2 ^ j ≤ 2 ^ jm := Nat.pow_le_pow_right (by norm_num) this
              omega
  · intro Ls ht hnd hfuel
    have hfl : ∀ L ∈ Ls, L.length < fuel := fun L hL =>
      lt_of_le_of_lt (length_le_flatten Ls L hL) hfuel
    rcases dthash_htable_spec H fuel dt Ls ht hnd hfl with ⟨fx, nal, rc, h, _⟩ | ⟨fx, hp, ts, h, _⟩
    · exact ⟨_, _, h⟩
    · exact ⟨_, _, h⟩

/-- C9, witness: the table `exBag9`, four slots and a count of nine. -/
theorem dthash_htable_size_witness :
    (∀ dt1, dthash_htable 1 6 exBag9 = some (dt1, 0) →
      (∃ j, 1 ≤ j ∧ dt1.tblz = 2 ^ j) ∧ exBag9.tblz ≤ dt1.tblz ∧
      (exBag9.tblz < dt1.tblz → LeastPow2 1 exBag9.size dt1.tblz) ∧
      (∀ m, LeastPow2 1 exBag9.size m → m ≤ exBag9.tblz → dt1 = exBag9)) ∧
    (∀ Ls, Table exBag9.heap exBag9.htbl Ls → Ls.flatten.Nodup → Ls.flatten.length < 6 →
      ∃ dt1 rc, dthash_htable 1 6 exBag9 = some (dt1, rc)) :=
  dthash_htable_size 1 6 exBag9 rfl (Or.inr ⟨2, by decide, by decide⟩)

/-- C10 (as amended). On a table without event hook, once a call of `dthash_htable`
has returned `0`, a second call right after it returns `0` as well and leaves the
whole table as it is: no allocation request is made, and the slot array, its size
and all chains are what the first call left. -/
theorem dthash_htable_twice (H fuel : Nat) (dt dt1 : Dt)
    (hev : dt.disc.eventf = none)
    (hret : dthash_htable H fuel dt = some (dt1, 0)) :
    dthash_htable H fuel dt1 = some (dt1, 0) := by
  have hc := dthash_htable_cases H fuel dt hev
  simp only at hc
  rw [hc] at hret
  clear hc
  generalize hn : (if (dt.tblz : Int) < dt.size then dt.size else (dt.tblz : Int)) = n at hret
  obtain ⟨j, hHj, hk, hnk, hmin⟩ := hsize_pow H n
  have hsn : dt.size ≤ n := by rw [← hn]; split <;> omega
  have hsame : dt1 = dt → dthash_htable H fuel dt1 = some (dt1, 0) := by
    intro h
    subst h
    have hc := dthash_htable_cases H fuel dt1 hev
    simp only at hc
    rw [hc, hn]
    exact hret
  rw [hk] at hret
  by_cases h1 : 0 < dt.tblz ∧ dt.fixed = true
  · simp only [h1, and_self, if_true, Option.some.injEq, Prod.mk.injEq, and_true] at hret
    exact hsame hret.symm
  · simp only [h1, if_false] at hret
    by_cases h2 : 2 ^ j ≤ dt.tblz
    · simp only [h2, if_true, Option.some.injEq, Prod.mk.injEq, and_true] at hret
      exact hsame hret.symm
    · simp only [h2, if_false] at hret
      by_cases h3 : dt.memoryf dt.nalloc = 0
      · simp [h3] at hret
      · simp only [h3, if_false] at hret
        cases hm : moveTable fuel (2 ^ j) dt.htbl dt.heap (List.replicate (2 ^ j) 0) with
        | none => simp [hm] at hret
        | some r =>
          obtain ⟨hp, htbl⟩ := r
          simp only [hm, Option.some.injEq, Prod.mk.injEq, and_true] at hret
          have hlen : htbl.length = 2 ^ j := by
            rw [moveTable_length _ _ _ _ _ _ _ hm]; simp
          have ht1 : dt1.tblz = 2 ^ j := by rw [← hret]; exact hlen
          have hs1 : dt1.size = dt.size := by rw [← hret]
          have hev1 : dt1.disc.eventf = none := by rw [← hret]; exact hev
          have hc := dthash_htable_cases H fuel dt1 hev1
          simp only at hc
          rw [hc]
          by_cases h4 : 0 < dt1.tblz ∧ dt1.fixed = true
          · rw [if_pos h4]
          · rw [if_neg h4]
            have hn1 : (if (dt1.tblz : Int) < dt1.size then dt1.size else (dt1.tblz : Int))
                = ((2 ^ j : Nat) : Int) := by
              rw [ht1, hs1]
              have : dt.size ≤ ((2 ^ j : Nat) : Int) := le_trans hsn hnk
              simp only [ite_eq_right_iff]
              intro h; omega
            rw [hn1]
            obtain ⟨j1, hHj1, hk1, _, hmin1⟩ := hsize_pow H ((2 ^ j : Nat) : Int)
            have := hmin1 j hHj (le_refl _)
            rw [hk1, if_pos]
            rw [ht1]
            exact Nat.pow_le_pow_right (by norm_num) this

/-- C10, witness: the second call on the table that the first call has made grow. -/
theorem dthash_htable_twice_witness :
    dthash_htable 1 6 exBag9Grown = some (exBag9Grown, 0) :=
  dthash_htable_twice 1 6 exBag9 exBag9Grown rfl rfl

/-- C10, counterexample.  With `DT_HTABLE = 6`: when the allocation of the first call
fails, the second call asks again and makes the array of 64 slots; and with a hook
that asks for one slot more than there is, both calls return `0` and the second one
allocates again, an array of 128 slots. -/
theorem dthash_htable_twice_cex :
    (htableView (dthash_htable 6 1 exAllocFail) = some (0, 1, -1) ∧
     htableView (htableTwice 6 1 exAllocFail) = some (64, 2, 0)) ∧
    (htableView (dthash_htable 6 1 exHook) = some (64, 1, 0) ∧
     htableView (htableTwice 6 1 exHook) = some (128, 2, 0)) := by
  decide

/-- C5 (as amended). With a hash function consistent with the comparator (keys that
compare equal have equal hashes), on every well-formed table and for every key `k`:
if some link of the table has a key that compares equal to `k`, `DT_MATCH` returns
the object of such a link, the first one in the chain of the slot of `k` that has
the hash of `k` and an equal key (the links before it are skipped), and makes it the
fingered link; if there is none, `DT_MATCH` returns `NULL`. -/
theorem match_by_key (H mk fuel : Nat) (dt : Dt) (Ls : List (List Nat)) (k : Nat)
    (hw : WellFormed dt Ls) (hfuel : Ls.flatten.length < fuel)
    (hcons : ∀ a b, dt.disc.comparf a b = 0 → dt.disc.hashf a = dt.disc.hashf b) :
    ((∃ e ∈ Ls.flatten, _DTCMP dt k (_DTKEY dt (_DTOBJ dt e)) = 0) →
      ∃ L1 l L2, Ls.getD (_DTHSH dt k &&& (dt.tblz - 1)) [] = L1 ++ l :: L2 ∧
        (∀ y ∈ L1, ¬ ((dt.heap y).hash = _DTHSH dt k ∧
          _DTCMP dt k (_DTKEY dt (_DTOBJ dt y)) = 0)) ∧
        _DTCMP dt k (_DTKEY dt (_DTOBJ dt l)) = 0 ∧
        dthashchain H mk (fuel + 1) dt k DT_MATCH = some ({ dt with here := l }, _DTOBJ dt l)) ∧
    ((¬ ∃ e ∈ Ls.flatten, _DTCMP dt k (_DTKEY dt (_DTOBJ dt e)) = 0) →
      ∃ dt1, dthashchain H mk (fuel + 1) dt k DT_MATCH = some (dt1, 0)) := by
  have hstop : ∀ (d : Dt) (x : Nat), Stop d DT_MATCH k 0 (_DTHSH d k) x ↔
      ((d.heap x).hash = _DTHSH d k ∧ _DTCMP d k (_DTKEY d (_DTOBJ d x)) = 0) := by
    intro d x
    simp only [Stop, DT_MATCH, Bool.or_self, Bool.false_eq_true, false_and, not_false_eq_true,
      and_true]
    constructor
    · rintro ⟨a, b⟩; exact ⟨a.symm, b⟩
    · rintro ⟨a, b⟩; exact ⟨a.symm, b⟩
  have hmt : DT_MATCH ≠ DT_NONE := by decide
  -- the search on a table that has its slot array
  have hbody : ∀ (d : Dt) (Ms : List (List Nat)), WellFormed d Ms → Ms.flatten.length < fuel + 1 →
      (∃ L1 l L2, Ms.getD (_DTHSH d k &&& (d.tblz - 1)) [] = L1 ++ l :: L2 ∧
          (∀ y ∈ L1, ¬ ((d.heap y).hash = _DTHSH d k ∧
            _DTCMP d k (_DTKEY d (_DTOBJ d y)) = 0)) ∧
          ((d.heap l).hash = _DTHSH d k ∧ _DTCMP d k (_DTKEY d (_DTOBJ d l)) = 0) ∧
          dthashchain_body (dthashchain H mk fuel) H (fuel + 1) mk d k DT_MATCH =
            some ({ d with here := l }, _DTOBJ d l)) ∨
      ((∀ y ∈ Ms.getD (_DTHSH d k &&& (d.tblz - 1)) [], ¬ ((d.heap y).hash = _DTHSH d k ∧
            _DTCMP d k (_DTKEY d (_DTOBJ d y)) = 0)) ∧
        dthashchain_body (dthashchain H mk fuel) H (fuel + 1) mk d k DT_MATCH =
          some ({ d with here := 0 }, 0)) := by
    intro d Ms hwd hf
    rw [body_slow _ _ _ _ _ _ DT_MATCH rfl rfl rfl rfl]
    rcases slow_cases H (fuel + 1) mk { d with here := 0 } k DT_MATCH 0 Ms hwd.1 hf rfl rfl rfl
      rfl k 0 rfl rfl with ⟨L1, x, L2, e1, e2, e3, e4, e5⟩ | ⟨e1, e2⟩
    · left
      refine ⟨L1, x, L2, e1, fun y hy => ?_, ?_, ?_⟩
      · exact fun h => e2 y hy ((hstop { d with here := 0 } y).mpr h)
      · exact (hstop { d with here := 0 } x).mp e3
      · rw [e5]
        simp [dthash_resolve, DT_MATCH, e4, _DTOBJ]
    · right
      refine ⟨fun y hy h => e1 y hy ((hstop { d with here := 0 } y).mpr h), ?_⟩
      rw [e2]
      simp [dthash_resolve, DT_MATCH]
  rcases dthashchain_setup H mk fuel dt k DT_MATCH Ls hw hmt with
    ⟨_, hd⟩ | ⟨_, hLs, ⟨fx, nal, _, hd⟩ | ⟨fx, n, _, _, _, hd⟩⟩
  · -- the slot array is there
    rw [hd]
    constructor
    · rintro ⟨e, he, hcmp⟩
      have hh : (dt.heap e).hash = _DTHSH dt k := by
        rw [hw.2.2.2.1 e he]
        exact (hcons _ _ hcmp).symm
      have hin := mem_bucket dt Ls hw e _ he hh
      rcases hbody dt Ls hw (by omega) with ⟨L1, l, L2, e1, e2, e3, e4⟩ | ⟨e1, _⟩
      · exact ⟨L1, l, L2, e1, e2, e3.2, e4⟩
      · exact absurd ⟨hh, hcmp⟩ (e1 e hin)
    · intro hno
      rcases hbody dt Ls hw (by omega) with ⟨L1, l, L2, e1, _, e3, _⟩ | ⟨_, e2⟩
      · exfalso
        have hl : l ∈ L1 ++ l :: L2 := by simp
        rw [← e1] at hl
        exact hno ⟨l, mem_flatten_of_getD hl, e3.2⟩
      · exact ⟨_, e2⟩
  · -- the slot array cannot be made
    rw [hd]
    constructor
    · rintro ⟨e, he, _⟩
      rw [hLs] at he
      simp at he
    · intro _
      exact ⟨_, rfl⟩
  · -- the slot array is made, all slots are empty
    rw [hd]
    constructor
    · rintro ⟨e, he, _⟩
      rw [hLs] at he
      simp at he
    · intro _
      have hwn := wellFormed_new dt fx (dt.nalloc + 1) n hw.2.2.2.2
      rcases hbody _ _ hwn (by rw [flatten_replicate_nil]; simp) with
        ⟨L1, l, L2, e1, _, _, _⟩ | ⟨_, e2⟩
      · exfalso
        have hl : l ∈ L1 ++ l :: L2 := by simp
        rw [← e1] at hl
        have := mem_flatten_of_getD hl
        rw [flatten_replicate_nil] at this
        simp at this
      · exact ⟨_, e2⟩

/-- C5, witness: the key `1` in the table `exBag`. -/
theorem match_by_key_witness :
    ((∃ e ∈ exBagChains.flatten, _DTCMP exBag 1 (_DTKEY exBag (_DTOBJ exBag e)) = 0) →
      ∃ L1 l L2, exBagChains.getD (_DTHSH exBag 1 &&& (exBag.tblz - 1)) [] = L1 ++ l :: L2 ∧
        (∀ y ∈ L1, ¬ ((exBag.heap y).hash = _DTHSH exBag 1 ∧
          _DTCMP exBag 1 (_DTKEY exBag (_DTOBJ exBag y)) = 0)) ∧
        _DTCMP exBag 1 (_DTKEY exBag (_DTOBJ exBag l)) = 0 ∧
        dthashchain 1 0 (6 + 1) exBag 1 DT_MATCH =
          some ({ exBag with here := l }, _DTOBJ exBag l)) ∧
    ((¬ ∃ e ∈ exBagChains.flatten, _DTCMP exBag 1 (_DTKEY exBag (_DTOBJ exBag e)) = 0) →
      ∃ dt1, dthashchain 1 0 (6 + 1) exBag 1 DT_MATCH = some (dt1, 0)) :=
  match_by_key 1 0 6 exBag exBagChains 1 (by decide) (by decide)
    (fun a b h => by
      have h1 : (a : Int) - b = 0 := h
      have h2 : a = b := by omega
      rw [h2])

/-- C5, counterexample.  The table `exSet64Parity` is well formed (every memoized hash
is the hash of the key, every link sits in slot `hash & 63`) and link `1` holds the
key `1`, which compares equal to the key `7`; yet `DT_MATCH` for `7` looks in slot
`7`, which is empty, and returns `NULL`. -/
theorem match_by_key_cex :
    WellFormed exSet64Parity exSet64Chains ∧
    (∃ e ∈ exSet64Chains.flatten,
      _DTCMP exSet64Parity 7 (_DTKEY exSet64Parity (_DTOBJ exSet64Parity e)) = 0) ∧
    (dthashchain 6 0 5 exSet64Parity 7 DT_MATCH).map Prod.snd = some 0 := by
  decide

/-- C3 (as amended). In set mode, with a hash function consistent with the
comparator, on every well-formed table: when the key of the object handed to
`DT_INSERT`, `DT_APPEND` or `DT_ATTACH` compares equal to the key of a link of the
table, the call returns the object of such a link and changes nothing but the
fingered link: the count, the slot array and the heap, hence every chain, stay as
they are, and no link is made for the new object. -/
theorem insert_duplicate_set (H mk fuel : Nat) (dt : Dt) (Ls : List (List Nat))
    (obj : Nat) (type : Ops)
    (hw : WellFormed dt Ls) (hfuel : Ls.flatten.length < fuel) (hset : dt.bag = false)
    (hty : type = DT_INSERT ∨ type = DT_APPEND ∨ type = DT_ATTACH)
    (hcons : ∀ a b, dt.disc.comparf a b = 0 → dt.disc.hashf a = dt.disc.hashf b)
    (e : Nat) (he : e ∈ Ls.flatten)
    (hcmp : _DTCMP dt (_DTKEY dt obj) (_DTKEY dt (_DTOBJ dt e)) = 0) :
    ∃ l ∈ Ls.flatten, _DTCMP dt (_DTKEY dt obj) (_DTKEY dt (_DTOBJ dt l)) = 0 ∧
      dthashchain H mk (fuel + 1) dt obj type = some ({ dt with here := 0 }, _DTOBJ dt l) := by
  have hne : type ≠ DT_NONE := by rcases hty with h | h | h <;> subst h <;> decide
  have hflags : type.early = false ∧ type.search = false ∧ type.next = false ∧
      type.prev = false ∧ type.step = false ∧ type.relink = false ∧ type.remove = false ∧
      type.mtch = false ∧ type.atleast = false ∧ type.atmost = false ∧ type.start = false ∧
      type.delete = false ∧ type.detach = false ∧ type.install = false ∧
      (type.insert || type.append || type.attach) = true := by
    rcases hty with h | h | h <;> subst h <;> decide
  obtain ⟨f1, f2, f3, f4, f5, f6, f7, f8, f9, f10, f11, f12, f13, f14, f15⟩ := hflags
  rcases dthashchain_setup H mk fuel dt obj type Ls hw hne with
    ⟨_, hd⟩ | ⟨hnil, _⟩
  · rw [hd, body_slow _ _ _ _ _ _ type f1 f2 f3 f4]
    have hh : (dt.heap e).hash = _DTHSH dt (_DTKEY dt obj) := by
      rw [hw.2.2.2.1 e he]
      exact (hcons _ _ hcmp).symm
    have hin := mem_bucket dt Ls hw e _ he hh
    rcases slow_cases H (fuel + 1) mk { dt with here := 0 } obj type 0 Ls hw.1 (by omega)
      f6 f3 f4 f5 (_DTKEY dt obj) obj (by simp [f8, _DTKEY]) (by simp [f8]) with
      ⟨L1, x, L2, e1, _, e3, e4, e5⟩ | ⟨e1, _⟩
    · have hx := (stop_plain _ _ _ _ _ _ f7 f3 f4 f5).mp e3
      have hl : x ∈ L1 ++ x :: L2 := by simp
      rw [← e1] at hl
      refine ⟨x, mem_flatten_of_getD hl, hx.2, ?_⟩
      rw [e5]
      simp only [dthash_resolve, ne_eq, e4, not_false_eq_true, if_true, f2, f8, f9, f10,
        Bool.or_self, Bool.false_eq_true, if_false, f11, f5, f3, f4, f12, f13, f7, f14,
        hset, f15]
      rfl
    · exact absurd ((stop_plain _ _ _ _ _ _ f7 f3 f4 f5).mpr ⟨hh, hcmp⟩) (e1 e hin)
  · exact absurd hnil (htbl_ne_nil hw.1 he)

/-- C3, witness: the object `12`, of key `1`, handed to `DT_INSERT` on `exSet64`. -/
theorem insert_duplicate_set_witness :
    ∃ l ∈ exSet64Chains.flatten,
      _DTCMP exSet64 (_DTKEY exSet64 12) (_DTKEY exSet64 (_DTOBJ exSet64 l)) = 0 ∧
      dthashchain 6 4 (4 + 1) exSet64 12 DT_INSERT =
        some ({ exSet64 with here := 0 }, _DTOBJ exSet64 l) :=
  insert_duplicate_set 6 4 4 exSet64 exSet64Chains 12 DT_INSERT (by decide) (by decide) rfl
    (Or.inl rfl)
    (fun a b h => by
      have h1 : (a : Int) - b = 0 := h
      have h2 : a = b := by omega
      rw [h2])
    1 (by decide) (by decide)

/-- C3, counterexample.  The table `exSet64Parity` is well formed and in set mode, and
the key `7` of the object `70` compares equal to the key `1` of link `1`; yet
`DT_INSERT` of `70` looks in slot `7`, finds it empty, and inserts: it returns `70`,
the count goes from 3 to 4 and the new link `4` is the head of the chain of slot `7`. -/
theorem insert_duplicate_set_cex :
    WellFormed exSet64Parity exSet64Chains ∧ exSet64Parity.bag = false ∧
    (∃ e ∈ exSet64Chains.flatten,
      _DTCMP exSet64Parity (_DTKEY exSet64Parity 70)
        (_DTKEY exSet64Parity (_DTOBJ exSet64Parity e)) = 0) ∧
    (dthashchain 6 4 5 exSet64Parity 70 DT_INSERT).map
      (fun r => (r.2, r.1.size, r.1.htbl.getD 7 0)) = some (70, 4, 4) := by
  decide

/-- C6. On every well-formed table whose links have pairwise distinct keys (two links
have keys that compare equal only when they are the same link), in set mode as in
bag mode: `DT_DELETE` with an object whose key is the key of link `e` returns the
object of `e` and takes `e` out of the chain of its slot, the count goes down by one,
every other link stays in its chain in the order it had, and a `DT_MATCH` for that
key or a `DT_SEARCH` for the object right after returns `NULL`. -/
theorem delete_by_key (H mk fuel : Nat) (dt : Dt) (Ls : List (List Nat)) (obj e : Nat)
    (hw : WellFormed dt Ls) (hfuel : Ls.flatten.length < fuel)
    (hdist : ∀ a ∈ Ls.flatten, ∀ b ∈ Ls.flatten,
      (_DTCMP dt (_DTKEY dt (_DTOBJ dt a)) (_DTKEY dt (_DTOBJ dt b)) = 0 ↔ a = b))
    (he : e ∈ Ls.flatten) (hkey : _DTKEY dt obj = _DTKEY dt (_DTOBJ dt e)) :
    ∃ dt1 L1 L2,
      Ls.getD ((dt.heap e).hash &&& (dt.tblz - 1)) [] = L1 ++ e :: L2 ∧
      dthashchain H mk (fuel + 1) dt obj DT_DELETE = some (dt1, _DTOBJ dt e) ∧
      dt1.size = dt.size - 1 ∧
      WellFormed dt1 (Ls.set ((dt.heap e).hash &&& (dt.tblz - 1)) (L1 ++ L2)) ∧
      (∀ y, (dt1.heap y).obj = (dt.heap y).obj) ∧
      (∃ dt2, dthashchain H mk (fuel + 1) dt1 (_DTKEY dt obj) DT_MATCH = some (dt2, 0)) ∧
      (∃ dt2, dthashchain H mk (fuel + 1) dt1 obj DT_SEARCH = some (dt2, 0)) := by
  have hne : dt.htbl ≠ [] := htbl_ne_nil hw.1 he
  have hh : (dt.heap e).hash = _DTHSH dt (_DTKEY dt obj) := by
    rw [hw.2.2.2.1 e he, hkey]
  have hin := mem_bucket dt Ls hw e _ he hh
  have hee : _DTCMP dt (_DTKEY dt obj) (_DTKEY dt (_DTOBJ dt e)) = 0 := by
    rw [hkey]; exact (hdist e he e he).mpr rfl
  rw [dthashchain_ready H mk fuel dt obj DT_DELETE (by decide) hne hw.2.2.2.2,
    body_slow _ _ _ _ _ _ DT_DELETE rfl rfl rfl rfl]
  rcases slow_cases H (fuel + 1) mk { dt with here := 0 } obj DT_DELETE 0 Ls hw.1 (by omega)
    rfl rfl rfl rfl (_DTKEY dt obj) obj rfl rfl with
    ⟨L1, x, L2, e1, _, e3, e4, e5⟩ | ⟨e1, _⟩
  · have hx := (stop_plain _ _ _ _ _ _ rfl rfl rfl rfl).mp e3
    have hxl : x ∈ L1 ++ x :: L2 := by simp
    rw [← e1] at hxl
    have hxF : x ∈ Ls.flatten := mem_flatten_of_getD hxl
    have hxe : e = x := by
      refine (hdist e he x hxF).mp ?_
      rw [← hkey]; exact hx.2
    subst hxe
    have hslot : _DTHSH dt (_DTKEY dt obj) &&& (dt.tblz - 1) =
        (dt.heap e).hash &&& (dt.tblz - 1) := by rw [hh]
    have e1b : Ls.getD ((dt.heap e).hash &&& (dt.tblz - 1)) [] = L1 ++ e :: L2 := by
      rw [← hslot]; exact e1
    have hwd := wellFormed_unlink { dt with here := 0 } Ls
      ((dt.heap e).hash &&& (dt.tblz - 1)) L1 e L2 hw e1b (dt.size - 1)
    obtain ⟨f1, f2, f3, f4, f5⟩ := dtfree_unlink_fields
      { dt with here := 0, size := dt.size - 1 } ((dt.heap e).hash &&& (dt.tblz - 1))
      (L1.getLastD 0) e
    have hres : dthash_slow H (fuel + 1) mk { dt with here := 0 } obj DT_DELETE 0 =
        some (_dtfree (unlink { dt with here := 0, size := dt.size - 1 }
          ((dt.heap e).hash &&& (dt.tblz - 1)) (L1.getLastD 0) e) e, _DTOBJ dt e) := by
      refine e5.trans ?_
      simp only [dthash_resolve, ne_eq, e4, not_false_eq_true, if_true, DT_DELETE,
        Bool.or_self, Bool.false_eq_true, if_false, Bool.or_false, Bool.true_or]
      rw [← hslot]
      rfl
    have hne1 : (_dtfree (unlink { dt with here := 0, size := dt.size - 1 }
        ((dt.heap e).hash &&& (dt.tblz - 1)) (L1.getLastD 0) e) e).htbl ≠ [] := by
      intro h
      have h0 : Dt.tblz (_dtfree (unlink { dt with here := 0, size := dt.size - 1 }
        ((dt.heap e).hash &&& (dt.tblz - 1)) (L1.getLastD 0) e) e) = 0 :=
        congrArg List.length h
      rw [f4] at h0
      exact hne (List.length_eq_zero.mp h0)
    -- no link of the table has a key that compares equal any more
    have hperm := unlink_perm Ls ((dt.heap e).hash &&& (dt.tblz - 1)) L1 e L2 e1b
    have hnone : ∀ (k0 : Nat), ∀ y,
        y ∈ (Ls.set ((dt.heap e).hash &&& (dt.tblz - 1)) (L1 ++ L2)).getD k0 [] →
        ¬ (_DTCMP dt (_DTKEY dt obj) (_DTKEY dt (_DTOBJ dt y)) = 0) := by
      intro k0 y hy hc
      have hyS := mem_flatten_of_getD hy
      have hyF : y ∈ Ls.flatten := by
        rw [hperm.mem_iff]; exact List.mem_cons_of_mem _ hyS
      have hey : e = y := (hdist e he y hyF).mp (by rw [← hkey]; exact hc)
      subst hey
      have := hperm.nodup_iff.mp hw.2.1
      exact (List.nodup_cons.mp this).1 hyS
    have hlen : (Ls.set ((dt.heap e).hash &&& (dt.tblz - 1)) (L1 ++ L2)).flatten.length <
        fuel + 1 := by
      have := hperm.length_eq
      simp only [List.length_cons] at this
      omega
    refine ⟨_, L1, L2, e1b, hres, f1, hwd, fun y => (f5 y).2, ?_, ?_⟩
    · rw [dthashchain_ready H mk fuel _ _ DT_MATCH (by decide) hne1 hwd.2.2.2.2]
      rcases body_find (dthashchain H mk fuel) H (fuel + 1) mk _ _ DT_MATCH (_DTKEY dt obj)
        (_DTKEY dt obj) hwd hlen (Or.inl ⟨rfl, rfl⟩) with ⟨M1, l, M2, g1, _, g3, _⟩ | ⟨_, g2⟩
      · exfalso
        have hl : l ∈ M1 ++ l :: M2 := by simp
        rw [← g1] at hl
        refine hnone _ l hl ?_
        have := g3.2
        simp only [_DTCMP, _DTKEY, _DTOBJ, f2, (f5 l).2] at this ⊢
        exact this
      · exact ⟨_, g2⟩
    · rw [dthashchain_ready H mk fuel _ _ DT_SEARCH (by decide) hne1 hwd.2.2.2.2]
      rcases body_find (dthashchain H mk fuel) H (fuel + 1) mk _ _ DT_SEARCH obj
        (_DTKEY dt obj) hwd hlen (Or.inr ⟨rfl, by simp only [_DTKEY, f2], f3⟩) with
        ⟨M1, l, M2, g1, _, g3, _⟩ | ⟨_, g2⟩
      · exfalso
        have hl : l ∈ M1 ++ l :: M2 := by simp
        rw [← g1] at hl
        refine hnone _ l hl ?_
        have := g3.2
        simp only [_DTCMP, _DTKEY, _DTOBJ, f2, (f5 l).2] at this ⊢
        exact this
      · exact ⟨_, g2⟩
  · exact absurd ((stop_plain _ _ _ _ _ _ rfl rfl rfl rfl).mpr ⟨hh, hee⟩) (e1 e hin)

/-- C6, witness: `DT_DELETE` of the object `10` on the table `exSet64`. -/
theorem delete_by_key_witness :
    ∃ dt1 L1 L2,
      exSet64Chains.getD ((exSet64.heap 1).hash &&& (exSet64.tblz - 1)) [] = L1 ++ 1 :: L2 ∧
      dthashchain 6 0 (4 + 1) exSet64 10 DT_DELETE = some (dt1, _DTOBJ exSet64 1) ∧
      dt1.size = exSet64.size - 1 ∧
      WellFormed dt1
        (exSet64Chains.set ((exSet64.heap 1).hash &&& (exSet64.tblz - 1)) (L1 ++ L2)) ∧
      (∀ y, (dt1.heap y).obj = (exSet64.heap y).obj) ∧
      (∃ dt2, dthashchain 6 0 (4 + 1) dt1 (_DTKEY exSet64 10) DT_MATCH = some (dt2, 0)) ∧
      (∃ dt2, dthashchain 6 0 (4 + 1) dt1 10 DT_SEARCH = some (dt2, 0)) :=
  delete_by_key 6 0 4 exSet64 exSet64Chains 10 1 (by decide) (by decide) (by decide)
    (by decide) (by decide)

/-- C7. On every well-formed table, in bag mode as in set mode, where `S` is a set of
links whose keys all compare equal: `DT_REMOVE` with the object of a link of `S`
takes out of its chain a link `x` that holds this very object (the links before it
that only have an equal key are passed over), returns the object, and the count goes
down by one; every other link of `S` is still in the table, and a `DT_SEARCH` with
its object returns the object of a link of the table with an equal key.  `DT_REMOVE`
with an object that no link of the table holds returns `NULL` and changes neither
the count nor the slot array nor the heap, whatever the keys in the table. -/
theorem remove_by_object (H mk fuel : Nat) (dt : Dt) (Ls : List (List Nat)) (S : List Nat)
    (hw : WellFormed dt Ls) (hfuel : Ls.flatten.length < fuel)
    (hS : ∀ a ∈ S, a ∈ Ls.flatten)
    (heq : ∀ a ∈ S, ∀ b ∈ S,
      _DTCMP dt (_DTKEY dt (_DTOBJ dt a)) (_DTKEY dt (_DTOBJ dt b)) = 0) :
    (∀ e ∈ S, ∃ dt1 x L1 L2,
      _DTOBJ dt x = _DTOBJ dt e ∧
      Ls.getD ((dt.heap e).hash &&& (dt.tblz - 1)) [] = L1 ++ x :: L2 ∧
      (∀ y ∈ L1, _DTOBJ dt y ≠ _DTOBJ dt e) ∧
      dthashchain H mk (fuel + 1) dt (_DTOBJ dt e) DT_REMOVE = some (dt1, _DTOBJ dt e) ∧
      dt1.size = dt.size - 1 ∧
      WellFormed dt1 (Ls.set ((dt.heap e).hash &&& (dt.tblz - 1)) (L1 ++ L2)) ∧
      (∀ y, (dt1.heap y).obj = (dt.heap y).obj) ∧
      (∀ a ∈ S, a ≠ x →
        a ∈ (Ls.set ((dt.heap e).hash &&& (dt.tblz - 1)) (L1 ++ L2)).flatten ∧
        ∃ dt2 l, l ∈ (Ls.set ((dt.heap e).hash &&& (dt.tblz - 1)) (L1 ++ L2)).flatten ∧
          _DTCMP dt (_DTKEY dt (_DTOBJ dt a)) (_DTKEY dt (_DTOBJ dt l)) = 0 ∧
          dthashchain H mk (fuel + 1) dt1 (_DTOBJ dt a) DT_SEARCH =
            some (dt2, _DTOBJ dt l))) ∧
    (∀ obj, (∀ a ∈ Ls.flatten, _DTOBJ dt a ≠ obj) → dt.htbl ≠ [] →
      dthashchain H mk (fuel + 1) dt obj DT_REMOVE = some ({ dt with here := 0 }, 0)) := by
  constructor
  · intro e heS
    have he := hS e heS
    have hne : dt.htbl ≠ [] := htbl_ne_nil hw.1 he
    have hh : (dt.heap e).hash = _DTHSH dt (_DTKEY dt (_DTOBJ dt e)) := hw.2.2.2.1 e he
    have hin := mem_bucket dt Ls hw e _ he hh
    rw [dthashchain_ready H mk fuel dt _ DT_REMOVE (by decide) hne hw.2.2.2.2,
      body_slow _ _ _ _ _ _ DT_REMOVE rfl rfl rfl rfl]
    rcases slow_cases H (fuel + 1) mk { dt with here := 0 } (_DTOBJ dt e) DT_REMOVE 0 Ls hw.1
      (by omega) rfl rfl rfl rfl (_DTKEY dt (_DTOBJ dt e)) (_DTOBJ dt e) rfl rfl with
      ⟨L1, x, L2, e1, e2, e3, e4, e5⟩ | ⟨e1, _⟩
    · have hx := (stop_remove _ _ _ _ _).mp e3
      have hslot : _DTHSH dt (_DTKEY dt (_DTOBJ dt e)) &&& (dt.tblz - 1) =
          (dt.heap e).hash &&& (dt.tblz - 1) := by rw [hh]
      have e1b : Ls.getD ((dt.heap e).hash &&& (dt.tblz - 1)) [] = L1 ++ x :: L2 := by
        rw [← hslot]; exact e1
      have hwd := wellFormed_unlink { dt with here := 0 } Ls
        ((dt.heap e).hash &&& (dt.tblz - 1)) L1 x L2 hw e1b (dt.size - 1)
      obtain ⟨f1, f2, f3, f4, f5⟩ := dtfree_unlink_fields
        { dt with here := 0, size := dt.size - 1 } ((dt.heap e).hash &&& (dt.tblz - 1))
        (L1.getLastD 0) x
      have hres : dthash_slow H (fuel + 1) mk { dt with here := 0 } (_DTOBJ dt e) DT_REMOVE 0 =
          some (_dtfree (unlink { dt with here := 0, size := dt.size - 1 }
            ((dt.heap e).hash &&& (dt.tblz - 1)) (L1.getLastD 0) x) x, _DTOBJ dt e) := by
        refine e5.trans ?_
        simp only [dthash_resolve, ne_eq, e4, not_false_eq_true, if_true, DT_REMOVE,
          Bool.or_self, Bool.false_eq_true, if_false, Bool.or_false, Bool.or_true]
        rw [← hslot]
        have : _DTOBJ dt x = _DTOBJ dt e := hx.2.2
        rw [← this]
        rfl
      have hne1 : (_dtfree (unlink { dt with here := 0, size := dt.size - 1 }
          ((dt.heap e).hash &&& (dt.tblz - 1)) (L1.getLastD 0) x) x).htbl ≠ [] := by
        intro h
        have h0 : Dt.tblz (_dtfree (unlink { dt with here := 0, size := dt.size - 1 }
          ((dt.heap e).hash &&& (dt.tblz - 1)) (L1.getLastD 0) x) x) = 0 :=
          congrArg List.length h
        rw [f4] at h0
        exact hne (List.length_eq_zero.mp h0)
      have hperm := unlink_perm Ls ((dt.heap e).hash &&& (dt.tblz - 1)) L1 x L2 e1b
      have hlen : (Ls.set ((dt.heap e).hash &&& (dt.tblz - 1)) (L1 ++ L2)).flatten.length <
          fuel + 1 := by
        have := hperm.length_eq
        simp only [List.length_cons] at this
        omega
      refine ⟨_, x, L1, L2, hx.2.2, e1b, ?_, hres, f1, hwd, fun y => (f5 y).2, ?_⟩
      · intro y hy hyo
        have hyb : y ∈ Ls.getD ((dt.heap e).hash &&& (dt.tblz - 1)) [] := by
          rw [e1b]; exact List.mem_append_left _ hy
        have hyh := hw.2.2.2.1 y (mem_flatten_of_getD hyb)
        refine e2 y hy ((stop_remove _ _ _ _ _).mpr ⟨?_, ?_, hyo⟩)
        · rw [← hyo]; exact hyh
        · have := heq e heS e heS
          rw [← hyo] at this ⊢
          exact this
      · intro a haS hax
        have haF := hS a haS
        have haS2 : a ∈ (Ls.set ((dt.heap e).hash &&& (dt.tblz - 1)) (L1 ++ L2)).flatten := by
          have hm : a ∈ x :: (Ls.set ((dt.heap e).hash &&& (dt.tblz - 1)) (L1 ++ L2)).flatten :=
            (List.Perm.mem_iff hperm).mp haF
          rcases List.mem_cons.mp hm with h | h
          · exact absurd h hax
          · exact h
        refine ⟨haS2, ?_⟩
        rw [dthashchain_ready H mk fuel _ _ DT_SEARCH (by decide) hne1 hwd.2.2.2.2]
        rcases body_find (dthashchain H mk fuel) H (fuel + 1) mk _ _ DT_SEARCH (_DTOBJ dt a)
          (_DTKEY dt (_DTOBJ dt a)) hwd hlen
          (Or.inr ⟨rfl, by simp only [_DTKEY, f2], f3⟩) with
          ⟨M1, l, M2, g1, _, g3, g4⟩ | ⟨g1, _⟩
        · have hl : l ∈ M1 ++ l :: M2 := by simp
          rw [← g1] at hl
          have hcl : _DTCMP dt (_DTKEY dt (_DTOBJ dt a)) (_DTKEY dt (_DTOBJ dt l)) = 0 := by
            have := g3.2
            simp only [_DTCMP, _DTKEY, _DTOBJ, f2, (f5 l).2] at this ⊢
            exact this
          exact ⟨_, l, mem_flatten_of_getD hl, hcl,
            g4.trans (congrArg (fun o => some (_, o)) (f5 l).2)⟩
        · exfalso
          have hha := hwd.2.2.2.1 a haS2
          have hab := mem_bucket _ _ hwd a _ haS2 hha
          have hkk : _DTKEY (_dtfree (unlink { dt with here := 0, size := dt.size - 1 }
              ((dt.heap e).hash &&& (dt.tblz - 1)) (L1.getLastD 0) x) x)
              (_DTOBJ (_dtfree (unlink { dt with here := 0, size := dt.size - 1 }
              ((dt.heap e).hash &&& (dt.tblz - 1)) (L1.getLastD 0) x) x) a) =
              _DTKEY dt (_DTOBJ dt a) := by
            simp only [_DTKEY, _DTOBJ, f2, (f5 a).2]
          rw [hkk] at hha hab
          refine g1 a hab ⟨hha, ?_⟩
          have := heq a haS a haS
          simp only [_DTCMP, _DTKEY, _DTOBJ, f2, (f5 a).2] at this ⊢
          exact this
    · exfalso
      refine e1 e hin ((stop_remove _ _ _ _ _).mpr ⟨hh, heq e heS e heS, rfl⟩)
  · intro obj hno hne
    rw [dthashchain_ready H mk fuel dt _ DT_REMOVE (by decide) hne hw.2.2.2.2,
      body_slow _ _ _ _ _ _ DT_REMOVE rfl rfl rfl rfl]
    rcases slow_cases H (fuel + 1) mk { dt with here := 0 } obj DT_REMOVE 0 Ls hw.1
      (by omega) rfl rfl rfl rfl (_DTKEY dt obj) obj rfl rfl with
      ⟨L1, x, L2, e1, _, e3, _, _⟩ | ⟨_, e2⟩
    · exfalso
      have hx := (stop_remove _ _ _ _ _).mp e3
      have hl : x ∈ L1 ++ x :: L2 := by simp
      rw [← e1] at hl
      exact hno x (mem_flatten_of_getD hl) hx.2.2
    · rw [e2]
      simp [dthash_resolve, DT_REMOVE]

/-- C7, witness: the table `exBag` and its two links of key `1`. -/
theorem remove_by_object_witness :
    (∀ e ∈ [4, 1], ∃ dt1 x L1 L2,
      _DTOBJ exBag x = _DTOBJ exBag e ∧
      exBagChains.getD ((exBag.heap e).hash &&& (exBag.tblz - 1)) [] = L1 ++ x :: L2 ∧
      (∀ y ∈ L1, _DTOBJ exBag y ≠ _DTOBJ exBag e) ∧
      dthashchain 1 0 (6 + 1) exBag (_DTOBJ exBag e) DT_REMOVE =
        some (dt1, _DTOBJ exBag e) ∧
      dt1.size = exBag.size - 1 ∧
      WellFormed dt1 (exBagChains.set ((exBag.heap e).hash &&& (exBag.tblz - 1)) (L1 ++ L2)) ∧
      (∀ y, (dt1.heap y).obj = (exBag.heap y).obj) ∧
      (∀ a ∈ [4, 1], a ≠ x →
        a ∈ (exBagChains.set ((exBag.heap e).hash &&& (exBag.tblz - 1)) (L1 ++ L2)).flatten ∧
        ∃ dt2 l,
          l ∈ (exBagChains.set ((exBag.heap e).hash &&& (exBag.tblz - 1)) (L1 ++ L2)).flatten ∧
          _DTCMP exBag (_DTKEY exBag (_DTOBJ exBag a)) (_DTKEY exBag (_DTOBJ exBag l)) = 0 ∧
          dthashchain 1 0 (6 + 1) dt1 (_DTOBJ exBag a) DT_SEARCH =
            some (dt2, _DTOBJ exBag l))) ∧
    (∀ obj, (∀ a ∈ exBagChains.flatten, _DTOBJ exBag a ≠ obj) → exBag.htbl ≠ [] →
      dthashchain 1 0 (6 + 1) exBag obj DT_REMOVE = some ({ exBag with here := 0 }, 0)) :=
  remove_by_object 1 0 6 exBag exBagChains [4, 1] (by decide) (by decide) (by decide)
    (by decide)

/-- C4. In bag mode, on every well-formed table and for every object: when the
allocations of the call succeed (`_dtmake` comes up with a fresh link `mk`, and the
slot array can be made if the table has none yet), `DT_INSERT` returns the object,
the count is one more than before, and the table is well formed again: its links are
`mk`, which holds the object, and all the links it had, with the objects and hashes
they had, whether or not some of them have an equal key. -/
theorem insert_bag (H mk fuel : Nat) (dt : Dt) (Ls : List (List Nat)) (obj : Nat)
    (hw : WellFormed dt Ls) (hfuel : Ls.flatten.length < fuel) (hbag : dt.bag = true)
    (hmk0 : mk ≠ 0) (hmk : mk ∉ Ls.flatten)
    (halloc : dt.htbl = [] → dt.memoryf dt.nalloc ≠ 0) :
    ∃ dt2 Ls2,
      dthashchain H mk (fuel + 1) dt obj DT_INSERT = some (dt2, obj) ∧
      dt2.size = dt.size + 1 ∧ WellFormed dt2 Ls2 ∧ Ls2.flatten.Perm (mk :: Ls.flatten) ∧
      (dt2.heap mk).obj = obj ∧
      (∀ a ∈ Ls.flatten,
        (dt2.heap a).obj = (dt.heap a).obj ∧ (dt2.heap a).hash = (dt.heap a).hash) := by
  -- the insertion into a table that has its slot array
  have hready : ∀ (d : Dt) (Ms : List (List Nat)), WellFormed d Ms → Ms.flatten.length < fuel →
      d.htbl ≠ [] → d.bag = true → mk ∉ Ms.flatten →
      ∃ dt2 Ls2,
        dthashchain_body (dthashchain H mk fuel) H (fuel + 1) mk d obj DT_INSERT =
          some (dt2, obj) ∧
        dt2.size = d.size + 1 ∧ WellFormed dt2 Ls2 ∧ Ls2.flatten.Perm (mk :: Ms.flatten) ∧
        (dt2.heap mk).obj = obj ∧
        (∀ a ∈ Ms.flatten,
          (dt2.heap a).obj = (d.heap a).obj ∧ (dt2.heap a).hash = (d.heap a).hash) := by
    intro d Ms hwd hf hne hb hm
    rw [body_insert _ H (fuel + 1) mk d Ms obj DT_INSERT hwd.1 (by omega) (Or.inl rfl)
      (Or.inl hb)]
    obtain ⟨dt2, Ls1, g1, g2, g3, g4, _, g6, _, g8, _, _, _, _, g13, _⟩ :=
      do_insert_new H (fuel + 1) mk { d with here := 0 } Ms obj (_DTHSH d (_DTKEY d obj))
        hwd (by omega) hne hmk0 hm rfl
    have hk : _DTHSH d (_DTKEY d obj) &&& (dt2.tblz - 1) < Ls1.length := by
      have h1 := table_length_eq g2.1
      simp only [pushAt, List.length_set] at h1
      have h2 := @Nat.and_le_right (_DTHSH d (_DTKEY d obj)) (dt2.tblz - 1)
      have h3 : 0 < dt2.tblz := by
        have : 0 < d.tblz := List.length_pos.mpr hne
        have h4 : d.tblz ≤ dt2.tblz := g13
        omega
      have h5 : dt2.tblz = Ls1.length := h1
      omega
    refine ⟨dt2, _, g1, g4, g2, ?_, g6, ?_⟩
    · exact (pushAt_perm Ls1 _ mk hk).trans (List.Perm.cons mk g3)
    · intro a ha
      have : a ≠ mk := fun h => hm (h ▸ ha)
      exact ⟨(g8 a this).2, (g8 a this).1⟩
  rcases dthashchain_setup H mk fuel dt obj DT_INSERT Ls hw (by decide) with
    ⟨hne, hd⟩ | ⟨hnil, hLs, ⟨fx, nal, hz, _⟩ | ⟨fx, n, hn0, _, _, hd⟩⟩
  · rw [hd]
    exact hready dt Ls hw hfuel hne hbag hmk
  · exact absurd hz (halloc hnil)
  · rw [hd]
    have hwn := wellFormed_new dt fx (dt.nalloc + 1) n hw.2.2.2.2
    obtain ⟨dt2, Ls2, g1, g2, g3, g4, g5, _⟩ := hready _ _ hwn
      (by rw [flatten_replicate_nil]; simp; omega)
      (by
        intro h
        have : (List.replicate n 0).length = 0 := congrArg List.length h
        simp at this
        omega)
      hbag (by rw [flatten_replicate_nil]; simp)
    refine ⟨dt2, Ls2, g1, g2, g3, ?_, g5, ?_⟩
    · rw [flatten_replicate_nil] at g4
      rw [hLs]; exact g4
    · intro a ha
      rw [hLs] at ha
      simp at ha

/-- C4, witness: the object `12`, whose key `1` two links of `exBag` already have,
inserted with the fresh link `6`. -/
theorem insert_bag_witness :
    ∃ dt2 Ls2,
      dthashchain 1 6 (6 + 1) exBag 12 DT_INSERT = some (dt2, 12) ∧
      dt2.size = exBag.size + 1 ∧ WellFormed dt2 Ls2 ∧
      Ls2.flatten.Perm (6 :: exBagChains.flatten) ∧
      (dt2.heap 6).obj = 12 ∧
      (∀ a ∈ exBagChains.flatten,
        (dt2.heap a).obj = (exBag.heap a).obj ∧ (dt2.heap a).hash = (exBag.heap a).hash) :=
  insert_bag 1 6 6 exBag exBagChains 12 (by decide) (by decide) rfl (by decide) (by decide)
    (by decide)


/-- C8 (as amended). For every insert-path dispatch (`DT_INSERT`, `DT_APPEND`,
`DT_ATTACH`, `DT_INSTALL`) on a well-formed table with no walk going on, no fixed
size and no event hook, whose request for slots succeeds, and that comes to insert
(bag mode, or no link of the table has a key that compares equal): the call returns,
and at its return the slot array has at least as many slots as the count was before
the call, the count being at most one more than before.  So the count is at most the
number of slots plus one; when `_dtmake` gives a link the object is returned and the
count is exactly one more. -/
theorem insert_load (H mk fuel : Nat) (dt : Dt) (Ls : List (List Nat)) (obj : Nat)
    (type : Ops) (hw : WellFormed dt Ls) (hfuel : Ls.flatten.length < fuel)
    (hty : type = DT_INSERT ∨ type = DT_APPEND ∨ type = DT_ATTACH ∨ type = DT_INSTALL)
    (hwalk : dt.walk = 0) (hfix : dt.fixed = false) (hev : dt.disc.eventf = none)
    (halloc : dt.memoryf dt.nalloc ≠ 0) (hmk : mk ≠ 0 → mk ∉ Ls.flatten)
    (hcase : dt.bag = true ∨
      ∀ y ∈ Ls.flatten, _DTCMP dt (_DTKEY dt obj) (_DTKEY dt (_DTOBJ dt y)) ≠ 0) :
    ∃ dt2 r,
      dthashchain H mk (fuel + 1) dt obj type = some (dt2, r) ∧
      dt.size ≤ (dt2.tblz : Int) ∧ dt2.size ≤ dt.size + 1 ∧
      dt2.size ≤ (dt2.tblz : Int) + 1 ∧
      (mk ≠ 0 → r = obj ∧ dt2.size = dt.size + 1) := by
  have hnone : type ≠ DT_NONE := by
    rcases hty with h | h | h | h <;> subst h <;> decide
  -- the insertion into a table that has its slot array
  have hready : ∀ (d : Dt) (Ms : List (List Nat)), WellFormed d Ms → Ms.flatten.length < fuel →
      d.htbl ≠ [] → (mk ≠ 0 → mk ∉ Ms.flatten) →
      (d.bag = true ∨
        ∀ y ∈ Ms.flatten, _DTCMP d (_DTKEY d obj) (_DTKEY d (_DTOBJ d y)) ≠ 0) →
      ∃ dt2 r,
        dthashchain_body (dthashchain H mk fuel) H (fuel + 1) mk d obj type = some (dt2, r) ∧
        d.tblz ≤ dt2.tblz ∧
        (d.walk = 0 → d.fixed = false → d.disc.eventf = none → d.memoryf d.nalloc ≠ 0 →
          d.size ≤ (dt2.tblz : Int)) ∧
        dt2.size ≤ d.size + 1 ∧ (mk ≠ 0 → r = obj ∧ dt2.size = d.size + 1) := by
    intro d Ms hwd hf hne hm hc
    rw [body_insert _ H (fuel + 1) mk d Ms obj type hwd.1 (by omega) hty
      (hc.imp id (fun h y hy hh => h y (mem_flatten_of_getD hy) hh.2))]
    by_cases hmk0 : mk = 0
    · subst hmk0
      obtain ⟨dt1, _, g1, _, _, g4, g5, g6, _⟩ :=
        do_insert_fail H (fuel + 1) { d with here := 0 } Ms obj (_DTHSH d (_DTKEY d obj))
          hwd (by omega)
      refine ⟨dt1, 0, g1, g5, g6, ?_, fun h => absurd rfl h⟩
      have : dt1.size = d.size := g4.2.2.2.1
      omega
    · obtain ⟨dt2, _, g1, _, _, g4, _, _, _, _, _, _, _, _, g13, g14, _⟩ :=
        do_insert_new H (fuel + 1) mk { d with here := 0 } Ms obj (_DTHSH d (_DTKEY d obj))
          hwd (by omega) hne hmk0 (hm hmk0) rfl
      have g4 : dt2.size = d.size + 1 := g4
      exact ⟨dt2, obj, g1, g13, g14, by omega, fun _ => ⟨rfl, g4⟩⟩
  rcases dthashchain_setup H mk fuel dt obj type Ls hw hnone with
    ⟨hne, hd⟩ | ⟨hnil, hLs, ⟨fx, nal, hz, _⟩ | ⟨fx, n, hn0, hsz, _, hd⟩⟩
  · rw [hd]
    obtain ⟨dt2, r, g1, _, g3, g4, g5⟩ := hready dt Ls hw hfuel hne hmk hcase
    have := g3 hwalk hfix hev halloc
    exact ⟨dt2, r, g1, this, g4, by omega, g5⟩
  · exact absurd hz halloc
  · rw [hd]
    have hwn := wellFormed_new dt fx (dt.nalloc + 1) n hw.2.2.2.2
    obtain ⟨dt2, r, g1, g2, _, g4, g5⟩ := hready _ _ hwn
      (by rw [flatten_replicate_nil]; simp; omega)
      (by
        intro h
        have : (List.replicate n 0).length = 0 := congrArg List.length h
        simp at this
        omega)
      (by intro _; rw [flatten_replicate_nil]; simp)
      (Or.inr (by intro y hy; rw [flatten_replicate_nil] at hy; simp at hy))
    have g2 : n ≤ dt2.tblz := by
      have : (List.replicate n (0 : Nat)).length ≤ dt2.tblz := g2
      simpa using this
    have g4 : dt2.size ≤ dt.size + 1 := g4
    have g5 : mk ≠ 0 → r = obj ∧ dt2.size = dt.size + 1 := g5
    have : dt.size ≤ (dt2.tblz : Int) := by omega
    exact ⟨dt2, r, g1, this, g4, by omega, g5⟩

/-- C8, witness: `DT_INSERT` of the object `660`, of the new key `66`, on the table
`exLoad 65`, whose count `65` exceeds its `64` slots. -/
theorem insert_load_witness :
    ((exLoad 65).tblz : Int) < (exLoad 65).size ∧
    ∃ dt2 r,
      dthashchain 6 66 (66 + 1) (exLoad 65) 660 DT_INSERT = some (dt2, r) ∧
      (exLoad 65).size ≤ (dt2.tblz : Int) ∧ dt2.size ≤ (exLoad 65).size + 1 ∧
      dt2.size ≤ (dt2.tblz : Int) + 1 ∧
      ((66 : Nat) ≠ 0 → r = 660 ∧ dt2.size = (exLoad 65).size + 1) :=
  ⟨by decide, insert_load 6 66 66 (exLoad 65) (exLoadChains 65) 660 DT_INSERT (by decide)
    (by decide) (Or.inl rfl) rfl rfl rfl (by decide) (by decide) (Or.inr (by decide))⟩

/-- C2. On every well-formed table whose links hold objects (none holds `NULL`): a
walk started by `DT_START` with no start object and carried on by `DT_STEP` on the
cursor returned, with no other operation in between, until a step returns `NULL`,
comes to an end and returns the objects of the links of the table, each link once,
in the order of the slots and, within a slot, in the order of its chain; this when the
request for the cursor succeeds.  On a table without link `DT_START` returns `NULL`. -/
theorem walk_complete (H mk fuel n : Nat) (dt : Dt) (Ls : List (List Nat))
    (hw : WellFormed dt Ls) (hobj : ∀ a ∈ Ls.flatten, _DTOBJ dt a ≠ 0)
    (hn : Ls.flatten.length < n) :
    (Ls.flatten = [] → ∃ dt1, dthashchain H mk (fuel + 1) dt 0 DT_START = some (dt1, 0)) ∧
    (dt.memoryf dt.nalloc ≠ 0 →
      ∃ dt1, dtwalk H mk (fuel + 1) n dt = some (dt1, Ls.flatten.map (_DTOBJ dt))) := by
  refine ⟨start_empty H mk fuel dt Ls hw, fun halloc => ?_⟩
  cases hL : Ls.flatten with
  | nil =>
    obtain ⟨dt1, h1⟩ := start_empty H mk fuel dt Ls hw hL
    exact ⟨dt1, by simp only [dtwalk, h1, if_true, List.map_nil]⟩
  | cons l B =>
    have hl : l ∈ Ls.flatten := by rw [hL]; simp
    have hl0 : l ≠ 0 := fun h => table_zero_not_mem hw.1 (h ▸ hl)
    have hne : dt.htbl ≠ [] := htbl_ne_nil hw.1 hl
    have hf : firstSlot dt.htbl = l := by rw [firstSlot_table hw.1, hL]; rfl
    have ho := hobj l hl
    have e1 : DT_START.early = true := rfl
    have e2 : DT_START.start = true := rfl
    have hstart : dthashchain H mk (fuel + 1) dt 0 DT_START =
        some ({ dt with
                  nalloc := dt.nalloc + 1
                  here := l
                  walk := (dt.walk + 1) % 2 ^ 32
                  fngr := setFngr dt.fngr (dt.memoryf dt.nalloc) l }, dt.memoryf dt.nalloc) := by
      rw [dthashchain_ready H mk fuel dt 0 DT_START (by decide) hne hw.2.2.2.2]
      simp only [_DTOBJ] at ho
      simp only [dthashchain_body, e1, e2, if_true, halloc, if_false, dthash_hfirst, hf, ne_eq,
        hl0, not_false_eq_true, _DTOBJ, ho]
    obtain ⟨d1, k⟩ := walkSteps_spec H mk fuel dt Ls hw hobj (dt.memoryf dt.nalloc) halloc
      B l []
      { dt with
          nalloc := dt.nalloc + 1
          here := l
          walk := (dt.walk + 1) % 2 ^ 32
          fngr := setFngr dt.fngr (dt.memoryf dt.nalloc) l }
      n (by simpa using hL) rfl rfl hw.2.2.2.2 rfl (by simp [setFngr])
      (by rw [hL] at hn; simpa using hn)
    exact ⟨d1, by simp only [dtwalk, hstart, halloc, if_false, k]⟩

/-- C2, witness: the walk over the table `exBag` returns its five objects, slot after
slot. -/
theorem walk_complete_witness :
    ((exBagChains.flatten = [] →
        ∃ dt1, dthashchain 1 0 (5 + 1) exBag 0 DT_START = some (dt1, 0)) ∧
      (exBag.memoryf exBag.nalloc ≠ 0 →
        ∃ dt1, dtwalk 1 0 (5 + 1) 6 exBag =
          some (dt1, exBagChains.flatten.map (_DTOBJ exBag)))) ∧
    exBagChains.flatten.map (_DTOBJ exBag) = [41, 11, 10, 20, 30] :=
  ⟨walk_complete 1 0 5 6 exBag exBagChains (by decide) (by decide) (by decide), by decide⟩

set_option maxRecDepth 100000

/-- C8, counterexample, with `DT_HTABLE = 6` and no walk going on.  The table
`exLoad 128` has 64 slots and a count of 128, as inserts made during a walk that has
since been stopped leave it: `DT_INSERT` of the new object `1290` makes the slot array
grow to the 128 slots that hold the count before the insertion, and returns with a
count of 129.  The table `exLoad 65` is in set mode and has 64 slots and a count of
65, as 65 insertions leave it: `DT_INSERT` of the object `15`, whose key `1` is that of
the object `10`, returns `10` with 65 objects still in 64 slots. -/
theorem insert_load_cex :
    (WellFormed (exLoad 128) (exLoadChains 128) ∧ (exLoad 128).walk = 0 ∧
      ((exLoad 128).tblz : Int) < (exLoad 128).size ∧
      (dthashchain 6 129 200 (exLoad 128) 1290 DT_INSERT).map
        (fun r => (r.2, r.1.size, r.1.tblz)) = some (1290, 129, 128)) ∧
    (WellFormed (exLoad 65) (exLoadChains 65) ∧ (exLoad 65).walk = 0 ∧
      ((exLoad 65).tblz : Int) < (exLoad 65).size ∧
      (dthashchain 6 66 200 (exLoad 65) 15 DT_INSERT).map
        (fun r => (r.2, r.1.size, r.1.tblz)) = some (10, 65, 64)) := by
  decide

/-- C11 (as amended). For every table, when the request for a new slot array fails:
`dthash_htable` returns, with `-1` exactly when it has made the request, and the
table is as it was, the `H_FIXED` bit apart: the slot array, the heap and so every
chain, the count and the `H_FLATTEN` bit are the same.  The `H_FIXED` bit is the
same too when there is no event hook; the hook can only set it. -/
theorem dthash_htable_alloc_fail (H fuel : Nat) (dt : Dt) (hz : dt.memoryf dt.nalloc = 0) :
    ∃ fx nal rc,
      dthash_htable H fuel dt = some ({ dt with fixed := fx, nalloc := nal }, rc) ∧
      ((rc = -1 ∧ nal = dt.nalloc + 1) ∨ (rc = 0 ∧ nal = dt.nalloc)) ∧
      (dt.disc.eventf = none → fx = dt.fixed) ∧ (dt.fixed = true → fx = true) := by
  unfold dthash_htable
  by_cases h1 : 0 < dt.tblz ∧ dt.fixed = true
  · exact ⟨dt.fixed, dt.nalloc, 0, by rw [if_pos h1], Or.inr ⟨rfl, rfl⟩, fun _ => rfl, id⟩
  · rw [if_neg h1]
    have hfx : (dt.disc.eventf = none → (hashsizeEvent dt dt.tblz).1 = dt.fixed) ∧
        (dt.fixed = true → (hashsizeEvent dt dt.tblz).1 = true) := by
      unfold hashsizeEvent
      constructor
      · intro h; rw [h]
      · intro h
        cases dt.disc.eventf with
        | none => exact h
        | some ev =>
          simp only
          split
          · split
            · rfl
            · exact h
          · exact h
    by_cases h2 : (hashsizeEvent dt dt.tblz).2.2 = true
    · exact ⟨_, dt.nalloc, 0, by simp only [h2, if_true], Or.inr ⟨rfl, rfl⟩, hfx.1, hfx.2⟩
    · by_cases h3 : hsize
          (if (hashsizeEvent dt dt.tblz).2.1 < dt.size then dt.size
            else (hashsizeEvent dt dt.tblz).2.1).toNat (2 ^ H)
          (if (hashsizeEvent dt dt.tblz).2.1 < dt.size then dt.size
            else (hashsizeEvent dt dt.tblz).2.1) ≤ dt.tblz
      · refine ⟨_, dt.nalloc, 0, ?_, Or.inr ⟨rfl, rfl⟩, hfx.1, hfx.2⟩
        simp only [Dt.tblz] at h2 h3 ⊢
        rw [if_neg h2, if_pos h3]
      · refine ⟨_, dt.nalloc + 1, -1, ?_, Or.inl ⟨rfl, rfl⟩, hfx.1, hfx.2⟩
        simp only [Dt.tblz] at h2 h3 ⊢
        rw [if_neg h2, if_neg h3, if_pos hz]

/-- C11, witness: the new table `exAllocFail`, whose first request fails. -/
theorem dthash_htable_alloc_fail_witness :
    ∃ fx nal rc,
      dthash_htable 6 1 exAllocFail =
        some ({ exAllocFail with fixed := fx, nalloc := nal }, rc) ∧
      ((rc = -1 ∧ nal = exAllocFail.nalloc + 1) ∨ (rc = 0 ∧ nal = exAllocFail.nalloc)) ∧
      (exAllocFail.disc.eventf = none → fx = exAllocFail.fixed) ∧
      (exAllocFail.fixed = true → fx = true) :=
  dthash_htable_alloc_fail 6 1 exAllocFail (by decide)

/-- C11, counterexample, with `DT_HTABLE = 6`.  The table `exFixFail` is not of fixed
size.  Its hook asks for a fixed size of 128 slots, so line 68 sets `H_FIXED`; the
request for the 128 slots then fails and the call returns `-1` with the 64 slots it
had, but with `H_FIXED` set. -/
theorem dthash_htable_alloc_fail_cex :
    exFixFail.fixed = false ∧ exFixFail.memoryf exFixFail.nalloc = 0 ∧
    (dthash_htable 6 66 exFixFail).map (fun r => (r.2, r.1.fixed, r.1.tblz)) =
      some (-1, true, 64) := by
  decide

/-- C15. On every table of chains of pairwise distinct links, `dthash_htable` returns,
and when it has made the slot array grow it returns `0` and the new array of `n`
slots holds the links the old one held, each once, with the memoized hash and the
object it had, every link in the chain of slot `_hash & (n - 1)`; and the call does
the same whatever the hash function is, which it does not call. -/
theorem dthash_htable_rehash (H fuel : Nat) (dt : Dt) (Ls : List (List Nat))
    (ht : Table dt.heap dt.htbl Ls) (hn : Ls.flatten.Nodup)
    (hfl : ∀ L ∈ Ls, L.length < fuel) :
    (∃ dt1 rc, dthash_htable H fuel dt = some (dt1, rc) ∧
      (dt.tblz < dt1.tblz → rc = 0 ∧
        ∃ Ls1, Table dt1.heap dt1.htbl Ls1 ∧ Ls1.flatten.Perm Ls.flatten ∧
          Ls1.flatten.Nodup ∧ Placed dt1.heap dt1.tblz 0 Ls1 ∧
          (∀ x, (dt1.heap x).hash = (dt.heap x).hash ∧ (dt1.heap x).obj = (dt.heap x).obj) ∧
          dt1.size = dt.size)) ∧
    (∀ f : Nat → Nat,
      dthash_htable H fuel { dt with disc := { dt.disc with hashf := f } } =
        (dthash_htable H fuel dt).map
          (fun r => ({ r.1 with disc := { r.1.disc with hashf := f } }, r.2))) := by
  refine ⟨?_, dthash_htable_hashf H fuel dt⟩
  rcases dthash_htable_spec H fuel dt Ls ht hn hfl with
    ⟨fx, nal, rc, h, _, _⟩ | ⟨fx, hp, ts, h, _, hlt, _, _, htab, _, hho⟩
  · exact ⟨_, rc, h, fun hlt => absurd hlt (lt_irrefl _)⟩
  · refine ⟨_, 0, h, fun _ => ⟨rfl, _, htab, ?_, ?_, ?_, hho, rfl⟩⟩
    · have := pushAll_perm (fun x => (dt.heap x).hash) ts.length (by omega) Ls.flatten
        (List.replicate ts.length []) (by simp)
      rw [flatten_replicate_nil, List.append_nil] at this
      exact this
    · have := pushAll_perm (fun x => (dt.heap x).hash) ts.length (by omega) Ls.flatten
        (List.replicate ts.length []) (by simp)
      rw [flatten_replicate_nil, List.append_nil] at this
      exact this.nodup_iff.mpr hn
    · show Placed hp ts.length 0 _
      exact placed_congr (fun x => (hho x).1)
        (placed_pushAll Ls.flatten (placed_replicate dt.heap ts.length ts.length 0))

/-- C15, witness: the table `exBag9`, which grows from four slots to sixteen. -/
theorem dthash_htable_rehash_witness :
    (∃ dt1 rc, dthash_htable 1 6 exBag9 = some (dt1, rc) ∧
      (exBag9.tblz < dt1.tblz → rc = 0 ∧
        ∃ Ls1, Table dt1.heap dt1.htbl Ls1 ∧ Ls1.flatten.Perm exBagChains.flatten ∧
          Ls1.flatten.Nodup ∧ Placed dt1.heap dt1.tblz 0 Ls1 ∧
          (∀ x, (dt1.heap x).hash = (exBag9.heap x).hash ∧
            (dt1.heap x).obj = (exBag9.heap x).obj) ∧
          dt1.size = exBag9.size)) ∧
    (∀ f : Nat → Nat,
      dthash_htable 1 6 { exBag9 with disc := { exBag9.disc with hashf := f } } =
        (dthash_htable 1 6 exBag9).map
          (fun r => ({ r.1 with disc := { r.1.disc with hashf := f } }, r.2))) :=
  dthash_htable_rehash 1 6 exBag9 exBagChains (by decide) (by decide) (by decide)

/-- C13. On every well-formed table whose count is the number of its links,
`DT_EXTRACT` returns the head of one list that runs through every link of the table
once, slot after slot and each chain in its order, leaves every slot `NULL` and the
count `0`, the links keeping their objects and hashes; on a table without link the
list is empty, so `NULL` is returned, and the count stays `0`. -/
theorem extract_all (H mk fuel : Nat) (dt : Dt) (Ls : List (List Nat)) (obj : Nat)
    (hw : WellFormed dt Ls) (hfuel : Ls.flatten.length < fuel)
    (hcount : dt.size = Ls.flatten.length) :
    ∃ dt1, dthashchain H mk (fuel + 1) dt obj DT_EXTRACT = some (dt1, Ls.flatten.headD 0) ∧
      Seg dt1.heap (Ls.flatten.headD 0) Ls.flatten 0 ∧ Ls.flatten.Nodup ∧
      (∀ t ∈ dt1.htbl, t = 0) ∧ dt1.size = 0 ∧
      (∀ x, (dt1.heap x).hash = (dt.heap x).hash ∧ (dt1.heap x).obj = (dt.heap x).obj) ∧
      (Ls.flatten = [] → Ls.flatten.headD 0 = 0) := by
  rcases dthashchain_setup H mk fuel dt obj DT_EXTRACT Ls hw (by decide) with
    ⟨_, hd⟩ | ⟨hnil, hLs, ⟨fx, nal, _, hd⟩ | ⟨fx, n, _, _, _, hd⟩⟩
  · obtain ⟨d1, g1, g2, g3, _, g5, g6⟩ :=
      body_extract (dthashchain H mk fuel) H (fuel + 1) mk dt Ls obj hw.1 hw.2.1 (by omega)
    exact ⟨d1, hd.trans g1, g2, hw.2.1, g3, g5, g6, fun h => by rw [h]; rfl⟩
  · refine ⟨{ dt with fixed := fx, nalloc := nal }, ?_, ?_, hw.2.1, ?_, ?_,
      fun _ => ⟨rfl, rfl⟩, fun h => by rw [h]; rfl⟩
    · rw [hd, hLs]; rfl
    · rw [hLs]; rfl
    · intro t htm
      have : t ∈ dt.htbl := htm
      rw [hnil] at this
      simp at this
    · show dt.size = 0
      rw [hcount, hLs]; rfl
  · obtain ⟨d1, g1, g2, g3, _, g5, g6⟩ :=
      body_extract (dthashchain H mk fuel) H (fuel + 1) mk
        { dt with fixed := fx, nalloc := dt.nalloc + 1, htbl := List.replicate n 0 }
        (List.replicate n []) obj (table_replicate _ _)
        (by rw [flatten_replicate_nil]; exact List.nodup_nil)
        (by rw [flatten_replicate_nil]; simp)
    rw [flatten_replicate_nil] at g1 g2
    refine ⟨d1, ?_, ?_, hw.2.1, g3, g5, g6, fun h => by rw [h]; rfl⟩
    · rw [hd, hLs]; exact g1
    · rw [hLs]; exact g2

/-- C13, witness: `DT_EXTRACT` on the table `exBag` and its five links. -/
theorem extract_all_witness :
    ∃ dt1,
      dthashchain 1 0 (6 + 1) exBag 0 DT_EXTRACT = some (dt1, exBagChains.flatten.headD 0) ∧
      Seg dt1.heap (exBagChains.flatten.headD 0) exBagChains.flatten 0 ∧
      exBagChains.flatten.Nodup ∧
      (∀ t ∈ dt1.htbl, t = 0) ∧ dt1.size = 0 ∧
      (∀ x, (dt1.heap x).hash = (exBag.heap x).hash ∧
        (dt1.heap x).obj = (exBag.heap x).obj) ∧
      (exBagChains.flatten = [] → exBagChains.flatten.headD 0 = 0) :=
  extract_all 1 0 6 exBag exBagChains 0 (by decide) (by decide) (by decide)

/-- C14, the failing input, with `DT_HTABLE = 6`.  In the table `exSet64` no walk is
going on and the fingered link `3` holds the object `30`.  `DT_START` with the start
object `30` takes the branch of line 305: it returns the cursor `1001`, set on link
`3`, and the walk count is still `0`.  The same call on the same table with no link
fingered finds the object by its key and returns the cursor with a walk count of `1`
(line 360), as does `DT_START` with no start object (line 274). -/
theorem start_fingered_walk :
    exSet64.walk = 0 ∧ exSet64.here = 3 ∧ _DTOBJ exSet64 3 = 30 ∧
    (dthashchain 6 0 5 exSet64 30 DT_START).map (fun r => (r.2, r.1.fngr r.2, r.1.walk)) =
      some (1001, 3, 0) ∧
    (dthashchain 6 0 5 { exSet64 with here := 0 } 30 DT_START).map
      (fun r => (r.2, r.1.fngr r.2, r.1.walk)) = some (1001, 3, 1) ∧
    (dthashchain 6 0 5 exSet64 0 DT_START).map (fun r => (r.2, r.1.fngr r.2, r.1.walk)) =
      some (1001, 1, 1) := by
  decide

/-- C16, the failing input, with `DT_HTABLE = 6`.  In the table `exSet64` the fingered
link `3` holds the object `30`.  `DT_SEARCH` of `30` takes the branch of line 299 and
returns `30` with no link fingered any more; the same call on the same table with the
fingered link cleared beforehand finds link `3` by its key, returns `30` and leaves
link `3` fingered (line 356). -/
theorem search_fingered_here :
    exSet64.here = 3 ∧ _DTOBJ exSet64 3 = 30 ∧
    (dthashchain 6 0 5 exSet64 30 DT_SEARCH).map (fun r => (r.2, r.1.here)) = some (30, 0) ∧
    (dthashchain 6 0 5 { exSet64 with here := 0 } 30 DT_SEARCH).map
      (fun r => (r.2, r.1.here)) = some (30, 3) := by
  decide

/-- C21. In set mode, under a hash function consistent with the comparator (keys that
compare equal hash equally), the equality of the comparator being symmetric and
transitive: on every well-formed table in which no two links have keys that compare
equal, a dispatch of `DT_INSERT`, `DT_APPEND`, `DT_ATTACH` or `DT_INSTALL`, whether
`_dtmake` comes up with a fresh link or fails, and a dispatch of `DT_RELINK` of a link
that is in no chain, return and leave a well-formed table in which still no two links
have keys that compare equal. -/
theorem set_unique_kept (H mk fuel : Nat) (dt : Dt) (Ls : List (List Nat)) (obj : Nat)
    (type : Ops) (hw : WellFormed dt Ls) (hfuel : Ls.flatten.length < fuel)
    (hset : dt.bag = false)
    (hcons : ∀ a b, dt.disc.comparf a b = 0 → dt.disc.hashf a = dt.disc.hashf b)
    (hsym : ∀ a b, dt.disc.comparf a b = 0 → dt.disc.comparf b a = 0)
    (htrans : ∀ a b c, dt.disc.comparf a b = 0 → dt.disc.comparf b c = 0 →
      dt.disc.comparf a c = 0)
    (hu : UniqueKeys dt Ls)
    (hop : ((type = DT_INSERT ∨ type = DT_APPEND ∨ type = DT_ATTACH ∨ type = DT_INSTALL) ∧
        (mk ≠ 0 → mk ∉ Ls.flatten)) ∨
      (type = DT_RELINK ∧ obj ≠ 0 ∧ obj ∉ Ls.flatten)) :
    ∃ dt2 r Ls2, dthashchain H mk (fuel + 1) dt obj type = some (dt2, r) ∧
      WellFormed dt2 Ls2 ∧ UniqueKeys dt2 Ls2 := by
  have hnone : type ≠ DT_NONE := by
    rcases hop with ⟨h | h | h | h, _⟩ | ⟨h, _⟩ <;> subst h <;> decide
  have hbody : ∀ (d : Dt) (Ms : List (List Nat)), WellFormed d Ms → Ms.flatten.length < fuel →
      d.htbl ≠ [] → d.bag = false → d.disc = dt.disc → UniqueKeys d Ms →
      (∀ a ∈ Ms.flatten, a ∈ Ls.flatten) →
      ∃ d2 r Ms2, dthashchain_body (dthashchain H mk fuel) H (fuel + 1) mk d obj type =
        some (d2, r) ∧ WellFormed d2 Ms2 ∧ UniqueKeys d2 Ms2 := by
    intro d Ms hwd hf hne hb hdisc hud hsub
    rcases hop with ⟨hty, hmk⟩ | ⟨hty, hr0, hr⟩
    · obtain ⟨d2, r, Ms2, g1, g2, g3, _⟩ :=
        body_insert_unique (dthashchain H mk fuel) H (fuel + 1) mk d Ms obj type hwd
          (by omega) hne hb hty (fun h0 h => hmk h0 (hsub mk h)) (by rw [hdisc]; exact hcons)
          (by rw [hdisc]; exact hsym) (by rw [hdisc]; exact htrans) hud
      exact ⟨d2, r, Ms2, g1, g2, g3⟩
    · subst hty
      obtain ⟨d2, r, Ms2, g1, g2, g3, _⟩ :=
        body_relink_unique (dthashchain H mk fuel) H (fuel + 1) mk d Ms obj hwd
          (by omega) hne hb hr0 (fun h => hr (hsub obj h)) (by rw [hdisc]; exact hcons)
          (by rw [hdisc]; exact hsym) hud
      exact ⟨d2, r, Ms2, g1, g2, g3⟩
  rcases dthashchain_setup H mk fuel dt obj type Ls hw hnone with
    ⟨hne, hd⟩ | ⟨hnil, hLs, ⟨fx, nal, _, hd⟩ | ⟨fx, n, hn0, _, _, hd⟩⟩
  · rw [hd]
    exact hbody dt Ls hw hfuel hne hset rfl hu (fun _ h => h)
  · exact ⟨{ dt with fixed := fx, nalloc := nal }, 0, Ls, hd, hw, hu⟩
  · rw [hd]
    refine hbody _ (List.replicate n []) (wellFormed_new dt fx (dt.nalloc + 1) n hw.2.2.2.2)
      (by rw [flatten_replicate_nil]; simp; omega) ?_ hset rfl ?_ ?_
    · intro h
      have : (List.replicate n 0).length = 0 := congrArg List.length h
      simp at this
      omega
    · intro a ha
      rw [flatten_replicate_nil] at ha
      simp at ha
    · intro a ha
      rw [flatten_replicate_nil] at ha
      simp at ha

/-- C21, witness: `DT_INSTALL` of the object `12`, of key `1`, on the table `exSet64`,
which holds the object `10` of that key. -/
theorem set_unique_kept_witness :
    ∃ dt2 r Ls2, dthashchain 6 4 (4 + 1) exSet64 12 DT_INSTALL = some (dt2, r) ∧
      WellFormed dt2 Ls2 ∧ UniqueKeys dt2 Ls2 :=
  set_unique_kept 6 4 4 exSet64 exSet64Chains 12 DT_INSTALL (by decide) (by decide) rfl
    (fun a b h => by
      have h1 : (a : Int) - b = 0 := h
      have h2 : a = b := by omega
      rw [h2])
    (fun a b h => by
      have h1 : (a : Int) - b = 0 := h
      show (b : Int) - a = 0
      omega)
    (fun a b c h h' => by
      have h1 : (a : Int) - b = 0 := h
      have h2 : (b : Int) - c = 0 := h'
      show (a : Int) - c = 0
      omega)
    (by decide) (Or.inl ⟨Or.inr (Or.inr (Or.inr rfl)), by decide⟩)

/-- C20. On every well-formed (so not flattened) table whose count is the number of
links in its chains, a dispatch of `DT_INSERT`, `DT_APPEND`, `DT_ATTACH`, `DT_INSTALL`,
`DT_DELETE`, `DT_DETACH`, `DT_REMOVE`, `DT_CLEAR` or `DT_EXTRACT` returns and leaves a
well-formed table whose count is the number of links in its chains: whether the call
inserts, replaces, removes, finds nothing or gets no link from `_dtmake`, whether or
not the slot array is made or grows during the call. -/
theorem count_kept (H mk fuel : Nat) (dt : Dt) (Ls : List (List Nat)) (obj : Nat)
    (type : Ops) (hw : WellFormed dt Ls) (hfuel : Ls.flatten.length < fuel)
    (hcount : dt.size = Ls.flatten.length) (hmk : mk ≠ 0 → mk ∉ Ls.flatten)
    (hty : type = DT_INSERT ∨ type = DT_APPEND ∨ type = DT_ATTACH ∨ type = DT_INSTALL ∨
      type = DT_DELETE ∨ type = DT_DETACH ∨ type = DT_REMOVE ∨ type = DT_CLEAR ∨
      type = DT_EXTRACT) :
    ∃ dt2 r Ls2, dthashchain H mk (fuel + 1) dt obj type = some (dt2, r) ∧
      WellFormed dt2 Ls2 ∧ dt2.size = Ls2.flatten.length := by
  have hnone : type ≠ DT_NONE := by
    rcases hty with h | h | h | h | h | h | h | h | h <;> subst h <;> decide
  have hbody : ∀ (d : Dt) (Ms : List (List Nat)), WellFormed d Ms → Ms.flatten.length < fuel →
      d.htbl ≠ [] → d.size = Ms.flatten.length → (∀ a ∈ Ms.flatten, a ∈ Ls.flatten) →
      ∃ d2 r Ms2, dthashchain_body (dthashchain H mk fuel) H (fuel + 1) mk d obj type =
        some (d2, r) ∧ WellFormed d2 Ms2 ∧ d2.size = Ms2.flatten.length := by
    intro d Ms hwd hf hne hc hsub
    rcases hty with h | h | h | h | h | h | h | h | h
    · exact body_insert_count _ H (fuel + 1) mk d Ms obj type hwd (by omega) hne
        (Or.inl h) (fun h0 hm => hmk h0 (hsub mk hm)) hc
    · exact body_insert_count _ H (fuel + 1) mk d Ms obj type hwd (by omega) hne
        (Or.inr (Or.inl h)) (fun h0 hm => hmk h0 (hsub mk hm)) hc
    · exact body_insert_count _ H (fuel + 1) mk d Ms obj type hwd (by omega) hne
        (Or.inr (Or.inr (Or.inl h))) (fun h0 hm => hmk h0 (hsub mk hm)) hc
    · exact body_insert_count _ H (fuel + 1) mk d Ms obj type hwd (by omega) hne
        (Or.inr (Or.inr (Or.inr h))) (fun h0 hm => hmk h0 (hsub mk hm)) hc
    · exact body_delete_count _ H (fuel + 1) mk d Ms obj type hwd (by omega) (Or.inl h) hc
    · exact body_delete_count _ H (fuel + 1) mk d Ms obj type hwd (by omega)
        (Or.inr (Or.inl h)) hc
    · exact body_delete_count _ H (fuel + 1) mk d Ms obj type hwd (by omega)
        (Or.inr (Or.inr h)) hc
    · subst h
      obtain ⟨d1, g1, g2, g3, _⟩ := body_clear (dthashchain H mk fuel) H (fuel + 1) mk d Ms obj
        hwd.1 hwd.2.2.2.2 (by omega)
      exact ⟨d1, 0, _, g1, g2, by rw [g3, flatten_replicate_nil]; rfl⟩
    · subst h
      obtain ⟨d1, r, g1, g2, g3⟩ := body_extract_empty (dthashchain H mk fuel) H (fuel + 1) mk
        d Ms obj hwd.1 hwd.2.1 hwd.2.2.2.2 (by omega)
      exact ⟨d1, r, _, g1, g2, by rw [g3, flatten_replicate_nil]; rfl⟩
  rcases dthashchain_setup H mk fuel dt obj type Ls hw hnone with
    ⟨hne, hd⟩ | ⟨hnil, hLs, ⟨fx, nal, _, hd⟩ | ⟨fx, n, hn0, _, _, hd⟩⟩
  · rw [hd]
    exact hbody dt Ls hw hfuel hne hcount (fun _ h => h)
  · exact ⟨{ dt with fixed := fx, nalloc := nal }, 0, Ls, hd, hw, hcount⟩
  · rw [hd]
    refine hbody _ (List.replicate n []) (wellFormed_new dt fx (dt.nalloc + 1) n hw.2.2.2.2)
      (by rw [flatten_replicate_nil]; simp; omega) ?_ ?_ ?_
    · intro h
      have : (List.replicate n 0).length = 0 := congrArg List.length h
      simp at this
      omega
    · show dt.size = _
      rw [hcount, hLs, flatten_replicate_nil]
    · intro a ha
      rw [flatten_replicate_nil] at ha
      simp at ha

/-- C20, witness: `DT_DELETE` of the object `11` on the table `exBag` and its five
links. -/
theorem count_kept_witness :
    ∃ dt2 r Ls2, dthashchain 1 0 (6 + 1) exBag 11 DT_DELETE = some (dt2, r) ∧
      WellFormed dt2 Ls2 ∧ dt2.size = Ls2.flatten.length :=
  count_kept 1 0 6 exBag exBagChains 11 DT_DELETE (by decide) (by decide) (by decide)
    (by decide) (Or.inr (Or.inr (Or.inr (Or.inr (Or.inl rfl)))))

/-- C12. In set mode, on every well-formed table whose links have pairwise distinct
keys (two links have keys that compare equal only when they are the same link) and
that holds a link `e` whose key is the key of the object handed to `DT_INSTALL`: when
`_dtmake` comes up with a fresh link `mk`, the call returns the new object, the link
`e` leaves its chain and is freed, the link `mk` holds the new object, the other links
stay with their objects, and the count is what it was; a `DT_MATCH` for the key and a
`DT_SEARCH` for the object right after return the new object.  When `_dtmake` fails,
the call returns `NULL` and the table, `e` included, is as it was but for the fingered
link. -/
theorem install_replace (H mk fuel : Nat) (dt : Dt) (Ls : List (List Nat)) (obj e : Nat)
    (hw : WellFormed dt Ls) (hfuel : Ls.flatten.length < fuel) (hset : dt.bag = false)
    (hdist : ∀ a ∈ Ls.flatten, ∀ b ∈ Ls.flatten,
      (_DTCMP dt (_DTKEY dt (_DTOBJ dt a)) (_DTKEY dt (_DTOBJ dt b)) = 0 ↔ a = b))
    (he : e ∈ Ls.flatten) (hkey : _DTKEY dt obj = _DTKEY dt (_DTOBJ dt e))
    (hmk : mk ≠ 0 → mk ∉ Ls.flatten) :
    (mk = 0 →
      dthashchain H mk (fuel + 1) dt obj DT_INSTALL = some ({ dt with here := 0 }, 0)) ∧
    (mk ≠ 0 → ∃ dt2 Ls2,
      dthashchain H mk (fuel + 1) dt obj DT_INSTALL = some (dt2, obj) ∧
      WellFormed dt2 Ls2 ∧ (e :: Ls2.flatten).Perm (mk :: Ls.flatten) ∧ e ∉ Ls2.flatten ∧
      dt2.size = dt.size ∧ _DTOBJ dt2 mk = obj ∧
      (∀ y, y ≠ mk → _DTOBJ dt2 y = _DTOBJ dt y) ∧ e ∈ dt2.freed ∧
      (∃ dt3, dthashchain H mk (fuel + 1) dt2 (_DTKEY dt obj) DT_MATCH = some (dt3, obj)) ∧
      (∃ dt3, dthashchain H mk (fuel + 1) dt2 obj DT_SEARCH = some (dt3, obj))) := by
  have hne : dt.htbl ≠ [] := htbl_ne_nil hw.1 he
  have hh : (dt.heap e).hash = _DTHSH dt (_DTKEY dt obj) := by
    rw [hw.2.2.2.1 e he, hkey]
  have hin := mem_bucket dt Ls hw e _ he hh
  have hee : _DTCMP dt (_DTKEY dt obj) (_DTKEY dt (_DTOBJ dt e)) = 0 := by
    rw [hkey]; exact (hdist e he e he).mpr rfl
  rw [dthashchain_ready H mk fuel dt obj DT_INSTALL (by decide) hne hw.2.2.2.2]
  rcases body_insert_cases (dthashchain H mk fuel) H (fuel + 1) mk dt Ls obj DT_INSTALL hw.1
      (by omega) (Or.inr (Or.inr (Or.inr rfl))) with
    ⟨L1, x, L2, e1, _, e3, _, _, e6⟩ | ⟨e1, _⟩
  · have hxF : x ∈ Ls.flatten := mem_flatten_of_getD (by rw [e1]; simp)
    have hxe : e = x := (hdist e he x hxF).mp (by rw [← hkey]; exact e3.2)
    subst hxe
    rw [if_pos rfl] at e6
    constructor
    · intro h0
      rw [if_pos h0] at e6
      exact e6
    · intro h0
      rw [if_neg h0] at e6
      obtain ⟨d2, Ms1, g1, g2, _, g4, g5, g6, g7, g8, g9, g10, _, _, g13, g14, _⟩ :=
        install_replace_spec H (fuel + 1) mk dt Ls obj L1 e L2 hw (by omega) hne h0 (hmk h0) e1
      have g7b : _DTOBJ d2 mk = obj := g7
      have hnd : (e :: (pushAt Ms1 (_DTHSH dt (_DTKEY dt obj) &&& (d2.tblz - 1))
          mk).flatten).Nodup :=
        g4.nodup_iff.mpr (List.nodup_cons.mpr ⟨hmk h0, hw.2.1⟩)
      have hen := (List.nodup_cons.mp hnd).1
      have hsub : ∀ a ∈ (pushAt Ms1 (_DTHSH dt (_DTKEY dt obj) &&& (d2.tblz - 1))
          mk).flatten, a = mk ∨ a ∈ Ls.flatten := by
        intro a ha
        have := g4.mem_iff.mp (List.mem_cons_of_mem e ha)
        simpa using this
      have hmkin : mk ∈ (pushAt Ms1 (_DTHSH dt (_DTKEY dt obj) &&& (d2.tblz - 1))
          mk).flatten := by
        have : mk ∈ e :: (pushAt Ms1 (_DTHSH dt (_DTKEY dt obj) &&& (d2.tblz - 1))
            mk).flatten := g4.mem_iff.mpr (List.mem_cons_self _ _)
        rcases List.mem_cons.mp this with h | h
        · exact absurd (h ▸ he) (hmk h0)
        · exact h
      have hne2 : d2.htbl ≠ [] := by
        intro h
        have h1 : d2.tblz = 0 := congrArg List.length h
        have h2 : 0 < dt.tblz := List.length_pos.mpr hne
        omega
      have hlen2 : (pushAt Ms1 (_DTHSH dt (_DTKEY dt obj) &&& (d2.tblz - 1))
          mk).flatten.length < fuel + 1 := by
        have := g4.length_eq
        simp only [List.length_cons] at this
        omega
      -- the only link with an equal key is the new one
      have honly : ∀ l ∈ (pushAt Ms1 (_DTHSH dt (_DTKEY dt obj) &&& (d2.tblz - 1))
          mk).flatten, _DTCMP d2 (_DTKEY dt obj) (_DTKEY d2 (_DTOBJ d2 l)) = 0 → l = mk := by
        intro l hl hc
        by_contra hlm
        have hlF : l ∈ Ls.flatten := (hsub l hl).resolve_left hlm
        have hel : e = l := by
          refine (hdist e he l hlF).mp ?_
          have hk2 : dt.disc.keyf obj = dt.disc.keyf (dt.heap e).obj := hkey
          simp only [_DTCMP, _DTKEY, _DTOBJ, g10, (g9 l hlm).1] at hc ⊢
          rw [← hk2]
          exact hc
        exact hen (hel ▸ hl)
      refine ⟨d2, _, e6.trans g1, g2, g4, hen, g5, g7, fun y hy => (g9 y hy).1,
        by rw [g13]; exact List.mem_cons_self _ _, ?_, ?_⟩
      · rw [dthashchain_ready H mk fuel d2 _ DT_MATCH (by decide) hne2 g2.2.2.2.2]
        rcases body_find (dthashchain H mk fuel) H (fuel + 1) mk d2 _ DT_MATCH (_DTKEY dt obj)
          (_DTKEY dt obj) g2 hlen2 (Or.inl ⟨rfl, rfl⟩) with ⟨M1, l, M2, q1, _, q3, q4⟩ | ⟨q1, _⟩
        · have hl : l ∈ (pushAt Ms1 (_DTHSH dt (_DTKEY dt obj) &&& (d2.tblz - 1))
              mk).flatten := mem_flatten_of_getD (by rw [q1]; simp)
          have := honly l hl q3.2
          subst this
          exact ⟨_, by rw [q4, g7b]⟩
        · exfalso
          have hhash : (d2.heap mk).hash = _DTHSH d2 (_DTKEY dt obj) := by
            rw [g8]; simp only [_DTHSH, g10]
          have hb := mem_bucket d2 _ g2 mk _ hmkin hhash
          refine q1 mk hb ⟨hhash, ?_⟩
          rw [g7b]
          show d2.disc.comparf (dt.disc.keyf obj) (d2.disc.keyf obj) = 0
          rw [g10]
          rw [← hkey] at hee
          exact hee
      · rw [dthashchain_ready H mk fuel d2 _ DT_SEARCH (by decide) hne2 g2.2.2.2.2]
        exact ⟨_, body_search_fingered _ H (fuel + 1) mk d2 obj (by rw [g6]; exact h0)
          (by rw [g6]; exact g7b.symm)⟩
  · exfalso
    rcases e1 with h | h
    · rw [hset] at h; exact absurd h (by decide)
    · exact h e hin ⟨hh, hee⟩

/-- C12, witness: `DT_INSTALL` of the object `12`, of key `1`, on the table `exSet64`,
whose link `1` holds the object `10` of that key. -/
theorem install_replace_witness :
    ((4 : Nat) = 0 →
      dthashchain 6 4 (4 + 1) exSet64 12 DT_INSTALL = some ({ exSet64 with here := 0 }, 0)) ∧
    ((4 : Nat) ≠ 0 → ∃ dt2 Ls2,
      dthashchain 6 4 (4 + 1) exSet64 12 DT_INSTALL = some (dt2, 12) ∧
      WellFormed dt2 Ls2 ∧ (1 :: Ls2.flatten).Perm (4 :: exSet64Chains.flatten) ∧
      1 ∉ Ls2.flatten ∧
      dt2.size = exSet64.size ∧ _DTOBJ dt2 4 = 12 ∧
      (∀ y, y ≠ 4 → _DTOBJ dt2 y = _DTOBJ exSet64 y) ∧ 1 ∈ dt2.freed ∧
      (∃ dt3, dthashchain 6 4 (4 + 1) dt2 (_DTKEY exSet64 12) DT_MATCH = some (dt3, 12)) ∧
      (∃ dt3, dthashchain 6 4 (4 + 1) dt2 12 DT_SEARCH = some (dt3, 12))) :=
  install_replace 6 4 4 exSet64 exSet64Chains 12 1 (by decide) (by decide) rfl (by decide)
    (by decide) (by decide) (by decide)

/-- C17. On every well-formed table that has its slot array, while a walk is going on
(walk count not `0`), a dispatch of `DT_INSERT`, `DT_APPEND`, `DT_ATTACH` or
`DT_INSTALL` returns with the walk count and the number of slots it found, however
large the count is.  When the call inserts (bag mode, or no link has a key that
compares equal) and `_dtmake` comes up with a fresh link, the object is returned, the
count is one more, and the slot array is the one before with the new link in the slot
of its hash, in front of the chain that was there: all other slots and chains are
untouched and the table is well formed. -/
theorem insert_during_walk (H mk fuel : Nat) (dt : Dt) (Ls : List (List Nat)) (obj : Nat)
    (type : Ops) (hw : WellFormed dt Ls) (hfuel : Ls.flatten.length < fuel)
    (hne : dt.htbl ≠ []) (hwalk : dt.walk ≠ 0)
    (hty : type = DT_INSERT ∨ type = DT_APPEND ∨ type = DT_ATTACH ∨ type = DT_INSTALL)
    (hmk : mk ≠ 0 → mk ∉ Ls.flatten) :
    ∃ dt2 r, dthashchain H mk (fuel + 1) dt obj type = some (dt2, r) ∧
      dt2.tblz = dt.tblz ∧ dt2.walk = dt.walk ∧
      ((dt.bag = true ∨
          ∀ y ∈ Ls.flatten, _DTCMP dt (_DTKEY dt obj) (_DTKEY dt (_DTOBJ dt y)) ≠ 0) →
        mk ≠ 0 →
        r = obj ∧ dt2.size = dt.size + 1 ∧ _DTOBJ dt2 mk = obj ∧
        dt2.htbl = dt.htbl.set (_DTHSH dt (_DTKEY dt obj) &&& (dt.tblz - 1)) mk ∧
        (dt2.heap mk).rght = dt.htbl.getD (_DTHSH dt (_DTKEY dt obj) &&& (dt.tblz - 1)) 0 ∧
        (∀ y, y ≠ mk → dt2.heap y = dt.heap y) ∧
        WellFormed dt2 (pushAt Ls (_DTHSH dt (_DTKEY dt obj) &&& (dt.tblz - 1)) mk)) := by
  have hnone : type ≠ DT_NONE := by
    rcases hty with h | h | h | h <;> subst h <;> decide
  have hw0 : WellFormed { dt with here := 0 } Ls := hw
  rw [dthashchain_ready H mk fuel dt obj type hnone hne hw.2.2.2.2]
  rcases body_insert_cases (dthashchain H mk fuel) H (fuel + 1) mk dt Ls obj type hw.1
      (by omega) hty with
    ⟨L1, x, L2, e1, _, e3, _, e5, e6⟩ | ⟨_, e2⟩
  · have hxF : x ∈ Ls.flatten := mem_flatten_of_getD (by rw [e1]; simp)
    have hcase : ¬ (dt.bag = true ∨
        ∀ y ∈ Ls.flatten, _DTCMP dt (_DTKEY dt obj) (_DTKEY dt (_DTOBJ dt y)) ≠ 0) := by
      rintro (h | h)
      · rw [e5] at h; exact absurd h (by decide)
      · exact h x hxF e3.2
    by_cases hin : type = DT_INSTALL
    · rw [if_pos hin] at e6
      by_cases hmk0 : mk = 0
      · rw [if_pos hmk0] at e6
        exact ⟨_, 0, e6, rfl, rfl, fun h => absurd h hcase⟩
      · rw [if_neg hmk0] at e6
        obtain ⟨d2, Ms1, g1, _, _, _, _, _, _, _, _, _, _, g12, _, _, g15⟩ :=
          install_replace_spec H (fuel + 1) mk dt Ls obj L1 x L2 hw (by omega) hne hmk0
            (hmk hmk0) e1
        exact ⟨d2, obj, e6.trans g1, g15 hwalk, g12, fun h => absurd h hcase⟩
    · rw [if_neg hin] at e6
      exact ⟨_, _, e6, rfl, rfl, fun h => absurd h hcase⟩
  · by_cases hmk0 : mk = 0
    · subst hmk0
      obtain ⟨d1, Ms1, g1, _, _, _, _, g6⟩ :=
        do_insert_fail_keeps H (fuel + 1) { dt with here := 0 } Ls obj
          (_DTHSH dt (_DTKEY dt obj)) hw0 (by omega)
      obtain ⟨q1, _⟩ := g6 hwalk
      subst q1
      exact ⟨_, 0, e2.trans g1, rfl, rfl, fun _ h => absurd rfl h⟩
    · obtain ⟨d2, Ms1, g1, g2, _, _, _, _, _, _, _, _, _, _, _, _, g15⟩ :=
        do_insert_new H (fuel + 1) mk { dt with here := 0 } Ls obj (_DTHSH dt (_DTKEY dt obj))
          hw0 (by omega) hne hmk0 (hmk hmk0) rfl
      obtain ⟨q1, q2⟩ := g15 hwalk
      subst q1
      have hex := do_insert_walk H (fuel + 1) mk { dt with here := 0 } obj
        (_DTHSH dt (_DTKEY dt obj)) hwalk hmk0
      have heq := Option.some.inj (g1.symm.trans hex)
      have hd2 := congrArg Prod.fst heq
      simp only at hd2
      have q2b : d2.tblz = dt.tblz := q2
      rw [q2b] at g2
      refine ⟨d2, obj, e2.trans g1, q2, by rw [hd2], fun _ _ => ⟨rfl, by rw [hd2], ?_,
        by rw [hd2]; rfl, ?_, ?_, g2⟩⟩
      · rw [hd2]
        show (setRght _ _ _ mk).obj = obj
        rw [(insert_heap _ _ _ _ _).1]
      · rw [hd2]
        show (setRght _ _ _ mk).rght = _
        rw [(insert_heap _ _ _ _ _).1]
        rfl
      · intro y hy
        rw [hd2]
        exact (insert_heap _ _ _ _ _).2 y hy

/-- C17, witness: `DT_INSERT` of the object `12` on the table `exBagWalk`, five objects
in four slots and a walk going on. -/
theorem insert_during_walk_witness :
    ∃ dt2 r, dthashchain 1 6 (6 + 1) exBagWalk 12 DT_INSERT = some (dt2, r) ∧
      dt2.tblz = exBagWalk.tblz ∧ dt2.walk = exBagWalk.walk ∧
      ((exBagWalk.bag = true ∨
          ∀ y ∈ exBagChains.flatten,
            _DTCMP exBagWalk (_DTKEY exBagWalk 12) (_DTKEY exBagWalk (_DTOBJ exBagWalk y)) ≠ 0) →
        (6 : Nat) ≠ 0 →
        r = 12 ∧ dt2.size = exBagWalk.size + 1 ∧ _DTOBJ dt2 6 = 12 ∧
        dt2.htbl = exBagWalk.htbl.set
          (_DTHSH exBagWalk (_DTKEY exBagWalk 12) &&& (exBagWalk.tblz - 1)) 6 ∧
        (dt2.heap 6).rght = exBagWalk.htbl.getD
          (_DTHSH exBagWalk (_DTKEY exBagWalk 12) &&& (exBagWalk.tblz - 1)) 0 ∧
        (∀ y, y ≠ 6 → dt2.heap y = exBagWalk.heap y) ∧
        WellFormed dt2 (pushAt exBagChains
          (_DTHSH exBagWalk (_DTKEY exBagWalk 12) &&& (exBagWalk.tblz - 1)) 6)) :=
  insert_during_walk 1 6 6 exBagWalk exBagChains 12 DT_INSERT (by decide) (by decide)
    (by decide) (by decide) (Or.inl rfl) (by decide)

/-- C18 (as amended). In set mode, on every well-formed table whose links have pairwise
distinct keys and that holds a link `e` of key `k`: `DT_RELINK` of a link `r` whose
object has the key `k` frees `r`, the link handed in, and returns the object of `e`;
the slot array, the heap, hence every chain, and the count are what they were, so `e`
is still the link stored for `k` and `r` is in no chain: the link that was there
first stays. -/
theorem relink_duplicate_set (H mk fuel : Nat) (dt : Dt) (Ls : List (List Nat)) (r e : Nat)
    (hw : WellFormed dt Ls) (hfuel : Ls.flatten.length < fuel) (hset : dt.bag = false)
    (hdist : ∀ a ∈ Ls.flatten, ∀ b ∈ Ls.flatten,
      (_DTCMP dt (_DTKEY dt (_DTOBJ dt a)) (_DTKEY dt (_DTOBJ dt b)) = 0 ↔ a = b))
    (he : e ∈ Ls.flatten) (hr0 : r ≠ 0)
    (hkey : _DTKEY dt (_DTOBJ dt r) = _DTKEY dt (_DTOBJ dt e)) :
    ∃ dt2, dthashchain H mk (fuel + 1) dt r DT_RELINK = some (dt2, _DTOBJ dt e) ∧
      dt2.htbl = dt.htbl ∧ dt2.heap = dt.heap ∧ dt2.size = dt.size ∧
      dt2.freed = r :: dt.freed ∧ WellFormed dt2 Ls := by
  have hne : dt.htbl ≠ [] := htbl_ne_nil hw.1 he
  have hh : (dt.heap e).hash = _DTHSH dt (_DTKEY dt (_DTOBJ dt r)) := by
    rw [hw.2.2.2.1 e he, hkey]
  have hin := mem_bucket dt Ls hw e _ he hh
  have hee : _DTCMP dt (_DTKEY dt (_DTOBJ dt r)) (_DTKEY dt (_DTOBJ dt e)) = 0 := by
    rw [hkey]; exact (hdist e he e he).mpr rfl
  rw [dthashchain_ready H mk fuel dt r DT_RELINK (by decide) hne hw.2.2.2.2]
  rcases body_relink_cases (dthashchain H mk fuel) H (fuel + 1) mk dt Ls r hw.1 (by omega) with
    ⟨L1, x, L2, e1, _, e3, _, _, e6⟩ | ⟨e1, _⟩
  · have hxF : x ∈ Ls.flatten := mem_flatten_of_getD (by rw [e1]; simp)
    have hxe : e = x := (hdist e he x hxF).mp (by rw [← hkey]; exact e3.2)
    subst hxe
    rw [if_pos hr0] at e6
    exact ⟨_, e6, rfl, rfl, rfl, rfl, hw⟩
  · exfalso
    rcases e1 with h | h
    · rw [hset] at h; exact absurd h (by decide)
    · exact h e hin ⟨hh, hee⟩

/-- C18, witness: `DT_RELINK` of the link `4` on the table `exSet64Relink`. -/
theorem relink_duplicate_set_witness :
    ∃ dt2, dthashchain 6 0 (4 + 1) exSet64Relink 4 DT_RELINK =
        some (dt2, _DTOBJ exSet64Relink 1) ∧
      dt2.htbl = exSet64Relink.htbl ∧ dt2.heap = exSet64Relink.heap ∧
      dt2.size = exSet64Relink.size ∧ dt2.freed = 4 :: exSet64Relink.freed ∧
      WellFormed dt2 exSet64Chains :=
  relink_duplicate_set 6 0 4 exSet64Relink exSet64Chains 4 1 (by decide) (by decide) rfl
    (by decide) (by decide) (by decide) (by decide)

/-- C18, counterexample, with `DT_HTABLE = 6`.  The table `exSet64Relink` is in set
mode and well formed, its link `1` holds the object `10` of key `1`, and the link
`4`, in no chain, holds the object `12` of the same key.  `DT_RELINK` of link `4`
returns the object `10`, not `12`; link `1` is still the head of the chain of slot
`1`, link `4` is the one freed and the count is still `3`. -/
theorem relink_duplicate_set_cex :
    WellFormed exSet64Relink exSet64Chains ∧ exSet64Relink.bag = false ∧
    1 ∈ exSet64Chains.flatten ∧ 4 ∉ exSet64Chains.flatten ∧
    _DTOBJ exSet64Relink 4 = 12 ∧
    _DTKEY exSet64Relink (_DTOBJ exSet64Relink 4) =
      _DTKEY exSet64Relink (_DTOBJ exSet64Relink 1) ∧
    (dthashchain 6 0 5 exSet64Relink 4 DT_RELINK).map
      (fun r => (r.2, r.1.htbl.getD 1 0, r.1.freed, r.1.size)) = some (10, 1, [4], 3) := by
  decide

/-- C19 (as amended). On every well-formed table that has its slot array, for every
`NULL`-ended list of pairwise distinct links that are in no chain (in set mode no link
of the list holding the object of another link of the list or of the table):
`DT_RESTORE` returns the list, the links the table held stay in their chains, the links
of the list are relinked, a duplicate of set mode being freed instead, and the count
is the number of links that came in.  So the links in the chains are links held
before or links of the list, every link of the list is in a chain or freed, and the
count is the number of links in the chains when the table held none before. -/
theorem restore_list (H F mk : Nat) (dt : Dt) (Ls : List (List Nat)) (list : Nat)
    (L : List Nat) (hw : WellFormed dt Ls) (hne : dt.htbl ≠ [])
    (hseg : Seg dt.heap list L 0) (hnd : L.Nodup) (hdet : ∀ a ∈ L, a ∉ Ls.flatten)
    (hobj : dt.bag = false →
      ∀ a ∈ L, ∀ b ∈ L ++ Ls.flatten, _DTOBJ dt a = _DTOBJ dt b → a = b)
    (hfuel : Ls.flatten.length + L.length ≤ F) :
    ∃ dt2 Ls2, dthashchain H mk (F + 2) dt list DT_RESTORE = some (dt2, list) ∧
      WellFormed dt2 Ls2 ∧
      (dt2.size : Int) + Ls.flatten.length = Ls2.flatten.length ∧
      (∀ a ∈ Ls.flatten, a ∈ Ls2.flatten) ∧
      (∀ a ∈ Ls2.flatten, a ∈ Ls.flatten ∨ a ∈ L) ∧
      (∀ a ∈ L, a ∈ Ls2.flatten ∨ a ∈ dt2.freed) ∧
      (∀ y, _DTOBJ dt2 y = _DTOBJ dt y) ∧
      (Ls.flatten = [] → dt2.size = Ls2.flatten.length ∧ ∀ a ∈ Ls2.flatten, a ∈ L) := by
  have hw0 : WellFormed { dt with size := 0 } Ls := hw
  obtain ⟨d2, Ms2, q1, q2, _, q4, q5, q6, q7, _, q9⟩ :=
    relinkList_spec H F mk L (F + 2) { dt with size := 0 } Ls list 0 hw0 hne hseg hnd hdet rfl
      hobj (by omega) hfuel
  rw [dthashchain_ready H mk (F + 1) dt list DT_RESTORE (by decide) hne hw.2.2.2.2,
    body_restore, q1]
  refine ⟨d2, Ms2, rfl, q2, by simpa using q4, q9, q5, q6, q7, ?_⟩
  intro hnil
  rw [hnil] at q4 q5
  refine ⟨by simpa using q4, fun a ha => (q5 a ha).resolve_left (by simp)⟩

/-- C19, witness: the list of the links `4` and `5` handed to `DT_RESTORE` on the table
`exSet64List`. -/
theorem restore_list_witness :
    ∃ dt2 Ls2, dthashchain 6 0 (5 + 2) exSet64List 4 DT_RESTORE = some (dt2, 4) ∧
      WellFormed dt2 Ls2 ∧
      (dt2.size : Int) + exSet64Chains.flatten.length = Ls2.flatten.length ∧
      (∀ a ∈ exSet64Chains.flatten, a ∈ Ls2.flatten) ∧
      (∀ a ∈ Ls2.flatten, a ∈ exSet64Chains.flatten ∨ a ∈ [4, 5]) ∧
      (∀ a ∈ [4, 5], a ∈ Ls2.flatten ∨ a ∈ dt2.freed) ∧
      (∀ y, _DTOBJ dt2 y = _DTOBJ exSet64List y) ∧
      (exSet64Chains.flatten = [] →
        dt2.size = Ls2.flatten.length ∧ ∀ a ∈ Ls2.flatten, a ∈ [4, 5]) :=
  restore_list 6 5 0 exSet64List exSet64Chains 4 [4, 5] (by decide) (by decide) (by decide)
    (by decide) (by decide) (by decide) (by decide)

/-- C19, counterexample, with `DT_HTABLE = 6`.  The table `exSet64List` holds the links
`1`, `2` and `3` in the slots `1`, `2` and `3`, and its count is `3`.  `DT_RESTORE` of
the list of the links `4` and `5` returns the list; afterwards the slots `1` to `5`
hold the links `1` to `5`, so the three links held before are still in their chains,
and the count is `2` while five links are in the chains. -/
theorem restore_list_cex :
    WellFormed exSet64List exSet64Chains ∧ exSet64List.size = 3 ∧
    Seg exSet64List.heap 4 [4, 5] 0 ∧ (∀ a ∈ [4, 5], a ∉ exSet64Chains.flatten) ∧
    (dthashchain 6 0 7 exSet64List 4 DT_RESTORE).map
      (fun r => (r.2, r.1.size, r.1.htbl.take 6)) = some (4, 2, [0, 1, 2, 3, 4, 5]) := by
  decide

end Dthash
